import Mathlib

/-!
# Verification development for the corso incremental snapshot engine

Shallow embedding of `src/internal/kopia/upload.go`:

* the versioned stream framing (`newBackupStreamReader`, `backupStreamReader`,
  `restoreStreamReader`),
* the tree merge (`getTreeNode`, `inflateCollectionTree`, `traverseBaseDir`,
  `inflateBaseTree`, `inflateDirTree`, `buildKopiaDirs`),
* the streaming directory enumeration (`collectionEntries`,
  `streamBaseEntries`, `getStreamItemFunc`).

Go readers are modelled by explicit state passing: a `Read` takes the reader
state and the length of the caller's buffer and returns the bytes written to
the buffer, the error, and the next state.
-/

namespace Corso

/-! ## Go values shared by all components -/

/-- One byte of a stream. -/
abbrev Byte := Fin 256

/-- Conversion `byte(x)` of Go: truncation to the low 8 bits. -/
def byte (x : Nat) : Byte := ⟨x % 256, Nat.mod_lt x (by decide)⟩

/-- Error values produced or forwarded by the embedded code. -/
inductive Err where
  /-- The sentinel `io.EOF`. -/
  | EOF
  /-- The sentinel `os.ErrClosed`. -/
  | ErrClosed
  /-- The error `ctx.Err()` of a cancelled context. -/
  | canceled
  /-- An error made by `errors.New(text)` or `errors.Errorf(text, ...)`. -/
  | new (text : String)
  /-- The error `errors.Errorf("unexpected data format %v", version)`. -/
  | unexpectedDataFormat (version : Nat)
  /-- The error `errors.Wrap(inner, text)`. -/
  | wrap (inner : Err) (text : String)
  /-- Any other error of an underlying reader or callback. -/
  | other (code : Nat)
deriving DecidableEq, Repr

/-- Result `(n, err)` of one `Read(p)`; `data` is `p[:n]`. -/
structure ReadResult where
  data : List Byte
  err : Option Err
deriving DecidableEq, Repr

/-- The interface `io.ReadCloser`, over an explicit reader state. `Read s n`
is `Read(p)` with `len(p) = n`. -/
class ioReadCloser (ρ : Type) where
  Read : ρ → Nat → ReadResult × ρ
  Close : ρ → Option Err × ρ

/-! ## Library readers used by the frame codec -/

/-- State of a `bytes.Reader`: the slice `s` and the read index `i`. Wrapped
in `io.NopCloser` where a `ReadCloser` is needed. -/
structure bytesReader where
  s : List Byte
  i : Nat
deriving DecidableEq, Repr

/-- Constructor `bytes.NewReader(b)`. -/
def bytesReader.NewReader (b : List Byte) : bytesReader := ⟨b, 0⟩

/-- Method `(*bytes.Reader).Read`: `io.EOF` once the index reached the end,
otherwise `copy(b, r.s[r.i:])`. -/
def bytesReader.Read (r : bytesReader) (n : Nat) : ReadResult × bytesReader :=
  if r.i ≥ r.s.length then
    (⟨[], some Err.EOF⟩, r)
  else
    let d := (r.s.drop r.i).take n
    (⟨d, none⟩, { r with i := r.i + d.length })

instance : ioReadCloser bytesReader where
  Read := bytesReader.Read
  Close := fun r => (none, r)

/-- One pass of the loop body of `(*multiReader).Read` after
`n, err = mr.readers[0].Read(p)` returned `r`, where `remaining` readers are
left once an exhausted reader has been dropped. `some` is the value returned,
`none` means the loop continues with the next reader. -/
def multiReaderStep (r : ReadResult) (remaining : Nat) : Option ReadResult :=
  if 0 < r.data.length ∨ r.err ≠ some Err.EOF then
    if r.err = some Err.EOF ∧ 0 < remaining then
      some { r with err := none }
    else
      some r
  else
    none

/-- State of `io.MultiReader(bufReader, reader)`: the two readers and how many
of them were already removed from `mr.readers`. -/
structure multiReader (ρ : Type) where
  bufReader : bytesReader
  reader : ρ
  dropped : Nat

/-- Method `(*multiReader).Read` for the two readers of a
`backupStreamReader`. -/
def multiReader.Read {ρ : Type} [ioReadCloser ρ] (mr : multiReader ρ) (n : Nat) :
    ReadResult × multiReader ρ :=
  let second (mr : multiReader ρ) : ReadResult × multiReader ρ :=
    let (r, rd) := ioReadCloser.Read mr.reader n
    let dropped := if r.err = some Err.EOF then 2 else 1
    match multiReaderStep r (2 - dropped) with
    | some res => (res, { mr with reader := rd, dropped := dropped })
    | none => (⟨[], some Err.EOF⟩, { mr with reader := rd, dropped := dropped })
  if mr.dropped = 0 then
    let (r, b) := mr.bufReader.Read n
    let dropped := if r.err = some Err.EOF then 1 else 0
    match multiReaderStep r (2 - dropped) with
    | some res => (res, { mr with bufReader := b, dropped := dropped })
    | none => second { mr with bufReader := b, dropped := dropped }
  else if mr.dropped = 1 then
    second mr
  else
    (⟨[], some Err.EOF⟩, mr)

/-! ## Frame codec -/

/-- Value of `versionSize`: `unsafe.Sizeof` of the `uint32` version. -/
def versionSize : Nat := 4

/-- Function `binary.BigEndian.PutUint32` on a fresh 4-byte buffer. -/
def putUint32 (v : Nat) : List Byte :=
  [byte (v / 2 ^ 24), byte (v / 2 ^ 16), byte (v / 2 ^ 8), byte v]

/-- Function `binary.BigEndian.Uint32`: the bytes are disjoint bit fields, so
the bitwise or of the shifted bytes is their sum. -/
def uint32 (b : List Byte) : Nat :=
  (b.getD 3 0).val + (b.getD 2 0).val * 2 ^ 8 + (b.getD 1 0).val * 2 ^ 16
    + (b.getD 0 0).val * 2 ^ 24

/-- The type `backupStreamReader`. `readers` is the pair
`(bufReader, reader)`; `combined` reads through the same two readers, so the
state keeps them once, together with the number of readers the multi-reader
already dropped (`none` once `combined` is nil). -/
structure backupStreamReader (ρ : Type) where
  bufReader : bytesReader
  reader : ρ
  combined : Option Nat
  /-- Number of `Close` calls received by `readers[0]`, an `io.NopCloser`. -/
  bufCloses : Nat
deriving DecidableEq, Repr

/-- Function `newBackupStreamReader`; `version` is a `uint32`. -/
def newBackupStreamReader {ρ : Type} (version : Nat) (reader : ρ) : backupStreamReader ρ :=
  let buf := putUint32 version
  let bufReader := bytesReader.NewReader buf
  { bufReader := bufReader, reader := reader, combined := some 0, bufCloses := 0 }

/-- Method `(*backupStreamReader).Read`. -/
def backupStreamReader.Read {ρ : Type} [ioReadCloser ρ] (rw : backupStreamReader ρ) (n : Nat) :
    ReadResult × backupStreamReader ρ :=
  match rw.combined with
  | none => (⟨[], some Err.ErrClosed⟩, rw)
  | some dropped =>
    let (r, mr) := multiReader.Read ⟨rw.bufReader, rw.reader, dropped⟩ n
    (r, { rw with bufReader := mr.bufReader, reader := mr.reader, combined := some mr.dropped })

/-- Method `(*backupStreamReader).Close`. -/
def backupStreamReader.Close {ρ : Type} [ioReadCloser ρ] (rw : backupStreamReader ρ) :
    Option Err × backupStreamReader ρ :=
  match rw.combined with
  | none => (none, rw)
  | some _ =>
    (none, { rw with combined := none, bufCloses := rw.bufCloses + 1,
                     reader := (ioReadCloser.Close rw.reader).2 })

instance {ρ : Type} [ioReadCloser ρ] : ioReadCloser (backupStreamReader ρ) where
  Read := backupStreamReader.Read
  Close := backupStreamReader.Close

/-- The type `restoreStreamReader`: the embedded `io.ReadCloser`, the expected
version and the `readVersion` flag. -/
structure restoreStreamReader (ρ : Type) where
  ReadCloser : ρ
  expectedVersion : Nat
  readVersion : Bool

/-- The read loop of `checkVersion`: `got` is `versionBuf[:newlyRead]`. Each
pass costs one unit of `fuel`; `none` means the loop did not finish within
`fuel` passes. On success the result carries the filled version buffer. -/
def checkVersionLoop {ρ : Type} [ioReadCloser ρ] :
    Nat → List Byte → ρ → Option (Except Err (List Byte) × ρ)
  | 0, got, rd => if got.length < versionSize then none else some (.ok got, rd)
  | fuel + 1, got, rd =>
    if got.length < versionSize then
      let (r, rd1) := ioReadCloser.Read rd (versionSize - got.length)
      match r.err with
      | some e => some (.error (Err.wrap e "reading data format version"), rd1)
      | none => checkVersionLoop fuel (got ++ r.data) rd1
    else
      some (.ok got, rd)

/-- Method `(*restoreStreamReader).checkVersion`. -/
def restoreStreamReader.checkVersion {ρ : Type} [ioReadCloser ρ] (fuel : Nat)
    (rw : restoreStreamReader ρ) : Option (Option Err × restoreStreamReader ρ) :=
  match checkVersionLoop fuel [] rw.ReadCloser with
  | none => none
  | some (.error e, rd) => some (some e, { rw with ReadCloser := rd })
  | some (.ok versionBuf, rd) =>
    let version := uint32 versionBuf
    if version ≠ rw.expectedVersion then
      some (some (Err.unexpectedDataFormat version), { rw with ReadCloser := rd })
    else
      some (none, { rw with ReadCloser := rd })

/-- Method `(*restoreStreamReader).Read`; `fuel` bounds the loop of
`checkVersion`. -/
def restoreStreamReader.Read {ρ : Type} [ioReadCloser ρ] (fuel : Nat)
    (rw : restoreStreamReader ρ) (n : Nat) : Option (ReadResult × restoreStreamReader ρ) :=
  if !rw.readVersion then
    let rw1 := { rw with readVersion := true }
    match rw1.checkVersion fuel with
    | none => none
    | some (some err, rw2) => some (⟨[], some err⟩, rw2)
    | some (none, rw2) =>
      let (r, rd) := ioReadCloser.Read rw2.ReadCloser n
      some (r, { rw2 with ReadCloser := rd })
  else
    let (r, rd) := ioReadCloser.Read rw.ReadCloser n
    some (r, { rw with ReadCloser := rd })

/-- Function `io.ReadAll` over a read function: reads until an error, turning
`io.EOF` into success. `sizes k` is the length of the buffer offered to the
`k`-th `Read` (always positive in the library); `none` means that `fuel` reads
did not reach the end of the stream. -/
def ReadAll {σ : Type} (read : σ → Nat → Option (ReadResult × σ)) :
    Nat → (Nat → Nat) → σ → List Byte → Option (List Byte × Option Err)
  | 0, _, _, _ => none
  | fuel + 1, sizes, s, acc =>
    match read s (sizes 0) with
    | none => none
    | some (r, s1) =>
      match r.err with
      | some e => some (acc ++ r.data, if e = Err.EOF then none else some e)
      | none => ReadAll read fuel (fun k => sizes (k + 1)) s1 (acc ++ r.data)

/-- A total read function seen as one that may fail to return. -/
def totalRead {σ : Type} [ioReadCloser σ] (s : σ) (n : Nat) : Option (ReadResult × σ) :=
  some (ioReadCloser.Read s n)

/-! ## Specification helpers for the frame codec -/

/-- Bytes of a `bytes.Reader` that were not read yet. -/
def bytesReader.rest (r : bytesReader) : List Byte := r.s.drop r.i

/-- Bytes a `backupStreamReader` over a `bytes.Reader` has still to deliver. -/
def backupStreamReader.rest (rw : backupStreamReader bytesReader) : List Byte :=
  match rw.combined with
  | some 0 => rw.bufReader.rest ++ rw.reader.rest
  | some 1 => rw.reader.rest
  | _ => []

/-! ## Go maps -/

/-- A Go `map[κ]ν` as an association list with distinct keys in insertion
order; `range` over the map follows the list (Go leaves the order open). -/
abbrev GoMap (κ ν : Type) := List (κ × ν)

/-- Lookup `m[k]` with the comma-ok result. -/
def mapGet {κ ν : Type} [DecidableEq κ] : GoMap κ ν → κ → Option ν
  | [], _ => none
  | (k1, v) :: m, k => if k1 = k then some v else mapGet m k

/-- Assignment `m[k] = v`. -/
def mapSet {κ ν : Type} [DecidableEq κ] : GoMap κ ν → κ → ν → GoMap κ ν
  | [], k, v => [(k, v)]
  | (k1, v1) :: m, k, v => if k1 = k then (k1, v) :: m else (k1, v1) :: mapSet m k v

/-- Removal `delete(m, k)`. -/
def mapDelete {κ ν : Type} [DecidableEq κ] (m : GoMap κ ν) (k : κ) : GoMap κ ν :=
  m.filter (fun kv => !decide (kv.1 = k))

/-! ## Paths, collections and base snapshots -/

/-- Modelled from the spec: `path.Path` and `path.Builder` of `pkg/path`, which
is not among the sources. A path is its element sequence; a `path.Path` also
knows whether its last element is an item. `String()` joins the escaped
elements and is used by the tree code only as a map key, so keys are element
sequences. -/
structure Path where
  elements : List String
  hasItem : Bool
deriving DecidableEq, Repr

/-- Modelled from the spec: `Builder.Append(element)`, the path extended by
one element. -/
abbrev builderAppend (elements : List String) (element : String) : List String :=
  elements ++ [element]

/-- Modelled from the spec: `Path.Append(child, isItem)`; appending below an
item path is the error case. -/
def Path.Append (p : Path) (element : String) (isItem : Bool) : Except Err Path :=
  if p.hasItem then .error (Err.new "appending to an item path")
  else .ok ⟨builderAppend p.elements element, isItem⟩

/-- Modelled from the spec: `Builder.Dir()`, the path without its last
element. -/
def builderDir (elements : List String) : List String := elements.dropLast

/-- Modelled from the spec: `PopFront()`, the path without its first
element. -/
def builderPopFront (elements : List String) : List String := elements.tail

/-- Modelled from the spec: `details.FolderInfo`. -/
structure FolderInfo where
  DisplayName : String
deriving DecidableEq, Repr

/-- Modelled from the spec: `details.ItemInfo`, a tagged variant; only the
folder variant is inspected here, the service variants are kept as a tag. -/
structure ItemInfo where
  Folder : Option FolderInfo
  service : Nat
deriving DecidableEq, Repr

/-- A `data.Stream`: `Info` is present when the stream implements
`data.StreamInfo`, `ModTime` when it implements `data.StreamModTime`;
`ToReader` is the content its reader delivers. -/
structure Stream where
  UUID : String
  ToReader : List Byte
  Deleted : Bool
  Info : Option ItemInfo
  ModTime : Option Nat
deriving DecidableEq, Repr

/-- The values of `data.CollectionState`. -/
inductive CollectionState where
  | NewState
  | NotMovedState
  | MovedState
  | DeletedState
deriving DecidableEq, Repr

/-- A `data.Collection`; `Items` is the finite sequence received from the
channel `Items()`. A nil path is `none`. -/
structure Collection where
  FullPath : Option Path
  PreviousPath : Option Path
  State : CollectionState
  Items : List Stream
deriving DecidableEq, Repr

/-- An `fs.Entry` of a base snapshot: a file, or a directory (`fs.Directory`)
with its entries in the order `IterateEntries` visits them. -/
inductive Entry where
  | file (name : String)
  | dir (name : String) (entries : List Entry)
deriving Repr

mutual
/-- Decision procedure for equality of entries. -/
def Entry.decEq : (a b : Entry) → Decidable (a = b)
  | .file n, .file m =>
    if h : n = m then isTrue (by rw [h]) else isFalse (by intro e; cases e; exact h rfl)
  | .file _, .dir _ _ => isFalse (by intro e; cases e)
  | .dir _ _, .file _ => isFalse (by intro e; cases e)
  | .dir n es, .dir m fs =>
    if h : n = m then
      match Entry.decEqList es fs with
      | isTrue h2 => isTrue (by rw [h, h2])
      | isFalse h2 => isFalse (by intro e; cases e; exact h2 rfl)
    else isFalse (by intro e; cases e; exact h rfl)
/-- Decision procedure for equality of entry lists. -/
def Entry.decEqList : (a b : List Entry) → Decidable (a = b)
  | [], [] => isTrue rfl
  | [], _ :: _ => isFalse (by intro e; cases e)
  | _ :: _, [] => isFalse (by intro e; cases e)
  | a :: as, b :: bs =>
    match Entry.decEq a b, Entry.decEqList as bs with
    | isTrue h1, isTrue h2 => isTrue (by rw [h1, h2])
    | isFalse h1, _ => isFalse (by intro e; cases e; exact h1 rfl)
    | _, isFalse h2 => isFalse (by intro e; cases e; exact h2 rfl)
end

instance : DecidableEq Entry := Entry.decEq

/-- Method `Name()` of an entry. -/
def Entry.Name : Entry → String
  | .file name => name
  | .dir name _ => name

/-- Type test `entry.(fs.Directory)`. -/
def Entry.isDir : Entry → Bool
  | .file _ => false
  | .dir _ _ => true

/-- Entries of a directory (none for a file). -/
def Entry.entries : Entry → List Entry
  | .file _ => []
  | .dir _ entries => entries

/-- Functions and constants of package `kopia` that live outside `upload.go`
(the base64 path encoder and the serialization version), and the clock. -/
structure Env where
  encodeAsPath : List String → String
  encodeElements : List String → List String
  decodeElement : String → Except Err String
  serializationVersion : Nat
  now : Nat

/-! ## Merge tree -/

/-- The type `treeMap`. -/
inductive treeMap where
  | mk (childDirs : List (String × treeMap)) (collection : Option Collection)
      (baseDir : Option Entry)
deriving Repr

/-- Field `childDirs`. -/
def treeMap.childDirs : treeMap → GoMap String treeMap
  | .mk c _ _ => c

/-- Field `collection`. -/
def treeMap.collection : treeMap → Option Collection
  | .mk _ c _ => c

/-- Field `baseDir`. -/
def treeMap.baseDir : treeMap → Option Entry
  | .mk _ _ b => b

/-- Function `newTreeMap`. -/
def newTreeMap : treeMap := .mk [] none none

/-- Assignment `node.collection = s`. -/
def treeMap.setCollection (s : Collection) : treeMap → treeMap
  | .mk c _ b => .mk c (some s) b

/-- Assignment `node.baseDir = dir`. -/
def treeMap.setBaseDir (dir : Entry) : treeMap → treeMap
  | .mk c s _ => .mk c s (some dir)

/-- The loop of `getTreeNode` below the root: walks `pathElements[1:]` from
`dir`, creating missing nodes, and applies to the node reached the write `f`
that the caller performs through the returned pointer. -/
def treeMap.walk : List String → (treeMap → treeMap) → treeMap → treeMap
  | [], f, dir => f dir
  | p :: ps, f, dir =>
    let newDir := (mapGet dir.childDirs p).getD newTreeMap
    .mk (mapSet dir.childDirs p (treeMap.walk ps f newDir)) dir.collection dir.baseDir

/-- Function `getTreeNode`, together with the write `f` the caller performs
on the returned node; `none` is the nil node returned for empty
`pathElements`. -/
def getTreeNode (roots : GoMap String treeMap) (pathElements : List String)
    (f : treeMap → treeMap) : Option (GoMap String treeMap) :=
  match pathElements with
  | [] => none
  | p0 :: ps =>
    let dir := (mapGet roots p0).getD newTreeMap
    some (mapSet roots p0 (treeMap.walk ps f dir))

/-- Read-only descent from `dir` along `pathElements`. -/
def treeMap.find : List String → treeMap → Option treeMap
  | [], dir => some dir
  | p :: ps, dir =>
    match mapGet dir.childDirs p with
    | none => none
    | some child => treeMap.find ps child

/-- The node of the forest `roots` at `pathElements`, if there is one. -/
def findNode (roots : GoMap String treeMap) (pathElements : List String) : Option treeMap :=
  match pathElements with
  | [] => none
  | p0 :: ps =>
    match mapGet roots p0 with
    | none => none
    | some dir => treeMap.find ps dir

/-- The run-time panic of a method call on a nil path. -/
def nilDereference : Err := Err.new "invalid memory address or nil pointer dereference"

/-- The `switch s.State()` of `inflateCollectionTree` for a collection that is
not deleted: a moved collection registers its new path under its previous
one. -/
def registerMove (s : Collection) (updatedPaths : GoMap (List String) (Option Path)) :
    Except Err (GoMap (List String) (Option Path)) :=
  match s.State with
  | .MovedState =>
    match s.PreviousPath with
    | none => .error nilDereference
    | some prev => .ok (mapSet updatedPaths prev.elements s.FullPath)
  | _ => .ok updatedPaths

/-- The loop of `inflateCollectionTree` over the collections, threading `roots`
and `updatedPaths`. -/
def inflateCollectionLoop :
    List Collection → GoMap String treeMap → GoMap (List String) (Option Path) →
      Except Err (GoMap String treeMap × GoMap (List String) (Option Path))
  | [], roots, updatedPaths => .ok (roots, updatedPaths)
  | s :: rest, roots, updatedPaths =>
    if s.State = .DeletedState then
      match s.PreviousPath with
      | none => .error nilDereference
      | some prev => inflateCollectionLoop rest roots (mapSet updatedPaths prev.elements none)
    else
      match registerMove s updatedPaths with
      | .error err => .error err
      | .ok updatedPaths =>
        match s.FullPath with
        | none => .error (Err.new "no identifier for collection")
        | some fullPath =>
          if fullPath.elements.length = 0 then
            .error (Err.new "no identifier for collection")
          else
            match getTreeNode roots fullPath.elements (treeMap.setCollection s) with
            | none => .error (Err.new "unable to get tree node for path")
            | some roots => inflateCollectionLoop rest roots updatedPaths

/-- Function `inflateCollectionTree`: the loop started with an empty forest
and an empty `updatedPaths`. The owner and category tags the function also
gathers are not returned and are left out. -/
def inflateCollectionTree (collections : List Collection) :
    Except Err (GoMap String treeMap × GoMap (List String) (Option Path)) :=
  inflateCollectionLoop collections [] []

/-- Constant `maxInflateTraversalDepth`. -/
def maxInflateTraversalDepth : Nat := 500

/-- Lines 582 to 597 of `traverseBaseDir`: the path `currentPath` of the
directory named `dirName` under a parent with old path `oldDirPath` and new
path `newDirPath` (`none` is the nil builder). -/
def currentPathOf (updatedPaths : GoMap (List String) (Option Path))
    (oldDirPath : List String) (newDirPath : Option (List String)) (dirName : String) :
    Option (List String) :=
  let oldDirPath := builderAppend oldDirPath dirName
  let currentPath := newDirPath.map (fun p => builderAppend p dirName)
  match mapGet updatedPaths oldDirPath with
  | some none => none
  | some (some upb) => some upb.elements
  | none => currentPath

mutual
/-- Function `traverseBaseDir`; `dir` is an `fs.Directory`, the file case is
excluded by the Go type. -/
def traverseBaseDir (env : Env) (updatedPaths : GoMap (List String) (Option Path))
    (depth : Nat) (oldDirPath : List String) (newDirPath : Option (List String)) :
    Entry → GoMap String treeMap → Except Err (GoMap String treeMap)
  | .file _, roots => .ok roots
  | .dir name entries, roots =>
    if depth ≥ maxInflateTraversalDepth then
      .error (Err.new "base snapshot tree too tall")
    else
      match env.decodeElement name with
      | .error err => .error (Err.wrap err "decoding base directory name")
      | .ok dirName =>
        let currentPath := currentPathOf updatedPaths oldDirPath newDirPath dirName
        let oldDirPath := builderAppend oldDirPath dirName
        match traverseEntries env updatedPaths depth oldDirPath currentPath entries false roots with
        | .error err => .error (Err.wrap err "traversing base directory")
        | .ok (hasItems, roots) =>
          match currentPath with
          | some currentPath =>
            if hasItems then
              match getTreeNode roots currentPath (treeMap.setBaseDir (.dir name entries)) with
              | none => .error (Err.new "unable to get tree node for path")
              | some roots => .ok roots
            else
              .ok roots
          | none => .ok roots
/-- The call `dir.IterateEntries` of `traverseBaseDir` with its callback: a
non-directory entry sets `hasItems`, a directory is traversed one level
deeper; the first error stops the iteration. -/
def traverseEntries (env : Env) (updatedPaths : GoMap (List String) (Option Path))
    (depth : Nat) (oldDirPath : List String) (currentPath : Option (List String)) :
    List Entry → Bool → GoMap String treeMap → Except Err (Bool × GoMap String treeMap)
  | [], hasItems, roots => .ok (hasItems, roots)
  | .file _ :: rest, _, roots =>
    traverseEntries env updatedPaths depth oldDirPath currentPath rest true roots
  | .dir name entries :: rest, hasItems, roots =>
    match traverseBaseDir env updatedPaths (depth + 1) oldDirPath currentPath
        (.dir name entries) roots with
    | .error err => .error err
    | .ok roots =>
      traverseEntries env updatedPaths depth oldDirPath currentPath rest hasItems roots
end

/-- The snapshot a base is loaded from: `IncrementalBase` keeps the manifest
(its `ID`), the incomplete reason and the subtree paths. -/
structure IncrementalBase where
  ID : String
  IncompleteReason : String
  SubtreePaths : List (List String)
deriving DecidableEq, Repr

/-- Library function `snapshotfs.GetNestedEntry`: follows `pathElements` from
`startingDir` child by child, skipping empty parts; only the last part may be
a file. -/
def GetNestedEntry : Entry → List String → Except Err Entry
  | current, [] => .ok current
  | current, part :: rest =>
    if part = "" then GetNestedEntry current rest
    else
      match current.entries.find? (fun e => e.Name = part) with
      | none => .error (Err.wrap (Err.new "entry not found") "error reading directory")
      | some e =>
        if e.isDir then GetNestedEntry e rest
        else if rest.length = 0 then .ok e
        else .error (Err.new "entry not found: parent is not a directory")

/-- The loop of `inflateBaseTree` over `snap.SubtreePaths`. A subtree root
that is not a directory returns `errors.Wrapf(err, ...)` with a nil `err`,
which is nil: the function returns without error and skips the remaining
subtrees. -/
def inflateSubtrees (env : Env) (updatedPaths : GoMap (List String) (Option Path))
    (dir : Entry) :
    List (List String) → GoMap String treeMap → Except Err (GoMap String treeMap)
  | [], roots => .ok roots
  | subtreePath :: rest, roots =>
    let pathElems := env.encodeElements (builderPopFront subtreePath)
    match GetNestedEntry dir pathElems with
    | .error err => .error (Err.wrap err "snapshot getting subtree root")
    | .ok ent =>
      if !ent.isDir then
        .ok roots
      else
        match traverseBaseDir env updatedPaths 0 (builderDir subtreePath)
            (some (builderDir subtreePath)) ent roots with
        | .error err => .error (Err.wrap err "traversing base snapshot")
        | .ok roots => inflateSubtrees env updatedPaths dir rest roots

/-- Function `inflateBaseTree`; `loader` is `loader.SnapshotRoot` by manifest
ID. -/
def inflateBaseTree (env : Env) (loader : String → Except Err Entry) (snap : IncrementalBase)
    (updatedPaths : GoMap (List String) (Option Path)) (roots : GoMap String treeMap) :
    Except Err (GoMap String treeMap) :=
  if snap.IncompleteReason.length > 0 then
    .ok roots
  else
    match loader snap.ID with
    | .error err => .error (Err.wrap err "getting snapshot root directory")
    | .ok root =>
      if !root.isDir then
        .error (Err.new "snapshot root is not a directory")
      else
        inflateSubtrees env updatedPaths root snap.SubtreePaths roots

/-- The loop of `inflateDirTree` over `baseSnaps`. -/
def inflateBaseTrees (env : Env) (loader : String → Except Err Entry)
    (updatedPaths : GoMap (List String) (Option Path)) :
    List IncrementalBase → GoMap String treeMap → Except Err (GoMap String treeMap)
  | [], roots => .ok roots
  | snap :: rest, roots =>
    match inflateBaseTree env loader snap updatedPaths roots with
    | .error err => .error (Err.wrap err "inflating base snapshot tree(s)")
    | .ok roots => inflateBaseTrees env loader updatedPaths rest roots

/-- The first half of `inflateDirTree`: the merge tree after the collections
and all base snapshots were inflated. -/
def inflateRoots (env : Env) (loader : String → Except Err Entry)
    (baseSnaps : List IncrementalBase) (collections : List Collection) :
    Except Err (GoMap String treeMap) :=
  match inflateCollectionTree collections with
  | .error err => .error (Err.wrap err "inflating collection tree")
  | .ok (roots, updatedPaths) => inflateBaseTrees env loader updatedPaths baseSnaps roots

/-! ## Materialised directories -/

/-- An `fs.Directory` returned by `buildKopiaDirs`: a directory of the base
snapshot reused as it is, or a `virtualfs.StreamingDirectory`, kept as its
name and the four values captured by the closure of `getStreamItemFunc` (the
progress pointer is supplied when the directory is enumerated). -/
inductive KopiaDir where
  | base (dir : Entry)
  | streaming (name : String) (staticEnts : List KopiaDir)
      (streamedEnts : Option Collection) (baseDir : Option Entry)
deriving Repr

mutual
/-- Function `buildKopiaDirs`. -/
def buildKopiaDirs (env : Env) (dirName : String) : treeMap → Except Err KopiaDir
  | .mk childDirs collection baseDir =>
    match collection, childDirs, baseDir with
    | none, [], some baseDir => .ok (.base baseDir)
    | _, _, _ =>
      match buildChildDirs env childDirs with
      | .error err => .error err
      | .ok childEnts =>
        .ok (.streaming (env.encodeAsPath [dirName]) childEnts collection baseDir)
/-- The loop of `buildKopiaDirs` over `dir.childDirs`. -/
def buildChildDirs (env : Env) : List (String × treeMap) → Except Err (List KopiaDir)
  | [] => .ok []
  | (childName, childDir) :: rest =>
    match buildKopiaDirs env childName childDir with
    | .error err => .error err
    | .ok child =>
      match buildChildDirs env rest with
      | .error err => .error err
      | .ok children => .ok (child :: children)
end

/-- Method `Name()` of a materialised directory. -/
def KopiaDir.Name : KopiaDir → String
  | .base dir => dir.Name
  | .streaming name _ _ _ => name

/-- The directories among the entries of a materialised directory: the
subdirectories of a reused base directory, the static entries of a streaming
directory. -/
def KopiaDir.childDirs : KopiaDir → List KopiaDir
  | .base dir => (dir.entries.filter Entry.isDir).map KopiaDir.base
  | .streaming _ staticEnts _ _ => staticEnts

/-- The directories reached from `dir` by following the encoded names of
`pathElements`. -/
def subdirsAt (env : Env) : List String → KopiaDir → List KopiaDir
  | [], dir => [dir]
  | p :: ps, dir =>
    ((dir.childDirs.filter (fun child => child.Name = env.encodeAsPath [p])).map
      (subdirsAt env ps)).flatten

/-- Function `inflateDirTree`; the result is nil (`none`) when there is no
root. -/
def inflateDirTree (env : Env) (loader : String → Except Err Entry)
    (baseSnaps : List IncrementalBase) (collections : List Collection) :
    Except Err (Option KopiaDir) :=
  match inflateRoots env loader baseSnaps collections with
  | .error err => .error err
  | .ok roots =>
    if roots.length > 1 then
      .error (Err.new "multiple root directories")
    else
      match roots with
      | [] => .ok none
      | (dirName, dir) :: _ =>
        match buildKopiaDirs env dirName dir with
        | .error err => .error err
        | .ok tmp => .ok (some tmp)

/-! ## Progress sidecar and directory enumeration -/

/-- The type `itemDetails`. -/
structure itemDetails where
  info : ItemInfo
  repoPath : Path
deriving DecidableEq, Repr

/-- The string forms of a path or builder with the given elements, `String()`
and `ShortRef()` of `pkg/path`, taken as given. -/
structure PathRefs where
  pathString : List String → String
  ShortRef : List String → String

/-- Modelled from the spec: a record of the details catalog, with the fields
`repoRef`, `shortRef`, `parentRef`, `isItem` and `info`. -/
structure DetailsEntry where
  RepoRef : String
  ShortRef : String
  ParentRef : String
  isItem : Bool
  Info : ItemInfo
deriving DecidableEq, Repr

/-- The type `details.FolderEntry` with the fields `FinishedFile` fills. -/
structure FolderEntry where
  RepoRef : String
  ShortRef : String
  ParentRef : String
  Info : ItemInfo
deriving DecidableEq, Repr

/-- Modelled from the spec: the details catalog `details.Details`, append-only:
its records in the order added, and the `repoRef`s of the folders registered
so far. -/
structure Details where
  Entries : List DetailsEntry
  knownFolders : List String
deriving DecidableEq, Repr

/-- Modelled from the spec: `Add(repoRef, shortRef, parentRef, isItem, info)`
appends one record. -/
def Details.Add (d : Details) (repoRef shortRef parentRef : String) (isItem : Bool)
    (info : ItemInfo) : Details :=
  { d with Entries := d.Entries ++ [⟨repoRef, shortRef, parentRef, isItem, info⟩] }

/-- Modelled from the spec: `AddFolders(list)` registers every folder of the
list that is not registered yet, deduplicating by `repoRef`. -/
def Details.AddFolders (d : Details) : List FolderEntry → Details
  | [] => d
  | f :: folders =>
    if f.RepoRef ∈ d.knownFolders then d.AddFolders folders
    else
      Details.AddFolders
        ⟨d.Entries ++ [⟨f.RepoRef, f.ShortRef, f.ParentRef, false, f.Info⟩],
          d.knownFolders ++ [f.RepoRef]⟩
        folders

/-- Modelled from the spec: the `repoRef`s of the item records of the catalog,
in the order added. -/
def Details.itemRefs (d : Details) : List String :=
  (d.Entries.filter (fun e => e.isItem)).map DetailsEntry.RepoRef

/-- The fields of `corsoProgress` written by the enumeration and the two
callbacks of the uploader; the embedded `UploadProgress` of kopia, to which
both callbacks pass their call on, is left out. -/
structure corsoProgress where
  pending : GoMap String itemDetails
  totalBytes : Int
  deets : Details := ⟨[], []⟩
deriving DecidableEq, Repr

/-- Method `(*corsoProgress).put`. -/
def corsoProgress.put (cp : corsoProgress) (k : String) (v : itemDetails) : corsoProgress :=
  { cp with pending := mapSet cp.pending k v }

/-- Method `(*corsoProgress).get`. -/
def corsoProgress.get (cp : corsoProgress) (k : String) : Option itemDetails :=
  mapGet cp.pending k

/-- The loop `for len(parent.Elements()) > 0` of `FinishedFile`, which appends
one `FolderEntry` for `parent` and goes on with `parent.Dir()`. Every round
shortens `parent` by one element, so `len(parent)` rounds of fuel reach the end
of the loop. -/
def folderLoop (refs : PathRefs) : Nat → List String → List FolderEntry → List FolderEntry
  | 0, _, folders => folders
  | fuel + 1, parent, folders =>
    if parent.length > 0 then
      let nextParent := builderDir parent
      folderLoop refs fuel nextParent
        (folders ++ [⟨refs.pathString parent, refs.ShortRef parent, refs.ShortRef nextParent,
          ⟨some ⟨parent.getLastD ""⟩, 0⟩⟩])
    else folders

/-- Method `(*corsoProgress).FinishedFile`; `err` is `none` for a nil error.
The deferred `delete(cp.pending, relativePath)` runs on every return. -/
def corsoProgress.FinishedFile (refs : PathRefs) (cp : corsoProgress) (relativePath : String)
    (err : Option Err) : corsoProgress :=
  let cp1 :=
    match err with
    | some _ => cp
    | none =>
      match cp.get relativePath with
      | none => cp
      | some d =>
        let parent := builderDir d.repoPath.elements
        let deets := cp.deets.Add (refs.pathString d.repoPath.elements)
          (refs.ShortRef d.repoPath.elements) (refs.ShortRef parent) true d.info
        let folders := folderLoop refs parent.length parent []
        { cp with deets := deets.AddFolders folders }
  { cp1 with pending := mapDelete cp1.pending relativePath }

/-- Method `(*corsoProgress).FinishedHashingFile`: `atomic.AddInt64` on the
64-bit counter `totalBytes`. -/
def corsoProgress.FinishedHashingFile (cp : corsoProgress) (_fname : String) (bs : Int) :
    corsoProgress :=
  { cp with totalBytes := (cp.totalBytes + bs + 2 ^ 63) % 2 ^ 64 - 2 ^ 63 }

/-- An `fs.Entry` handed to the callback of a directory enumeration: a static
child directory, a `virtualfs.StreamingFileWithModTimeFromReader`, or an entry
of the base directory. -/
inductive CbEntry where
  | static (dir : KopiaDir)
  | streamingFile (name : String) (modTime : Nat) (reader : backupStreamReader bytesReader)
  | base (entry : Entry)
deriving Repr

/-- The callback `cb` of an enumeration: its answer may depend on the entries
it received before, listed oldest first. -/
abbrev Callback := List CbEntry → CbEntry → Option Err

/-- State threaded through one enumeration: the entries passed to the callback
so far, the progress sidecar and the context. The context is `none` when it is
never cancelled, and `some k` when the next `k` polls see it alive and every
later poll sees it cancelled. -/
structure EnumState where
  calls : List CbEntry
  progress : corsoProgress
  ctx : Option Nat

/-- One poll of the context (`ctx.Done()` ready, or `ctx.Err() != nil`):
whether it is seen cancelled, and the context afterwards. -/
def ctxPoll : Option Nat → Bool × Option Nat
  | none => (false, none)
  | some 0 => (true, some 0)
  | some (k + 1) => (false, some k)

/-- The call `cb(ctx, entry)`. -/
def invoke (cb : Callback) (entry : CbEntry) (st : EnumState) : Option Err × EnumState :=
  (cb st.calls entry, { st with calls := st.calls ++ [entry] })

/-- The `for`/`select` loop of `collectionEntries` over the items received
from the channel; `fullPath` is `streamedEnts.FullPath()`. The result is
`(seen, errs)`, `errs` being the errors gathered in the multierror. -/
def collectionItems (env : Env) (cb : Callback) (fullPath : Option Path) :
    List Stream → GoMap String Unit → List Err → EnumState →
      (GoMap String Unit × List Err) × EnumState
  | [], seen, errs, st =>
    match ctxPoll st.ctx with
    | (true, ctx) => ((seen, errs ++ [Err.canceled]), { st with ctx := ctx })
    | (false, ctx) => ((seen, errs), { st with ctx := ctx })
  | e :: items, seen, errs, st =>
    match ctxPoll st.ctx with
    | (true, ctx) => ((seen, errs ++ [Err.canceled]), { st with ctx := ctx })
    | (false, ctx) =>
      let st := { st with ctx := ctx }
      let encodedName := env.encodeAsPath [e.UUID]
      let seen := mapSet seen encodedName ()
      match fullPath with
      | none => ((seen, errs ++ [nilDereference]), st)
      | some fullPath =>
        match fullPath.Append e.UUID true with
        | .error err =>
          collectionItems env cb (some fullPath) items seen
            (errs ++ [Err.wrap err "getting full item path"]) st
        | .ok itemPath =>
          if e.Deleted then
            collectionItems env cb (some fullPath) items seen errs st
          else
            let st :=
              match e.Info with
              | some info =>
                let d : itemDetails := { info := info, repoPath := itemPath }
                let k := env.encodeAsPath (builderPopFront itemPath.elements)
                { st with progress := st.progress.put k d }
              | none => st
            let modTime := e.ModTime.getD env.now
            let entry := CbEntry.streamingFile encodedName modTime
              (newBackupStreamReader env.serializationVersion (bytesReader.NewReader e.ToReader))
            match invoke cb entry st with
            | (some err, st) => ((seen, errs ++ [Err.wrap err "executing callback on item"]), st)
            | (none, st) => collectionItems env cb (some fullPath) items seen errs st

/-- Function `collectionEntries`. -/
def collectionEntries (env : Env) (cb : Callback) (streamedEnts : Option Collection)
    (st : EnumState) : (GoMap String Unit × List Err) × EnumState :=
  match streamedEnts with
  | none => (([], []), st)
  | some streamedEnts => collectionItems env cb streamedEnts.FullPath streamedEnts.Items [] [] st

/-- The call `dir.IterateEntries` of `streamBaseEntries` with its callback.
When `cb` fails, `entName, err := decodeElement(entry.Name())` declares a new
`err` in the inner block, so the value returned is
`errors.Wrapf(decodeErr, ...)`: nil when the name decodes, in which case the
iteration goes on. -/
def streamBaseLoop (env : Env) (cb : Callback) (encodedSeen : GoMap String Unit) :
    List Entry → EnumState → Option Err × EnumState
  | [], st => (none, st)
  | entry :: rest, st =>
    match ctxPoll st.ctx with
    | (true, ctx) => (some Err.canceled, { st with ctx := ctx })
    | (false, ctx) =>
      let st := { st with ctx := ctx }
      if entry.isDir then
        streamBaseLoop env cb encodedSeen rest st
      else if (mapGet encodedSeen entry.Name).isSome then
        streamBaseLoop env cb encodedSeen rest st
      else
        match invoke cb (.base entry) st with
        | (some _, st) =>
          match env.decodeElement entry.Name with
          | .ok _ => streamBaseLoop env cb encodedSeen rest st
          | .error err => (some (Err.wrap err "executing callback on item"), st)
        | (none, st) => streamBaseLoop env cb encodedSeen rest st

/-- Function `streamBaseEntries`. When the iteration fails,
`name, err := decodeElement(dir.Name())` again declares a new `err`, so the
function returns `errors.Wrapf(decodeErr, ...)`: nil when the directory name
decodes. -/
def streamBaseEntries (env : Env) (cb : Callback) (dir : Option Entry)
    (encodedSeen : GoMap String Unit) (st : EnumState) : Option Err × EnumState :=
  match dir with
  | none => (none, st)
  | some dir =>
    match streamBaseLoop env cb encodedSeen dir.entries st with
    | (some _, st) =>
      match env.decodeElement dir.Name with
      | .ok _ => (none, st)
      | .error err => (some (Err.wrap err "traversing items in base snapshot directory"), st)
    | (none, st) => (none, st)

/-- The loop of `getStreamItemFunc` over `staticEnts`. -/
def staticEntries (cb : Callback) : List KopiaDir → EnumState → Option Err × EnumState
  | [], st => (none, st)
  | d :: rest, st =>
    match invoke cb (.static d) st with
    | (some err, st) => (some (Err.wrap err "executing callback on static directory"), st)
    | (none, st) => staticEntries cb rest st

/-- The function returned by `getStreamItemFunc`, applied to the callback. The
result lists the errors of the returned multierror: the empty list is the nil
error of `errs.ErrorOrNil()`. -/
def getStreamItemFunc (env : Env) (staticEnts : List KopiaDir) (streamedEnts : Option Collection)
    (baseDir : Option Entry) (cb : Callback) (st : EnumState) : List Err × EnumState :=
  match staticEntries cb staticEnts st with
  | (some err, st) => ([err], st)
  | (none, st) =>
    match collectionEntries env cb streamedEnts st with
    | ((seen, errs), st) =>
      match streamBaseEntries env cb baseDir seen st with
      | (some err, st) => (errs ++ [Err.wrap err "streaming base snapshot entries"], st)
      | (none, st) => (errs, st)

/-! ## Specification of the base traversal -/

/-- The new path of a base directory named `dirName` whose parent has old
path `oldParent` and new path `newParent`: the entry of `updatedPaths` for the
directory's old path when there is one (nil meaning deleted), otherwise nil
under a parent without a new path, otherwise the parent's new path extended by
the name. -/
def newPathRule (updatedPaths : GoMap (List String) (Option Path)) (oldParent : List String)
    (newParent : Option (List String)) (dirName : String) : Option (List String) :=
  match mapGet updatedPaths (oldParent ++ [dirName]) with
  | some upb => upb.map Path.elements
  | none =>
    match newParent with
    | none => none
    | some p => some (p ++ [dirName])

/-- The new path of the directory reached by the decoded names `rel` below a
directory with old path `old` and new path `new`, by `newPathRule` at every
step. -/
def resolvePath (updatedPaths : GoMap (List String) (Option Path)) :
    List String → Option (List String) → List String → Option (List String)
  | _, new, [] => new
  | old, new, n :: rest =>
    resolvePath updatedPaths (old ++ [n]) (newPathRule updatedPaths old new n) rest

/-- A directory of a base snapshot with its old and its new path. -/
structure Placement where
  oldPath : List String
  newPath : Option (List String)
  dir : Entry
deriving DecidableEq, Repr

/-- Whether a base directory directly contains a non-directory entry. -/
def Entry.hasItems (d : Entry) : Bool := d.entries.any (fun e => !e.isDir)

mutual
/-- All directories of the base subtree `dir` whose names decode, children
before their parent, each with its old path and the new path given by
`newPathRule`. -/
def placements (env : Env) (updatedPaths : GoMap (List String) (Option Path))
    (oldParent : List String) (newParent : Option (List String)) : Entry → List Placement
  | .file _ => []
  | .dir name entries =>
    match env.decodeElement name with
    | .error _ => []
    | .ok dirName =>
      placementsList env updatedPaths (oldParent ++ [dirName])
          (newPathRule updatedPaths oldParent newParent dirName) entries
        ++ [⟨oldParent ++ [dirName], newPathRule updatedPaths oldParent newParent dirName,
            .dir name entries⟩]
/-- The placements of the directories among `entries`, in order. -/
def placementsList (env : Env) (updatedPaths : GoMap (List String) (Option Path))
    (oldParent : List String) (newParent : Option (List String)) : List Entry → List Placement
  | [] => []
  | e :: rest =>
    placements env updatedPaths oldParent newParent e
      ++ placementsList env updatedPaths oldParent newParent rest
end

/-- The assignment `node.baseDir = dir` a placement stands for: only a
directory with a new path and at least one non-directory entry is assigned, to
the node at its new path. -/
def Placement.assignment (p : Placement) : Option (List String × Entry) :=
  match p.newPath with
  | some n => if p.dir.hasItems then some (n, p.dir) else none
  | none => none

/-- The write `getTreeNode(roots, path).baseDir = dir`. -/
def assignBaseDir (roots : GoMap String treeMap) (a : List String × Entry) :
    GoMap String treeMap :=
  (getTreeNode roots a.1 (treeMap.setBaseDir a.2)).getD roots

/-- The merge tree after the assignments of the placements `ps`, in order. -/
def applyPlacements (ps : List Placement) (roots : GoMap String treeMap) :
    GoMap String treeMap :=
  (ps.filterMap Placement.assignment).foldl assignBaseDir roots

/-- The `baseDir` of the node at `pathElements`, nil when there is no node. -/
def baseDirAt (roots : GoMap String treeMap) (pathElements : List String) : Option Entry :=
  (findNode roots pathElements).bind treeMap.baseDir

/-- The `collection` of the node at `pathElements`, nil when there is no
node. -/
def collectionAt (roots : GoMap String treeMap) (pathElements : List String) :
    Option Collection :=
  (findNode roots pathElements).bind treeMap.collection

/-- The placements of the loop of `inflateBaseTree` over the subtree paths: it
ends at the first subtree root that cannot be reached or is not a
directory. -/
def subtreePlacements (env : Env) (updatedPaths : GoMap (List String) (Option Path))
    (dir : Entry) : List (List String) → List Placement
  | [] => []
  | subtreePath :: rest =>
    match GetNestedEntry dir (env.encodeElements (builderPopFront subtreePath)) with
    | .error _ => []
    | .ok ent =>
      if !ent.isDir then []
      else
        placements env updatedPaths (builderDir subtreePath) (some (builderDir subtreePath)) ent
          ++ subtreePlacements env updatedPaths dir rest

/-- The placements of one base snapshot: none for an incomplete snapshot. -/
def basePlacements (env : Env) (loader : String → Except Err Entry)
    (updatedPaths : GoMap (List String) (Option Path)) (snap : IncrementalBase) :
    List Placement :=
  if snap.IncompleteReason.length > 0 then []
  else
    match loader snap.ID with
    | .error _ => []
    | .ok root =>
      if !root.isDir then [] else subtreePlacements env updatedPaths root snap.SubtreePaths

/-- The map `updatedPaths` that `inflateCollectionTree` returns for the
collections `cs` (empty when it fails). -/
def updatedPathsOf (cs : List Collection) : GoMap (List String) (Option Path) :=
  match inflateCollectionTree cs with
  | .ok (_, updatedPaths) => updatedPaths
  | .error _ => []

/-- The placements of all base snapshots, in order. -/
def allPlacements (env : Env) (loader : String → Except Err Entry)
    (updatedPaths : GoMap (List String) (Option Path)) :
    List IncrementalBase → List Placement
  | [] => []
  | snap :: rest =>
    basePlacements env loader updatedPaths snap ++ allPlacements env loader updatedPaths rest

/-- The directory assigned last to the node at `q` by the placements `ps`. -/
def lastPlaced (ps : List Placement) (q : List String) : Option Entry :=
  ((ps.filter (fun p => p.dir.hasItems && decide (p.newPath = some q))).getLast?).map
    Placement.dir

/-- Invariant of the traversal with respect to a path `P` that is a key of
`updatedPaths`: the new path of the current directory, when it has one, is
either its old path, not at or below `P`, or lies at or below a path `F`
that neither is at or below `P` nor is `P` or above it. -/
def AvoidsPath (P old : List String) (new : Option (List String)) : Prop :=
  ∀ n, new = some n →
    (n = old ∧ ¬ P <+: old) ∨ ∃ F : List String, ¬ P <+: F ∧ ¬ F <+: P ∧ F <+: n

/-- The entries of a base directory that survive next to the names in
`encodedSeen`: those that are not directories and whose name was not seen, in
the order of the iteration. -/
def survivingEntries (encodedSeen : GoMap String Unit) (entries : List Entry) : List CbEntry :=
  (entries.filter (fun e => !e.isDir && (mapGet encodedSeen e.Name).isNone)).map CbEntry.base

/-- The streaming file `collectionEntries` makes for an item. -/
def streamingFileOf (env : Env) (e : Stream) : CbEntry :=
  .streamingFile (env.encodeAsPath [e.UUID]) (e.ModTime.getD env.now)
    (newBackupStreamReader env.serializationVersion (bytesReader.NewReader e.ToReader))

/-- The streaming files of the items of a collection that are not deleted, in
the order the items are received. -/
def streamedFiles (env : Env) (streamedEnts : Option Collection) : List CbEntry :=
  match streamedEnts with
  | none => []
  | some c => (c.Items.filter (fun e => !e.Deleted)).map (streamingFileOf env)

/-- The encoded names of all items of a collection, deleted ones included. -/
def seenNames (env : Env) (streamedEnts : Option Collection) : GoMap String Unit :=
  match streamedEnts with
  | none => []
  | some c => c.Items.foldl (fun seen e => mapSet seen (env.encodeAsPath [e.UUID]) ()) []

/-- A projection of tree nodes that does not look at the children. -/
structure NodeField (α : Type) where
  get : treeMap → Option α
  ignoresChildren : ∀ cs cs1 c b, get (.mk cs c b) = get (.mk cs1 c b)
  new : get newTreeMap = none

/-- The field `baseDir` as a projection. -/
def NodeField.baseDir : NodeField Entry := ⟨treeMap.baseDir, fun _ _ _ _ => rfl, rfl⟩

/-- The field `collection` as a projection. -/
def NodeField.collection : NodeField Collection := ⟨treeMap.collection, fun _ _ _ _ => rfl, rfl⟩

/-! ## Sample inputs -/

/-- An environment whose path encoder is the identity on elements: encoded
paths are joined by a slash and every name decodes to itself. -/
def plainEnv : Env :=
  { encodeAsPath := fun l => "/".intercalate l, encodeElements := fun l => l,
    decodeElement := fun s => .ok s, serializationVersion := 1, now := 0 }

/-- The path of the category directory of the samples. -/
def samplePrefix : List String := ["tenant", "exchange", "alice", "mail"]

/-- A category directory holding the folders `Archive` (file `y`) and `Inbox`
(file `x`), in the order of their names. -/
def archiveInbox : Entry :=
  .dir "mail" [.dir "Archive" [.file "y"], .dir "Inbox" [.file "x"]]

/-- The root directory of a snapshot with the category directory `mail` of
`alice`. -/
def snapshotOf (mail : Entry) : Entry :=
  .dir "tenant" [.dir "exchange" [.dir "alice" [mail]]]

/-- A complete base snapshot whose only subtree is the category of the
samples. -/
def sampleBase : IncrementalBase :=
  { ID := "base", IncompleteReason := "", SubtreePaths := [samplePrefix] }

/-- A category directory holding folder `A` with subfolder `x` (file `f`). -/
def nestedFolder : Entry := .dir "mail" [.dir "A" [.dir "x" [.file "f"]]]

/-- A category directory holding the folders `Drafts` (files `d1`, `d2`) and
`Inbox` (file `x`). -/
def draftsInbox : Entry :=
  .dir "mail" [.dir "Drafts" [.file "d1", .file "d2"], .dir "Inbox" [.file "x"]]

/-- The collection reporting that folder `Drafts` was deleted. -/
def deletedDrafts : Collection :=
  { FullPath := none, PreviousPath := some ⟨samplePrefix ++ ["Drafts"], false⟩,
    State := .DeletedState, Items := [] }

/-- The collection of the unchanged folder `Inbox`, without new items. -/
def unchangedInbox : Collection :=
  { FullPath := some ⟨samplePrefix ++ ["Inbox"], false⟩,
    PreviousPath := some ⟨samplePrefix ++ ["Inbox"], false⟩,
    State := .NotMovedState, Items := [] }

/-- A category directory holding only the folder `Inbox` (file `x`). -/
def onlyInbox : Entry := .dir "mail" [.dir "Inbox" [.file "x"]]

/-- The collection reporting that folder `Inbox` was moved to `Archive/Inbox`,
without new items. -/
def movedInbox : Collection :=
  { FullPath := some ⟨samplePrefix ++ ["Archive", "Inbox"], false⟩,
    PreviousPath := some ⟨samplePrefix ++ ["Inbox"], false⟩,
    State := .MovedState, Items := [] }


/-! ## Sample inputs of the enumeration -/

/-- An item with the given identifier, content `[1]` and no optional
interface. -/
def liveItem (uuid : String) : Stream :=
  { UUID := uuid, ToReader := [byte 1], Deleted := false, Info := none, ModTime := some 7 }

/-- The collection of the unchanged folder `Inbox` with the new version of
item `a`. -/
def inboxWithA : Collection :=
  { FullPath := some ⟨samplePrefix ++ ["Inbox"], false⟩,
    PreviousPath := some ⟨samplePrefix ++ ["Inbox"], false⟩,
    State := .NotMovedState, Items := [liveItem "a"] }

/-- The base directory `Inbox` with the files `a`, `q` and `r`. -/
def inboxAQR : Entry := .dir "Inbox" [.file "a", .file "q", .file "r"]

/-- A callback that fails on every entry named `name` and accepts all
others. -/
def failOn (name : String) : Callback := fun _ entry =>
  match entry with
  | .streamingFile n _ _ => if n = name then some (Err.other 1) else none
  | .base e => if e.Name = name then some (Err.other 1) else none
  | .static d => if d.Name = name then some (Err.other 1) else none

/-- The name `Name()` of an entry handed to the callback. -/
def CbEntry.Name : CbEntry → String
  | .static d => d.Name
  | .streamingFile name _ _ => name
  | .base e => e.Name

/-- Whether `collectionEntries` makes a streaming file for an item received
from a collection with the given `FullPath()`: the item is not deleted and its
item path can be built. -/
def itemYielded (fullPath : Option Path) (e : Stream) : Bool :=
  !e.Deleted && (match fullPath with
    | some p => !p.hasItem
    | none => false)

/-- The streaming files of the items of a list that yield one, in the order of
the list. -/
def filesOf (env : Env) (fullPath : Option Path) (items : List Stream) : List CbEntry :=
  (items.filter (itemYielded fullPath)).map (streamingFileOf env)

/-- The names recorded as seen once the given items were received. -/
def seenAfter (env : Env) (seen : GoMap String Unit) (items : List Stream) : GoMap String Unit :=
  items.foldl (fun seen e => mapSet seen (env.encodeAsPath [e.UUID]) ()) seen

/-- An item with the given identifier marked as deleted. -/
def deletedItem (uuid : String) : Stream :=
  { UUID := uuid, ToReader := [], Deleted := true, Info := none, ModTime := none }

/-- A collection of folder `Inbox` that reports item `a` twice, first as
deleted and then with content. -/
def inboxTwiceA : Collection :=
  { FullPath := some ⟨samplePrefix ++ ["Inbox"], false⟩,
    PreviousPath := some ⟨samplePrefix ++ ["Inbox"], false⟩,
    State := .NotMovedState, Items := [deletedItem "a", liveItem "a"] }

/-- The collection of the unchanged folder `Inbox` reporting that item `q` was
deleted and item `a` has a new version. -/
def inboxDeletedQ : Collection :=
  { FullPath := some ⟨samplePrefix ++ ["Inbox"], false⟩,
    PreviousPath := some ⟨samplePrefix ++ ["Inbox"], false⟩,
    State := .NotMovedState, Items := [deletedItem "q", liveItem "a"] }

/-- A new collection that has no `FullPath`. -/
def pathlessCollection : Collection :=
  { FullPath := none, PreviousPath := none, State := .NewState, Items := [] }

/-- The collection of folder `Inbox` of another tenant. -/
def otherTenantInbox : Collection :=
  { FullPath := some ⟨["other", "exchange", "bob", "mail", "Inbox"], false⟩,
    PreviousPath := none, State := .NewState, Items := [] }

/-! ## Height of a base tree -/

/-- Function `errors.Cause`: the error at the bottom of a chain of wraps. -/
def Err.Cause : Err → Err
  | .wrap inner _ => inner.Cause
  | .EOF => .EOF
  | .ErrClosed => .ErrClosed
  | .canceled => .canceled
  | .new text => .new text
  | .unexpectedDataFormat version => .unexpectedDataFormat version
  | .other code => .other code

/-- The error of `traverseBaseDir` for a tree that is too tall. -/
def treeTooTall : Err := Err.new "base snapshot tree too tall"

mutual
/-- The number of levels between a directory and the deepest directory below
it: zero when it has no subdirectory. -/
def Entry.deepestDir : Entry → Nat
  | .file _ => 0
  | .dir _ entries => deepestDirBelow entries
/-- The number of levels between the owner of `entries` and the deepest
directory among and below `entries`: zero when no entry is a directory. -/
def deepestDirBelow : List Entry → Nat
  | [] => 0
  | .file _ :: rest => deepestDirBelow rest
  | .dir name entries :: rest =>
    max (Entry.deepestDir (.dir name entries) + 1) (deepestDirBelow rest)
end

mutual
/-- Whether the names of a directory and of all directories below it
decode. -/
def Entry.namesDecode (env : Env) : Entry → Bool
  | .file _ => true
  | .dir name entries =>
    (match env.decodeElement name with
      | .ok _ => true
      | .error _ => false) && namesDecodeBelow env entries
/-- Whether the names of all directories among and below `entries` decode. -/
def namesDecodeBelow (env : Env) : List Entry → Bool
  | [] => true
  | .file _ :: rest => namesDecodeBelow env rest
  | .dir name entries :: rest =>
    Entry.namesDecode env (.dir name entries) && namesDecodeBelow env rest
end

/-- A chain of `n + 1` directories named `d`, each the only entry of the one
above; the innermost holds the file `f`. -/
def nestedDirs : Nat → Entry
  | 0 => .dir "d" [.file "f"]
  | n + 1 => .dir "d" [nestedDirs n]

/-! ## Finishing the files of an enumeration -/

/-- The key under which `collectionEntries` registers an item of a collection
with the full path `fullPath`: the encoded item path without its first
element. -/
def itemKey (env : Env) (fullPath : Path) (e : Stream) : String :=
  env.encodeAsPath (builderPopFront (builderAppend fullPath.elements e.UUID))

/-- The progress sidecar after `collectionEntries` registered an item: an
item that is not deleted and carries info is put under its key. -/
def registerItem (env : Env) (fullPath : Path) (cp : corsoProgress) (e : Stream) :
    corsoProgress :=
  if e.Deleted then cp
  else
    match e.Info with
    | some info => cp.put (itemKey env fullPath e)
        ⟨info, ⟨builderAppend fullPath.elements e.UUID, true⟩⟩
    | none => cp

/-- The calls `FinishedFile(path, nil)` for the given relative paths, in
order. -/
def finishAll (refs : PathRefs) (cp : corsoProgress) (paths : List String) : corsoProgress :=
  paths.foldl (fun cp p => cp.FinishedFile refs p none) cp

/-- String forms for the samples: the elements joined by a slash, and the same
after a hash sign as short reference. -/
def plainRefs : PathRefs :=
  { pathString := fun l => "/".intercalate l, ShortRef := fun l => "#" ++ "/".intercalate l }

/-- An item with the given identifier that carries info. -/
def infoItem (uuid : String) : Stream :=
  { UUID := uuid, ToReader := [byte 1], Deleted := false, Info := some ⟨none, 1⟩,
    ModTime := some 7 }

/-- The collection of the unchanged folder `Inbox` with the new item `c`. -/
def inboxNewC : Collection :=
  { FullPath := some ⟨samplePrefix ++ ["Inbox"], false⟩,
    PreviousPath := some ⟨samplePrefix ++ ["Inbox"], false⟩,
    State := .NotMovedState, Items := [infoItem "c"] }


/-! ## Ancestor folders and closing the frame writer -/

/-- The folder entries of the non-empty proper prefixes of the element
sequence `es`, longest first: the entry of the prefix of length `j + 1` has
that prefix as `RepoRef`, the short reference of the prefix of length `j` as
`ParentRef` and element `j` as display name. -/
def ancestorFolders (refs : PathRefs) (es : List String) : List FolderEntry :=
  (List.range (es.length - 1)).reverse.map (fun j =>
    ⟨refs.pathString (es.take (j + 1)), refs.ShortRef (es.take (j + 1)),
      refs.ShortRef (es.take j), ⟨some ⟨es.getD j ""⟩, 0⟩⟩)

/-- An `io.ReadCloser` over a `bytes.Reader` that counts the calls of its
`Close`. -/
structure countingReader where
  inner : bytesReader
  closes : Nat
deriving DecidableEq, Repr

instance : ioReadCloser countingReader where
  Read := fun r n => ((r.inner.Read n).1, { r with inner := (r.inner.Read n).2 })
  Close := fun r => (none, { r with closes := r.closes + 1 })

/-- The reader after `k` calls of `Close` in a row. -/
def backupStreamReader.closeTimes {ρ : Type} [ioReadCloser ρ] :
    Nat → backupStreamReader ρ → backupStreamReader ρ
  | 0, rw => rw
  | k + 1, rw => backupStreamReader.closeTimes k rw.Close.2

/-- A progress sidecar in which the item `tenant/exchange/alice/mail/Inbox/c`
is pending under its relative path. -/
def pendingC : corsoProgress :=
  { pending := [("exchange/alice/mail/Inbox/c",
      ⟨⟨none, 1⟩, ⟨samplePrefix ++ ["Inbox", "c"], true⟩⟩)], totalBytes := 0 }

/-! ## Concurrent callbacks on the progress sidecar -/

/-- One critical section on the pending map, run while `cp.mu` is held: the
body of `put`, the body of `get`, or the deferred `delete` of
`FinishedFile`. The mutex makes each of them one indivisible step. -/
inductive PendingStep where
  | put (k : String) (v : itemDetails)
  | get (k : String)
  | delete (k : String)
deriving DecidableEq, Repr

/-- The key a step works on. -/
def PendingStep.key : PendingStep → String
  | .put k _ => k
  | .get k => k
  | .delete k => k

/-- The steps `FinishedFile(relativePath, err)` takes on the pending map, in
program order: `cp.get` when the error is nil, then the deferred `delete`. -/
def finishedFileSteps (relativePath : String) (err : Option Err) : List PendingStep :=
  (match err with
    | none => [PendingStep.get relativePath]
    | some _ => []) ++ [PendingStep.delete relativePath]

/-- The effect of one step: the sidecar afterwards and, for `get`, the key
with the value read. -/
def stepPending (cp : corsoProgress) :
    PendingStep → corsoProgress × List (String × Option itemDetails)
  | .put k v => (cp.put k v, [])
  | .get k => (cp, [(k, cp.get k)])
  | .delete k => ({ cp with pending := mapDelete cp.pending k }, [])

/-- The steps of a list one after the other: the sidecar at the end and the
values read by the `get` steps, in order. -/
def runPending (cp : corsoProgress) :
    List PendingStep → corsoProgress × List (String × Option itemDetails)
  | [] => (cp, [])
  | s :: rest =>
    let r := runPending (stepPending cp s).1 rest
    (r.1, (stepPending cp s).2 ++ r.2)

/-- The value of an `int64` after an addition that wraps around. -/
def wrapInt64 (x : Int) : Int := (x + 2 ^ 63) % 2 ^ 64 - 2 ^ 63

/-- The calls `FinishedHashingFile(_, bs)` for the byte counts of a list, in
the order in which their atomic additions take effect. -/
def hashAll (cp : corsoProgress) (counts : List Int) : corsoProgress :=
  counts.foldl (fun cp bs => cp.FinishedHashingFile "" bs) cp

/-! ## Exchange selectors -/

/-- The constants of type `exchangeCategory`; other strings of the type are
left out. -/
inductive exchangeCategory where
  | ExchangeCategoryUnknown
  | ExchangeContact
  | ExchangeContactFolder
  | ExchangeEvent
  | ExchangeEventCalendar
  | ExchangeMail
  | ExchangeMailFolder
  | ExchangeUser
  | ExchangeFilterMailSender
  | ExchangeFilterMailSubject
  | ExchangeFilterMailReceivedAfter
  | ExchangeFilterMailReceivedBefore
  | ExchangeFilterContactName
  | ExchangeFilterEventOrganizer
  | ExchangeFilterEventRecurs
  | ExchangeFilterEventStartsAfter
  | ExchangeFilterEventStartsBefore
  | ExchangeFilterEventSubject
deriving DecidableEq, Repr

/-- Method `exchangeCategory.pathValues`; `path[i]` on a slice that was
checked to hold six elements is `getD i`. -/
def exchangeCategory.pathValues (ec : exchangeCategory) (path : List String) :
    GoMap exchangeCategory String :=
  let m : GoMap exchangeCategory String := []
  if path.length < 6 then m
  else
    let m := mapSet m .ExchangeUser (path.getD 2 "")
    match ec with
    | .ExchangeContact =>
      mapSet (mapSet m .ExchangeContactFolder (path.getD 4 "")) .ExchangeContact (path.getD 5 "")
    | .ExchangeEvent =>
      mapSet (mapSet m .ExchangeEventCalendar (path.getD 4 "")) .ExchangeEvent (path.getD 5 "")
    | .ExchangeMail =>
      mapSet (mapSet m .ExchangeMailFolder (path.getD 4 "")) .ExchangeMail (path.getD 5 "")
    | _ => m

/-- Modelled from the spec: the element sequence of an Exchange item path,
the tuple of tenant, service, resource owner, category, folder elements and
item identifier. -/
def exchangeItemPath (tenant owner category : String) (folders : List String) (item : String) :
    List String :=
  [tenant, "exchange", owner, category] ++ folders ++ [item]

/-- Modelled from the spec: the folder of a path, its folder elements joined
by a slash. -/
def folderOf (folders : List String) : String := "/".intercalate folders

/-- The folder category of a leaf category, from `exchangePathSet`. -/
def exchangeCategory.folderCat : exchangeCategory → exchangeCategory
  | .ExchangeContact => .ExchangeContactFolder
  | .ExchangeEvent => .ExchangeEventCalendar
  | .ExchangeMail => .ExchangeMailFolder
  | ec => ec

/-- Modelled from the spec: the comparators of package `filters` used by the
Exchange scopes: `In` holds when the value contains the target, `Equal` when
both are the same, `Less` when the target is smaller than the value and
`Greater` when it is larger. -/
inductive Comparator where
  | In
  | Equal
  | Less
  | Greater
deriving DecidableEq, Repr

/-- The order of Go strings on their characters: byte by byte, which for
UTF-8 is the order of the code points. -/
def charsLess : List Char → List Char → Bool
  | [], [] => false
  | [], _ :: _ => true
  | _ :: _, [] => false
  | a :: as, b :: bs =>
    if a.toNat < b.toNat then true
    else if b.toNat < a.toNat then false
    else charsLess as bs

/-- The comparison `a < b` of two Go strings. -/
def stringLess (a b : String) : Bool := charsLess a.toList b.toList

/-- Modelled from the spec: `Compare` of a filter with the given target. -/
def Comparator.Compare : Comparator → String → String → Bool
  | .In, target, value => decide (target.toList <:+: value.toList)
  | .Equal, target, value => decide (target = value)
  | .Less, target, value => stringLess target value
  | .Greater, target, value => stringLess value target

/-- Modelled from the spec: a filter scope as `makeFilterScope` builds it: the
category of the data, the category of the filter, the targets and their
comparator. The wildcard targets `Any` and `None` are left out. -/
structure ExchangeScope where
  Category : exchangeCategory
  FilterCategory : exchangeCategory
  targets : List String
  comparator : Comparator
deriving DecidableEq, Repr

/-- Modelled from the spec: function `makeFilterScope`. -/
def makeFilterScope (cat filterCat : exchangeCategory) (vs : List String) (f : Comparator) :
    ExchangeScope :=
  ⟨cat, filterCat, vs, f⟩

/-- Modelled from the spec: `Matches(cat, target)`: the scope holds a filter of
category `cat` and one of its targets compares with the value. -/
def ExchangeScope.Matches (s : ExchangeScope) (cat : exchangeCategory) (target : String) : Bool :=
  decide (s.FilterCategory = cat) && s.targets.any (fun t => s.comparator.Compare t target)

/-- Modelled from the spec: the fields of `details.ExchangeInfo`; the two
times are kept as the strings `common.FormatTime` makes of them, whose order
is the order of the times. -/
structure ExchangeInfo where
  ContactName : String
  EventRecurs : Bool
  EventStart : String
  Organizer : String
  Sender : String
  Subject : String
  Received : String
deriving DecidableEq, Repr

/-- Method `(*ExchangeRestore).EventStartsAfter`. -/
def EventStartsAfter (timeStrings : String) : List ExchangeScope :=
  [makeFilterScope .ExchangeMail .ExchangeFilterMailReceivedAfter [timeStrings] .Less]

/-- Method `(*ExchangeRestore).EventStartsBefore`. -/
def EventStartsBefore (timeStrings : String) : List ExchangeScope :=
  [makeFilterScope .ExchangeMail .ExchangeFilterMailReceivedBefore [timeStrings] .Greater]

/-- Method `(*ExchangeRestore).MailReceivedAfter`. -/
def MailReceivedAfter (timeStrings : String) : List ExchangeScope :=
  [makeFilterScope .ExchangeMail .ExchangeFilterMailReceivedAfter [timeStrings] .Less]

/-- Method `ExchangeScope.matchesInfo`; `info` is `none` for a nil pointer. -/
def ExchangeScope.matchesInfo (s : ExchangeScope) (info : Option ExchangeInfo) : Bool :=
  match info with
  | none => false
  | some info =>
    let filterCat := s.FilterCategory
    let i :=
      match filterCat with
      | .ExchangeFilterContactName => info.ContactName
      | .ExchangeFilterEventOrganizer => info.Organizer
      | .ExchangeFilterEventRecurs => if info.EventRecurs then "true" else "false"
      | .ExchangeFilterEventStartsAfter => info.EventStart
      | .ExchangeFilterEventStartsBefore => info.EventStart
      | .ExchangeFilterEventSubject => info.Subject
      | .ExchangeFilterMailSender => info.Sender
      | .ExchangeFilterMailSubject => info.Subject
      | .ExchangeFilterMailReceivedAfter => info.Received
      | .ExchangeFilterMailReceivedBefore => info.Received
      | _ => ""
    s.Matches filterCat i

/-- An event that starts in 2023 and whose `Received` field holds a time in
2021. -/
def lateEvent : ExchangeInfo :=
  { ContactName := "", EventRecurs := false, EventStart := "2023-01-01T00:00:00Z",
    Organizer := "o", Sender := "", Subject := "s", Received := "2021-01-01T00:00:00Z" }

/-- An event that starts in 2021 and whose `Received` field holds a time in
2023. -/
def earlyEvent : ExchangeInfo :=
  { ContactName := "", EventRecurs := false, EventStart := "2021-01-01T00:00:00Z",
    Organizer := "o", Sender := "", Subject := "s", Received := "2023-01-01T00:00:00Z" }

/-! ## Restore operation -/

/-- The values of the status of an operation. -/
inductive opStatus where
  | Unknown
  | InProgress
  | Completed
  | Failed
  | NoData
deriving DecidableEq, Repr

/-- Modelled from the spec: `support.ConnectorOperationStatus`, of which the
restore reads the count `Successful`. -/
structure ConnectorOperationStatus where
  Successful : Nat
deriving DecidableEq, Repr

/-- The type `restoreStats`; `bytesRead` is `bytesRead.NumBytes`, and `gc` is
`none` for a nil pointer. -/
structure restoreStats where
  cs : List Collection
  gc : Option ConnectorOperationStatus
  bytesRead : Nat
  resourceCount : Nat
  started : Bool
  readErr : Option Err
  writeErr : Option Err
  restoreID : String
deriving DecidableEq, Repr

/-- The type `RestoreResults`, with the fields of the embedded `stats`
structures; times are instants of the clock. -/
structure RestoreResults where
  ReadErrors : Option Err
  WriteErrors : Option Err
  BytesRead : Nat
  ItemsRead : Nat
  ItemsWritten : Nat
  ResourceOwners : Nat
  StartedAt : Nat
  CompletedAt : Nat
deriving DecidableEq, Repr

/-- An event sent to the bus of the operation, with the values of its
payload. -/
inductive Event where
  | RestoreStart (startTime : Nat) (backupID : String) (backupCreateTime : Nat)
      (restoreID : String)
  | RestoreEnd (backupID : String) (dataRetrieved : Nat) (duration : Int) (endTime : Nat)
      (itemsRead : Nat) (itemsWritten : Nat) (resources : Nat) (restoreID : String)
      (service : String) (startTime : Nat) (status : opStatus)
deriving DecidableEq, Repr

/-- The fields of `RestoreOperation` the run works on: status, results, backup
id, the service of the selector, and the events sent to `op.bus` so far. -/
structure RestoreOperation where
  Status : opStatus
  Results : RestoreResults
  BackupID : String
  service : String
  bus : List Event
deriving DecidableEq, Repr

/-- Method `(*RestoreOperation).persistResults`; `now` is `time.Now()`. The
result lists the errors of the returned multierror, the empty list being the
nil error; reading `opStats.gc.Successful` through a nil `gc` is the panic
`.error nilDereference`. -/
def RestoreOperation.persistResults (op : RestoreOperation) (now started : Nat)
    (opStats : restoreStats) : Except Err (List Err × RestoreOperation) :=
  let results := { op.Results with StartedAt := started, CompletedAt := now }
  if !opStats.started then
    .ok ([Err.new "errors prevented the operation from processing"]
          ++ opStats.readErr.toList ++ opStats.writeErr.toList,
        { op with Results := results, Status := .Failed })
  else
    match opStats.gc with
    | none => .error nilDereference
    | some gc =>
      let status :=
        if opStats.readErr = none ∧ opStats.writeErr = none ∧ gc.Successful = 0 then
          opStatus.NoData
        else opStatus.Completed
      let results : RestoreResults :=
        ⟨opStats.readErr, opStats.writeErr, opStats.bytesRead, opStats.cs.length,
          gc.Successful, opStats.resourceCount, started, now⟩
      let dur : Int := (results.CompletedAt : Int) - (results.StartedAt : Int)
      .ok ([], { op with
        Results := results, Status := status,
        bus := op.bus ++ [Event.RestoreEnd op.BackupID results.BytesRead dur
          results.CompletedAt results.ItemsRead results.ItemsWritten results.ResourceOwners
          opStats.restoreID op.service results.StartedAt status] })

/-- The loop of `formatDetailsForRestoration` from index `i` on: a path that
parses is written to its slot, a path that does not leaves the slot nil and
adds to `errs`. -/
def formatDetailsLoop (FromDataLayerPath : String → Except Err Path) :
    List String → Nat → List (Option Path) → List Err → List (Option Path) × List Err
  | [], _, paths, errs => (paths, errs)
  | fdsPath :: rest, i, paths, errs =>
    match FromDataLayerPath fdsPath with
    | .error err =>
      formatDetailsLoop FromDataLayerPath rest (i + 1) paths
        (errs ++ [Err.wrap err "parsing details entry path"])
    | .ok p => formatDetailsLoop FromDataLayerPath rest (i + 1) (paths.set i (some p)) errs

/-- Function `formatDetailsForRestoration`; `reduced` is the outcome of
`sel.Reduce(ctx, deets)`, on success the list `fds.Paths()`. A slot of the
result is `none` for a nil path. -/
def formatDetailsForRestoration (reduced : Except Err (List String))
    (FromDataLayerPath : String → Except Err Path) : Except Err (List (Option Path)) :=
  match reduced with
  | .error err => .error err
  | .ok fdsPaths =>
    let paths : List (Option Path) := List.replicate fdsPaths.length none
    .ok (formatDetailsLoop FromDataLayerPath fdsPaths 0 paths []).1

/-- The outcomes of the calls `Run` makes outside `restore.go`, and the
values it draws: the restore id and the clock at the start and at the end. -/
structure RestoreEnv where
  GetDetailsIDFromBackupID : Except Err (String × Nat × String)
  ReadBackupDetails : String → Except Err Details
  Reduce : Details → Except Err (List String)
  FromDataLayerPath : String → Except Err Path
  RestoreMultipleItems : String → List (Option Path) → Except Err (List Collection × Nat)
  ResourceOwnerSet : List Collection → Nat
  connectToM365 : Except Err Unit
  RestoreDataCollections : List Collection → Except Err (Details × Option ConnectorOperationStatus)
  restoreID : String
  startTime : Nat
  endTime : Nat

/-- The body of `(*RestoreOperation).Run` up to its return: the statistics
gathered, the operation with the events sent, and the details returned. The
first component of `GetDetailsIDFromBackupID` is the details id, the others
are `bup.CreationTime` and `bup.SnapshotID`. -/
def RestoreOperation.runBody (op : RestoreOperation) (env : RestoreEnv) :
    restoreStats × RestoreOperation × Option Details :=
  let opStats : restoreStats := ⟨[], none, 0, 0, false, none, none, env.restoreID⟩
  match env.GetDetailsIDFromBackupID with
  | .error err =>
    ({ opStats with readErr := some (Err.wrap err "getting backup details ID for restore") },
      op, none)
  | .ok (dID, creationTime, snapshotID) =>
    match env.ReadBackupDetails dID with
    | .error err =>
      ({ opStats with
          readErr := some (Err.wrap err "getting backup details data for restore") },
        op, none)
    | .ok deets =>
      let op := { op with bus := op.bus ++
        [Event.RestoreStart env.startTime op.BackupID creationTime opStats.restoreID] }
      match formatDetailsForRestoration (env.Reduce deets) env.FromDataLayerPath with
      | .error err => ({ opStats with readErr := some err }, op, none)
      | .ok paths =>
        match env.RestoreMultipleItems snapshotID paths with
        | .error err =>
          ({ opStats with readErr := some (Err.wrap err "retrieving service data") }, op, none)
        | .ok (dcs, numBytes) =>
          let opStats := { opStats with
            bytesRead := numBytes, cs := dcs, resourceCount := env.ResourceOwnerSet dcs }
          match env.connectToM365 with
          | .error err =>
            ({ opStats with readErr := some (Err.wrap err "connecting to M365") }, op, none)
          | .ok _ =>
            match env.RestoreDataCollections dcs with
            | .error err =>
              ({ opStats with writeErr := some (Err.wrap err "restoring service data") },
                op, none)
            | .ok (restoreDetails, status) =>
              ({ opStats with started := true, gc := status }, op, some restoreDetails)

/-- Method `(*RestoreOperation).Run`: the body, then the deferred function,
which assigns the result of `persistResults` to the returned error. -/
def RestoreOperation.Run (op : RestoreOperation) (env : RestoreEnv) :
    Except Err ((Option Details × List Err) × RestoreOperation) :=
  match op.runBody env with
  | (opStats, op1, restoreDetails) =>
    match op1.persistResults env.endTime env.startTime opStats with
    | .error err => .error err
    | .ok (errs, op2) => .ok ((restoreDetails, errs), op2)

/-- A restore operation in progress for backup `b1`, with nothing recorded
yet. -/
def freshRestore : RestoreOperation :=
  { Status := .InProgress, Results := ⟨none, none, 0, 0, 0, 0, 0, 0⟩, BackupID := "b1",
    service := "exchange", bus := [] }

/-- A run in which every call succeeds: one path is restored in one
collection, two items are written. -/
def goodRestoreEnv : RestoreEnv :=
  { GetDetailsIDFromBackupID := .ok ("d1", 5, "s1"),
    ReadBackupDetails := fun _ => .ok ⟨[], []⟩,
    Reduce := fun _ => .ok ["tenant/exchange/alice/mail/Inbox/c"],
    FromDataLayerPath := fun p => .ok ⟨p.splitOn "/", true⟩,
    RestoreMultipleItems := fun _ _ => .ok ([unchangedInbox], 40),
    ResourceOwnerSet := fun _ => 1,
    connectToM365 := .ok (),
    RestoreDataCollections := fun _ => .ok (⟨[], []⟩, some ⟨2⟩),
    restoreID := "r1", startTime := 100, endTime := 130 }

/-- The same run, except that reading the items from the repository fails. -/
def failingRestoreEnv : RestoreEnv :=
  { goodRestoreEnv with RestoreMultipleItems := fun _ _ => .error (Err.other 3) }

/-! ## SharePoint data collections -/

/-- The path type of the category of a scope, as far as `DataCollections`
tells the values apart. -/
inductive scopePathType where
  | ListsCategory
  | LibrariesCategory
  | other
deriving DecidableEq, Repr

/-- What `DataCollections` reads of a `selectors.SharePointScope`:
`scope.Category().PathType()` and `scope.Get(selectors.SharePointSite)`. -/
structure SharePointScope where
  PathType : scopePathType
  sites : List String
deriving DecidableEq, Repr

/-- Calls of `DataCollections` into other packages, taken as given:
`colls.Get(ctx)` of the collections built for a site and a scope, and
`support.WrapAndAppend(identifier, e, previous)`, which returns an error that
is not nil. -/
structure SharePointEnv where
  Get : String → SharePointScope → Except Err (List Collection)
  WrapAndAppend : String → Err → Option Err → Err

/-- Function `collectLibraries`; the pair is the Go result
`([]data.Collection, error)`, `none` being nil. -/
def collectLibraries (env : SharePointEnv) (siteID : String) (scope : SharePointScope) :
    Option (List Collection) × Option Err :=
  let collections : List Collection := []
  let errs : Option Err := none
  match env.Get siteID scope with
  | .error err => (none, some (env.WrapAndAppend siteID err errs))
  | .ok odcs => (some (collections ++ odcs), errs)

/-- The inner loop of `DataCollections` over the sites of a scope: `.error` is
the value of a `return` inside the loop, `.ok` the collections when the loop
ends. -/
def sitesLoop (env : SharePointEnv) (scope : SharePointScope) (errs : Option Err) :
    List String → List Collection →
      Except (Option (List Collection) × Option Err) (List Collection)
  | [], collections => .ok collections
  | site :: rest, collections =>
    match scope.PathType with
    | .ListsCategory =>
      .error (none, some (Err.new "sharePoint list collections not supported"))
    | .LibrariesCategory =>
      match collectLibraries env site scope with
      | (_, some err) => .error (none, some (env.WrapAndAppend site err errs))
      | (spcs, none) => sitesLoop env scope errs rest (collections ++ spcs.getD [])
    | .other => sitesLoop env scope errs rest collections

/-- The outer loop of `DataCollections` over the scopes. -/
def scopesLoop (env : SharePointEnv) (errs : Option Err) :
    List SharePointScope → List Collection →
      Except (Option (List Collection) × Option Err) (List Collection)
  | [], collections => .ok collections
  | scope :: rest, collections =>
    match sitesLoop env scope errs scope.sites collections with
    | .error ret => .error ret
    | .ok collections => scopesLoop env errs rest collections

/-- Function `DataCollections` of package `sharepoint`; `scopes` is the
outcome of `selector.ToSharePointBackup()` followed by
`b.DiscreteScopes(siteIDs)`. The pair is the Go result. -/
def DataCollections (env : SharePointEnv) (scopes : Except Err (List SharePointScope)) :
    Option (List Collection) × Option Err :=
  match scopes with
  | .error err => (none, some (Err.wrap err "sharePointDataCollection: parsing selector"))
  | .ok scopes =>
    let collections : List Collection := []
    let errs : Option Err := none
    match scopesLoop env errs scopes collections with
    | .error ret => ret
    | .ok collections => (some collections, errs)

/-- A SharePoint environment in which site `bad` cannot be read and every
other site yields the collection of its `Inbox`. -/
def sampleSharePoint : SharePointEnv :=
  { Get := fun site _ => if site = "bad" then .error (Err.other 4) else .ok [unchangedInbox],
    WrapAndAppend := fun identifier e _ => Err.wrap e identifier }

/-! ## Backups of a repository -/

/-- Modelled from the spec: a `backup.Backup` record, kept as its stable
id. -/
structure Backup where
  ID : String
deriving DecidableEq, Repr

/-- The loop of `repository.Backups`: `bups` and the errors gathered in
`errs`. -/
def backupsLoop (GetBackup : String → Option Backup × Option Err) :
    List String → List (Option Backup) → List Err → List (Option Backup) × List Err
  | [], bups, errs => (bups, errs)
  | id :: rest, bups, errs =>
    match GetBackup id with
    | (b, some err) => backupsLoop GetBackup rest (bups ++ [b]) (errs ++ [err])
    | (b, none) => backupsLoop GetBackup rest (bups ++ [b]) errs

/-- Method `repository.Backups`; `GetBackup` is `sw.GetBackup(ctx, id)` with
its Go result `(*backup.Backup, error)`. The second component lists the errors
of `errs.ErrorOrNil()`: the empty list is the nil error. -/
def Backups (GetBackup : String → Option Backup × Option Err) (ids : List String) :
    List (Option Backup) × List Err :=
  backupsLoop GetBackup ids [] []

/-- A store that holds the backups `a` and `b` and nothing else. -/
def sampleStore (id : String) : Option Backup × Option Err :=
  if id = "a" ∨ id = "b" then (some ⟨id⟩, none) else (none, some (Err.new "not found"))

/-! ## Keys of the merge tree -/

/-- The keys of the `childDirs` map of every node reached from `dir` are
distinct, as the keys of a Go map are. -/
def treeMap.distinctKeys (dir : treeMap) : Prop :=
  ∀ q node, treeMap.find q dir = some node → (node.childDirs.map Prod.fst).Nodup

/-! ## Frame codec: lemmas -/

theorem byte_val (x : Nat) : (byte x).val = x % 256 := rfl

theorem uint32_putUint32 (v : Nat) (hv : v < 2 ^ 32) : uint32 (putUint32 v) = v := by
  simp only [uint32, putUint32, List.getD_cons_zero, List.getD_cons_succ, byte_val]
  norm_num at hv ⊢
  omega

theorem putUint32_length (v : Nat) : (putUint32 v).length = 4 := rfl

/-- A `bytes.Reader` that is not at its end returns data and no error. -/
theorem bytesReader_read_more (r : bytesReader) (n : Nat) (h : r.i < r.s.length) :
    r.Read n = (⟨(r.s.drop r.i).take n, none⟩,
      ⟨r.s, r.i + ((r.s.drop r.i).take n).length⟩) := by
  simp [bytesReader.Read, Nat.not_le.mpr h]

/-- A `bytes.Reader` at its end returns `io.EOF`. -/
theorem bytesReader_read_end (r : bytesReader) (n : Nat) (h : r.s.length ≤ r.i) :
    r.Read n = (⟨[], some Err.EOF⟩, r) := by
  simp [bytesReader.Read, h]

theorem take_append_drop_length {α : Type} (l : List α) (n : Nat) :
    l = l.take n ++ l.drop (l.take n).length := by
  rcases Nat.le_total n l.length with h | h
  · rw [List.length_take, Nat.min_eq_left h, List.take_append_drop]
  · rw [List.take_of_length_le h, List.drop_length, List.append_nil]

/-- One `Read` with a non-empty buffer either returns a non-empty prefix of the
rest with no error, or `io.EOF` when nothing is left. -/
theorem bytesReader_read_step (r : bytesReader) (n : Nat) (hn : 0 < n) :
    ((r.Read n).1.err = none ∧ (r.Read n).1.data ≠ [] ∧
        r.rest = (r.Read n).1.data ++ (r.Read n).2.rest) ∨
      ((r.Read n).1.err = some Err.EOF ∧ (r.Read n).1.data = [] ∧ r.rest = []) := by
  by_cases h : r.i < r.s.length
  · left
    rw [bytesReader_read_more r n h]
    refine ⟨rfl, ?_, ?_⟩
    · simp only [ne_eq, List.take_eq_nil_iff, List.drop_eq_nil_iff]
      omega
    · simp only [bytesReader.rest]
      have h2 := take_append_drop_length (r.s.drop r.i) n
      rw [List.drop_drop] at h2
      exact h2
  · right
    have h1 : r.s.length ≤ r.i := Nat.le_of_not_lt h
    rw [bytesReader_read_end r n h1]
    exact ⟨rfl, rfl, by simp [bytesReader.rest, h1]⟩

/-- One `Read` of an open `backupStreamReader` with a non-empty buffer either
returns a non-empty prefix of the rest with no error, or `io.EOF` when nothing
is left. -/
theorem backupStreamReader_read_step (rw : backupStreamReader bytesReader) (n : Nat)
    (hn : 0 < n) (hc : rw.combined ≠ none) :
    ((rw.Read n).1.err = none ∧ (rw.Read n).1.data ≠ [] ∧
        rw.rest = (rw.Read n).1.data ++ (rw.Read n).2.rest ∧ (rw.Read n).2.combined ≠ none) ∨
      ((rw.Read n).1.err = some Err.EOF ∧ (rw.Read n).1.data = [] ∧ rw.rest = []) := by
  obtain ⟨b, r, c, k⟩ := rw
  cases c with
  | none => exact absurd rfl hc
  | some d =>
    have hb := bytesReader_read_step b n hn
    have hr := bytesReader_read_step r n hn
    rcases d with _ | _ | d
    · simp only [backupStreamReader.Read, multiReader.Read, ioReadCloser.Read,
        backupStreamReader.rest]
      generalize b.Read n = pb at hb ⊢
      generalize r.Read n = pr at hr ⊢
      obtain ⟨⟨bd, be⟩, b1⟩ := pb
      obtain ⟨⟨rd, re⟩, r1⟩ := pr
      simp only at hb hr
      rcases hb with ⟨h1, h2, h3⟩ | ⟨h1, h2, h3⟩
      · subst h1
        left
        have : 0 < bd.length := List.length_pos.mpr h2
        simp [multiReaderStep, this, h3, backupStreamReader.rest, h2]
      · subst h1 h2
        rcases hr with ⟨g1, g2, g3⟩ | ⟨g1, g2, g3⟩
        · subst g1
          left
          have : 0 < rd.length := List.length_pos.mpr g2
          simp [multiReaderStep, this, h3, g3, backupStreamReader.rest, g2]
        · subst g1 g2
          right
          simp [multiReaderStep, h3, g3]
    · simp only [backupStreamReader.Read, multiReader.Read, ioReadCloser.Read,
        backupStreamReader.rest]
      generalize r.Read n = pr at hr ⊢
      obtain ⟨⟨rd, re⟩, r1⟩ := pr
      simp only at hr
      rcases hr with ⟨g1, g2, g3⟩ | ⟨g1, g2, g3⟩
      · subst g1
        left
        have : 0 < rd.length := List.length_pos.mpr g2
        simp [multiReaderStep, this, g3, backupStreamReader.rest, g2]
      · subst g1 g2
        right
        simp [multiReaderStep, g3]
    · right
      simp [backupStreamReader.Read, multiReader.Read, backupStreamReader.rest]

/-- Reading an open `backupStreamReader` to the end returns all bytes it had
still to deliver, and no error. -/
theorem ReadAll_backupStreamReader :
    ∀ (fuel : Nat) (sizes : Nat → Nat) (rw : backupStreamReader bytesReader) (acc : List Byte),
      (∀ k, 0 < sizes k) → rw.combined ≠ none → rw.rest.length < fuel →
      ReadAll totalRead fuel sizes rw acc = some (acc ++ rw.rest, none) := by
  intro fuel
  induction fuel with
  | zero => intro sizes rw acc _ _ h; exact absurd h (Nat.not_lt_zero _)
  | succ fuel ih =>
    intro sizes rw acc hs hc hf
    have step := backupStreamReader_read_step rw (sizes 0) (hs 0) hc
    simp only [ReadAll, totalRead, ioReadCloser.Read]
    rcases step with ⟨h1, h2, h3, h4⟩ | ⟨h1, h2, h3⟩
    · rw [h1]
      simp only
      rw [ih (fun k => sizes (k + 1)) _ _ (fun k => hs (k + 1)) h4, h3, List.append_assoc]
      have hl : 0 < (rw.Read (sizes 0)).1.data.length := List.length_pos.mpr h2
      rw [h3, List.length_append] at hf
      omega
    · rw [h1, h2, h3]
      simp

/-- Reading a `bytes.Reader` to the end returns its rest and no error. -/
theorem ReadAll_bytesReader :
    ∀ (fuel : Nat) (sizes : Nat → Nat) (r : bytesReader) (acc : List Byte),
      (∀ k, 0 < sizes k) → r.rest.length < fuel →
      ReadAll totalRead fuel sizes r acc = some (acc ++ r.rest, none) := by
  intro fuel
  induction fuel with
  | zero => intro sizes r acc _ h; exact absurd h (Nat.not_lt_zero _)
  | succ fuel ih =>
    intro sizes r acc hs hf
    have step := bytesReader_read_step r (sizes 0) (hs 0)
    simp only [ReadAll, totalRead, ioReadCloser.Read]
    rcases step with ⟨h1, h2, h3⟩ | ⟨h1, h2, h3⟩
    · rw [h1]
      simp only
      rw [ih (fun k => sizes (k + 1)) _ _ (fun k => hs (k + 1)), h3, List.append_assoc]
      have hl : 0 < (r.Read (sizes 0)).1.data.length := List.length_pos.mpr h2
      rw [h3, List.length_append] at hf
      omega
    · rw [h1, h2, h3]
      simp

/-- Once the version was read, a `restoreStreamReader` forwards every `Read`
to the embedded reader. -/
theorem restoreStreamReader_read_forward {ρ : Type} [ioReadCloser ρ] (cf : Nat)
    (rw : restoreStreamReader ρ) (n : Nat) (h : rw.readVersion = true) :
    rw.Read cf n = some ((ioReadCloser.Read rw.ReadCloser n).1,
      { rw with ReadCloser := (ioReadCloser.Read rw.ReadCloser n).2 }) := by
  simp [restoreStreamReader.Read, h]

/-- Reading a `restoreStreamReader` whose version was read to the end is
reading the embedded reader to the end. -/
theorem ReadAll_restoreStreamReader {ρ : Type} [ioReadCloser ρ] (cf : Nat) :
    ∀ (fuel : Nat) (sizes : Nat → Nat) (rw : restoreStreamReader ρ) (acc : List Byte),
      rw.readVersion = true →
      ReadAll (restoreStreamReader.Read cf) fuel sizes rw acc
        = ReadAll totalRead fuel sizes rw.ReadCloser acc := by
  intro fuel
  induction fuel with
  | zero => intro sizes rw acc _; rfl
  | succ fuel ih =>
    intro sizes rw acc h
    simp only [ReadAll, totalRead, restoreStreamReader_read_forward cf rw _ h]
    cases (ioReadCloser.Read rw.ReadCloser (sizes 0)).1.err with
    | some e => rfl
    | none => exact ih _ _ _ h

/-- The version check on a fresh writer-side stream consumes exactly the
4 header bytes in one pass. -/
theorem checkVersionLoop_newBackupStreamReader (cf v : Nat) (b : List Byte) :
    checkVersionLoop (cf + 1) [] (newBackupStreamReader v (bytesReader.NewReader b))
      = some (.ok (putUint32 v),
          { bufReader := ⟨putUint32 v, 4⟩, reader := bytesReader.NewReader b,
            combined := some 0, bufCloses := 0 }) := by
  cases cf <;>
    simp [checkVersionLoop, versionSize, newBackupStreamReader, ioReadCloser.Read,
      backupStreamReader.Read, multiReader.Read, bytesReader.Read, bytesReader.NewReader,
      multiReaderStep, putUint32]

/-- The version check on a `bytes.Reader` holding at least 4 bytes consumes
exactly the first 4 bytes in one pass. -/
theorem checkVersionLoop_bytesReader (cf : Nat) (s : List Byte) (h4 : 4 ≤ s.length) :
    checkVersionLoop (cf + 1) [] (bytesReader.NewReader s)
      = some (.ok (s.take 4), ⟨s, 4⟩) := by
  have hl : (s.take 4).length = 4 := by simp [h4]
  have h0 : ¬ s.length ≤ 0 := by omega
  cases cf <;>
    simp [checkVersionLoop, versionSize, ioReadCloser.Read, bytesReader.Read,
      bytesReader.NewReader, hl, h0, h4]

/-- The first pass of `ReadAll` depends on the reader state only through the
result of its first `Read`. -/
theorem ReadAll_congr_first {σ : Type} (read : σ → Nat → Option (ReadResult × σ))
    (fuel : Nat) (sizes : Nat → Nat) (s t : σ) (acc : List Byte)
    (h : read s (sizes 0) = read t (sizes 0)) :
    ReadAll read (fuel + 1) sizes s acc = ReadAll read (fuel + 1) sizes t acc := by
  simp only [ReadAll, h]

/-! ## Frame codec: claims -/

/-- C1. Frame-codec round trip: a `restoreStreamReader` expecting version `v`
that wraps `newBackupStreamReader v` over the bytes `b`, read to the end of the
stream with any positive buffer lengths, returns exactly `b` (without the 4
version bytes) and no error; one pass of the version loop and more than
`b.length` reads are enough fuel. -/
theorem frame_codec_round_trip (v : Nat) (hv : v < 2 ^ 32) (b : List Byte)
    (sizes : Nat → Nat) (hs : ∀ k, 0 < sizes k) (cf fuel : Nat) (hcf : 0 < cf)
    (hf : b.length < fuel) :
    ReadAll (restoreStreamReader.Read cf) fuel sizes
        ⟨newBackupStreamReader v (bytesReader.NewReader b), v, false⟩ []
      = some (b, none) := by
  obtain ⟨cf, rfl⟩ : ∃ c, cf = c + 1 := ⟨cf - 1, by omega⟩
  obtain ⟨fuel, rfl⟩ : ∃ f, fuel = f + 1 := ⟨fuel - 1, by omega⟩
  -- the first `Read` checks the version and then behaves as a forwarded `Read`
  have first : ∀ n, restoreStreamReader.Read (cf + 1)
        ⟨newBackupStreamReader v (bytesReader.NewReader b), v, false⟩ n
      = restoreStreamReader.Read (cf + 1)
          ⟨({ bufReader := ⟨putUint32 v, 4⟩, reader := bytesReader.NewReader b,
              combined := some 0, bufCloses := 0 } : backupStreamReader bytesReader),
            v, true⟩ n := by
    intro n
    simp [restoreStreamReader.Read, restoreStreamReader.checkVersion,
      checkVersionLoop_newBackupStreamReader, uint32_putUint32 v hv]
  rw [ReadAll_congr_first _ _ _ _ _ _ (first _), ReadAll_restoreStreamReader _ _ _ _ _ rfl,
    ReadAll_backupStreamReader _ _ _ _ hs (by simp)]
  · simp [backupStreamReader.rest, bytesReader.rest, bytesReader.NewReader, putUint32]
  · simpa [backupStreamReader.rest, bytesReader.rest, bytesReader.NewReader, putUint32] using hf

/-- Instance of C1 at version 1 and payload `[7, 8, 9]`. -/
theorem frame_codec_round_trip_witness :
    ReadAll (restoreStreamReader.Read 1) 4 (fun _ => 2)
        ⟨newBackupStreamReader 1 (bytesReader.NewReader [7, 8, 9]), 1, false⟩ []
      = some ([7, 8, 9], none) :=
  frame_codec_round_trip 1 (by decide) [7, 8, 9] (fun _ => 2) (fun _ => Nat.succ_pos 1) 1 4
    (by decide) (by decide)

/-- C2. Writer-side framing: reading `newBackupStreamReader v` over the bytes
`b` to the end returns a 4-byte header followed by `b` (so `4 + b.length`
bytes) and no error, and the header is the big-endian encoding of `v`: it
decodes back to `v`. -/
theorem backup_stream_is_version_then_payload (v : Nat) (hv : v < 2 ^ 32) (b : List Byte)
    (sizes : Nat → Nat) (hs : ∀ k, 0 < sizes k) (fuel : Nat) (hf : 4 + b.length < fuel) :
    ReadAll totalRead fuel sizes (newBackupStreamReader v (bytesReader.NewReader b)) []
        = some (putUint32 v ++ b, none)
      ∧ (putUint32 v ++ b).length = 4 + b.length
      ∧ (putUint32 v).length = 4
      ∧ uint32 (putUint32 v) = v
      ∧ putUint32 v = [byte (v / 2 ^ 24), byte (v / 2 ^ 16), byte (v / 2 ^ 8), byte v] := by
  refine ⟨?_, by simp [putUint32_length], rfl, uint32_putUint32 v hv, rfl⟩
  rw [ReadAll_backupStreamReader _ _ _ _ hs (by simp [newBackupStreamReader])]
  · simp [backupStreamReader.rest, bytesReader.rest, bytesReader.NewReader,
      newBackupStreamReader]
  · simp only [backupStreamReader.rest, bytesReader.rest, bytesReader.NewReader,
      newBackupStreamReader, putUint32, List.drop_zero, List.length_append, List.length_cons,
      List.length_nil]
    omega

/-- Instance of C2 at version 258 and payload `[5]`. -/
theorem backup_stream_is_version_then_payload_witness :
    ReadAll totalRead 6 (fun _ => 3) (newBackupStreamReader 258 (bytesReader.NewReader [5])) []
      = some ([0, 0, 1, 2, 5], none) :=
  (backup_stream_is_version_then_payload 258 (by decide) [5] (fun _ => 3)
    (fun _ => Nat.succ_pos 2) 6 (by decide)).1

/-- The first `Read` of a `restoreStreamReader` over a `bytes.Reader` holding
at least 4 bytes. -/
theorem restoreStreamReader_first_read (e : Nat) (s : List Byte) (h4 : 4 ≤ s.length)
    (cf n : Nat) :
    restoreStreamReader.Read (cf + 1) ⟨bytesReader.NewReader s, e, false⟩ n
      = if uint32 (s.take 4) ≠ e then
          some (⟨[], some (Err.unexpectedDataFormat (uint32 (s.take 4)))⟩,
            ⟨⟨s, 4⟩, e, true⟩)
        else
          some ((bytesReader.Read ⟨s, 4⟩ n).1, ⟨(bytesReader.Read ⟨s, 4⟩ n).2, e, true⟩) := by
  by_cases h : uint32 (s.take 4) = e <;>
    simp [restoreStreamReader.Read, restoreStreamReader.checkVersion,
      checkVersionLoop_bytesReader cf s h4, h, ioReadCloser.Read]

/-- C3. Version check on the first `Read`: over any stream of at least 4
bytes whose first 4 bytes decode (big-endian) to `v`, the very first `Read`
returns 0 bytes and the version-mismatch error when `v` differs from the
expected version `e`; when `v = e` it returns what the underlying reader
returns for the bytes after the header, whose error is nil or `io.EOF`, never
a version error. -/
theorem first_read_checks_version (e : Nat) (s : List Byte) (h4 : 4 ≤ s.length)
    (cf n : Nat) (hcf : 0 < cf) :
    (uint32 (s.take 4) ≠ e →
        (restoreStreamReader.Read cf ⟨bytesReader.NewReader s, e, false⟩ n).map Prod.fst
          = some ⟨[], some (Err.unexpectedDataFormat (uint32 (s.take 4)))⟩)
      ∧ (uint32 (s.take 4) = e →
        ∃ r, (restoreStreamReader.Read cf ⟨bytesReader.NewReader s, e, false⟩ n).map Prod.fst
            = some r
          ∧ r = (bytesReader.Read ⟨s, 4⟩ n).1
          ∧ (r.err = none ∨ r.err = some Err.EOF)) := by
  obtain ⟨cf, rfl⟩ : ∃ c, cf = c + 1 := ⟨cf - 1, by omega⟩
  rw [restoreStreamReader_first_read e s h4 cf n]
  constructor
  · intro h
    simp [h]
  · intro h
    refine ⟨(bytesReader.Read ⟨s, 4⟩ n).1, by simp [h], rfl, ?_⟩
    unfold bytesReader.Read
    split <;> simp

/-- Instance of C3: expected version 1 against a stream framed with version 2,
and against a stream framed with version 1. -/
theorem first_read_checks_version_witness :
    (restoreStreamReader.Read 1 ⟨bytesReader.NewReader [0, 0, 0, 2, 7], 1, false⟩ 8).map Prod.fst
        = some ⟨[], some (Err.unexpectedDataFormat 2)⟩
      ∧ ∃ r, (restoreStreamReader.Read 1
            ⟨bytesReader.NewReader [0, 0, 0, 1, 7], 1, false⟩ 8).map Prod.fst = some r
          ∧ r = (bytesReader.Read ⟨[0, 0, 0, 1, 7], 4⟩ 8).1
          ∧ (r.err = none ∨ r.err = some Err.EOF) :=
  ⟨(first_read_checks_version 1 [0, 0, 0, 2, 7] (by decide) 1 8 (by decide)).1 (by decide),
   (first_read_checks_version 1 [0, 0, 0, 1, 7] (by decide) 1 8 (by decide)).2 (by decide)⟩

/-- C4, refuted as stated: with expected version 1 and a stream framed with
version 2, the first `Read` fails with the version-mismatch error, and the
second `Read` on the same reader returns the payload byte 7 with no error. -/
theorem read_after_mismatch_returns_payload :
    (restoreStreamReader.Read 1 ⟨bytesReader.NewReader [0, 0, 0, 2, 7], 1, false⟩ 8).map Prod.fst
        = some ⟨[], some (Err.unexpectedDataFormat 2)⟩
      ∧ ((restoreStreamReader.Read 1 ⟨bytesReader.NewReader [0, 0, 0, 2, 7], 1, false⟩ 8).bind
          fun p => (restoreStreamReader.Read 1 p.2 8).map Prod.fst)
        = some ⟨[7], none⟩ := by
  decide

/-- C4, amended: the version is checked once and never again. After the
first `Read` failed with the version-mismatch error, the reader has consumed
the 4 header bytes and marked the version as read; every later `Read` is
forwarded unchanged to the underlying reader, and reading on to the end
returns the bytes after the header with no error. -/
theorem read_after_mismatch_forwards (e : Nat) (s : List Byte) (h4 : 4 ≤ s.length)
    (hne : uint32 (s.take 4) ≠ e) (cf n : Nat) (hcf : 0 < cf) :
    restoreStreamReader.Read cf ⟨bytesReader.NewReader s, e, false⟩ n
        = some (⟨[], some (Err.unexpectedDataFormat (uint32 (s.take 4)))⟩, ⟨⟨s, 4⟩, e, true⟩)
      ∧ (∀ (rw : restoreStreamReader bytesReader) (cf2 m : Nat), rw.readVersion = true →
          rw.Read cf2 m = some ((rw.ReadCloser.Read m).1,
            { rw with ReadCloser := (rw.ReadCloser.Read m).2 })
          ∧ ∀ p, rw.Read cf2 m = some p → p.2.readVersion = true)
      ∧ ∀ (sizes : Nat → Nat) (cf2 fuel : Nat), (∀ k, 0 < sizes k) → s.length - 4 < fuel →
          ReadAll (restoreStreamReader.Read cf2) fuel sizes
              (⟨⟨s, 4⟩, e, true⟩ : restoreStreamReader bytesReader) []
            = some (s.drop 4, none) := by
  obtain ⟨cf, rfl⟩ : ∃ c, cf = c + 1 := ⟨cf - 1, by omega⟩
  refine ⟨?_, ?_, ?_⟩
  · rw [restoreStreamReader_first_read e s h4 cf n]
    simp [hne]
  · intro rw cf2 m h
    have hfw := restoreStreamReader_read_forward cf2 rw m h
    refine ⟨hfw, ?_⟩
    intro p hp
    rw [hfw] at hp
    cases hp
    exact h
  · intro sizes cf2 fuel hs hf
    rw [ReadAll_restoreStreamReader _ _ _ _ _ rfl, ReadAll_bytesReader _ _ _ _ hs]
    · simp [bytesReader.rest]
    · simpa [bytesReader.rest] using hf

/-- Instance of the amended C4 on the stream `[0, 0, 0, 2, 7]` with expected
version 1. -/
theorem read_after_mismatch_forwards_witness :
    ReadAll (restoreStreamReader.Read 1) 2 (fun _ => 8)
        (⟨⟨[0, 0, 0, 2, 7], 4⟩, 1, true⟩ : restoreStreamReader bytesReader) []
      = some ([7], none) :=
  (read_after_mismatch_forwards 1 [0, 0, 0, 2, 7] (by decide) (by decide) 1 8
    (by decide)).2.2 (fun _ => 8) 1 2 (fun _ => Nat.succ_pos 7) (by decide)


/-! ## Materialisation: lemmas -/

mutual
/-- Function `buildKopiaDirs` never fails. -/
theorem buildKopiaDirs_total (env : Env) :
    ∀ (dirName : String) (dir : treeMap), ∃ k, buildKopiaDirs env dirName dir = .ok k
  | dirName, .mk childDirs collection baseDir => by
    obtain ⟨ks, hks, _⟩ := buildChildDirs_total env childDirs
    unfold buildKopiaDirs
    split
    · exact ⟨_, rfl⟩
    · rw [hks]
      exact ⟨_, rfl⟩
/-- The loop over the child directories never fails, and its result lists the
directories built for the children, in order. -/
theorem buildChildDirs_total (env : Env) :
    ∀ (childDirs : List (String × treeMap)), ∃ ks, buildChildDirs env childDirs = .ok ks ∧
      List.Forall₂ (fun kv k => buildKopiaDirs env kv.1 kv.2 = .ok k) childDirs ks
  | [] => ⟨[], by simp [buildChildDirs], List.Forall₂.nil⟩
  | (childName, childDir) :: rest => by
    obtain ⟨k, hk⟩ := buildKopiaDirs_total env childName childDir
    obtain ⟨ks, hks, hall⟩ := buildChildDirs_total env rest
    refine ⟨k :: ks, ?_, List.Forall₂.cons hk hall⟩
    simp [buildChildDirs, hk, hks]
end

/-! ## Materialisation: claims -/

/-- C9. Reuse-subtree rule: `buildKopiaDirs` returns the node's `baseDir`
itself exactly when the node has no collection, no child directories and a
non-nil `baseDir`; in every other case it returns a streaming directory named
`encodeAsPath(dirName)` over the node's collection and `baseDir`, whose static
children are the results of `buildKopiaDirs` on the node's `childDirs`, one
for each child; the call never fails. -/
theorem buildKopiaDirs_reuse_rule (env : Env) (dirName : String) (dir : treeMap) :
    ((∃ b, dir.baseDir = some b ∧ buildKopiaDirs env dirName dir = .ok (.base b))
        ↔ (dir.collection = none ∧ dir.childDirs = [] ∧ dir.baseDir ≠ none))
      ∧ (¬ (dir.collection = none ∧ dir.childDirs = [] ∧ dir.baseDir ≠ none) →
          ∃ childEnts,
            buildKopiaDirs env dirName dir
                = .ok (.streaming (env.encodeAsPath [dirName]) childEnts dir.collection
                    dir.baseDir)
              ∧ List.Forall₂ (fun kv k => buildKopiaDirs env kv.1 kv.2 = .ok k)
                  dir.childDirs childEnts) := by
  obtain ⟨childDirs, collection, baseDir⟩ := dir
  obtain ⟨ks, hks, hall⟩ := buildChildDirs_total env childDirs
  simp only [treeMap.baseDir, treeMap.collection, treeMap.childDirs]
  by_cases hc : collection = none ∧ childDirs = [] ∧ baseDir ≠ none
  · obtain ⟨h1, h2, h3⟩ := hc
    obtain ⟨b, rfl⟩ := Option.ne_none_iff_exists'.mp h3
    subst h1 h2
    refine ⟨⟨fun _ => ⟨rfl, rfl, h3⟩, fun _ => ⟨b, rfl, by simp [buildKopiaDirs]⟩⟩, ?_⟩
    intro hn
    exact absurd ⟨rfl, rfl, h3⟩ hn
  · have hstream : buildKopiaDirs env dirName (.mk childDirs collection baseDir)
        = .ok (.streaming (env.encodeAsPath [dirName]) ks collection baseDir) := by
      unfold buildKopiaDirs
      split
      · rename_i h1 h2 h3
        exact absurd ⟨rfl, rfl, by simp⟩ hc
      · rw [hks]
    refine ⟨⟨?_, fun h => absurd h hc⟩, fun _ => ⟨ks, hstream, hall⟩⟩
    rintro ⟨b, _, hb⟩
    rw [hstream] at hb
    cases hb

/-- Instance of C9: a node with a collection and one reusable child. -/
theorem buildKopiaDirs_reuse_rule_witness :
    ∃ childEnts,
      buildKopiaDirs ⟨fun l => "/".intercalate l, id, Except.ok, 1, 0⟩ "Inbox"
          (.mk [("sub", .mk [] none (some (.dir "sub" [.file "g"])))]
            (some ⟨some ⟨["t", "Inbox"], false⟩, none, .NewState, []⟩) none)
        = .ok (.streaming "Inbox" childEnts
            (some ⟨some ⟨["t", "Inbox"], false⟩, none, .NewState, []⟩) none)
      ∧ List.Forall₂
          (fun kv k => buildKopiaDirs ⟨fun l => "/".intercalate l, id, Except.ok, 1, 0⟩
            kv.1 kv.2 = .ok k)
          [("sub", treeMap.mk [] none (some (.dir "sub" [.file "g"])))] childEnts :=
  (buildKopiaDirs_reuse_rule ⟨fun l => "/".intercalate l, id, Except.ok, 1, 0⟩ "Inbox"
    (.mk [("sub", .mk [] none (some (.dir "sub" [.file "g"])))]
      (some ⟨some ⟨["t", "Inbox"], false⟩, none, .NewState, []⟩) none)).2
    (by simp [treeMap.collection])


/-! ## Base traversal: lemmas -/

/-- The path computed by `traverseBaseDir` is the one of `newPathRule`. -/
theorem currentPathOf_eq_newPathRule (updatedPaths : GoMap (List String) (Option Path))
    (oldDirPath : List String) (newDirPath : Option (List String)) (dirName : String) :
    currentPathOf updatedPaths oldDirPath newDirPath dirName
      = newPathRule updatedPaths oldDirPath newDirPath dirName := by
  simp only [currentPathOf, newPathRule]
  generalize mapGet updatedPaths (oldDirPath ++ [dirName]) = m
  rcases m with _ | _ | _ <;> cases newDirPath <;> rfl

theorem applyPlacements_append (ps qs : List Placement) (roots : GoMap String treeMap) :
    applyPlacements (ps ++ qs) roots = applyPlacements qs (applyPlacements ps roots) := by
  simp [applyPlacements, List.filterMap_append, List.foldl_append]

theorem applyPlacements_nil (roots : GoMap String treeMap) : applyPlacements [] roots = roots :=
  rfl

mutual
/-- A successful `traverseBaseDir` performs exactly the assignments of the
placements of the subtree. -/
theorem traverseBaseDir_eq_apply (env : Env) (up : GoMap (List String) (Option Path)) :
    ∀ (dir : Entry) (depth : Nat) (old : List String) (new : Option (List String))
      (roots roots1 : GoMap String treeMap),
      traverseBaseDir env up depth old new dir roots = .ok roots1 →
      roots1 = applyPlacements (placements env up old new dir) roots
  | .file _, depth, old, new, roots, roots1 => by
    intro h
    simp only [traverseBaseDir, Except.ok.injEq] at h
    simp [placements, applyPlacements, h]
  | .dir name entries, depth, old, new, roots, roots1 => by
    intro h
    unfold traverseBaseDir at h
    split at h
    · cases h
    · split at h
      · cases h
      · rename_i dirName hdec
        simp only [currentPathOf_eq_newPathRule] at h
        split at h
        · cases h
        · rename_i hasItems roots2 htr
          obtain ⟨hh, hr⟩ := traverseEntries_eq_apply env up entries depth _ _ false roots
            hasItems roots2 htr
          simp only [placements, hdec, applyPlacements_append, ← hr]
          simp only [Bool.false_or] at hh
          split at h
          · rename_i cur hcur
            split at h
            · rename_i hit
              split at h
              · cases h
              · rename_i roots3 hget
                cases h
                simp [applyPlacements, Placement.assignment, hcur, Entry.hasItems, Entry.entries,
                  ← hh, hit, assignBaseDir, hget]
            · rename_i hit
              cases h
              simp [applyPlacements, Placement.assignment, hcur, Entry.hasItems, Entry.entries,
                  ← hh, hit]
          · rename_i hcur
            cases h
            simp [applyPlacements, Placement.assignment, hcur]
/-- A successful iteration over the entries of a base directory reports
whether a non-directory entry was seen and performs the assignments of the
placements of the subdirectories. -/
theorem traverseEntries_eq_apply (env : Env) (up : GoMap (List String) (Option Path)) :
    ∀ (entries : List Entry) (depth : Nat) (old : List String) (cur : Option (List String))
      (hasItems : Bool) (roots : GoMap String treeMap) (hasItems1 : Bool)
      (roots1 : GoMap String treeMap),
      traverseEntries env up depth old cur entries hasItems roots = .ok (hasItems1, roots1) →
      hasItems1 = (hasItems || entries.any (fun e => !e.isDir))
        ∧ roots1 = applyPlacements (placementsList env up old cur entries) roots
  | [], depth, old, cur, hasItems, roots, hasItems1, roots1 => by
    intro h
    simp only [traverseEntries, Except.ok.injEq, Prod.mk.injEq] at h
    simp [placementsList, applyPlacements, h.1, h.2]
  | .file n :: rest, depth, old, cur, hasItems, roots, hasItems1, roots1 => by
    intro h
    simp only [traverseEntries] at h
    obtain ⟨hh, hr⟩ := traverseEntries_eq_apply env up rest depth old cur true roots
      hasItems1 roots1 h
    simp [placementsList, placements, hh, hr, Entry.isDir]
  | .dir n es :: rest, depth, old, cur, hasItems, roots, hasItems1, roots1 => by
    intro h
    simp only [traverseEntries] at h
    split at h
    · cases h
    · rename_i roots2 htr
      have h1 := traverseBaseDir_eq_apply env up (.dir n es) (depth + 1) old cur roots roots2 htr
      obtain ⟨hh, hr⟩ := traverseEntries_eq_apply env up rest depth old cur hasItems roots2
        hasItems1 roots1 h
      simp [placementsList, applyPlacements_append, hh, hr, h1, Entry.isDir]
end

/-! ## Merge tree: lemmas -/

theorem mapGet_mapSet {κ ν : Type} [DecidableEq κ] (m : GoMap κ ν) (k k1 : κ) (v : ν) :
    mapGet (mapSet m k v) k1 = if k = k1 then some v else mapGet m k1 := by
  induction m with
  | nil =>
    by_cases h : k = k1 <;> simp [mapSet, mapGet, h]
  | cons kv m ih =>
    obtain ⟨k2, v2⟩ := kv
    by_cases h2 : k2 = k
    · subst h2
      by_cases h : k2 = k1 <;> simp [mapSet, mapGet, h]
    · by_cases h : k = k1
      · subst h
        simp [mapSet, mapGet, h2, ih]
      · by_cases h3 : k2 = k1
        · subst h3
          simp [mapSet, mapGet, h2, h]
        · simp [mapSet, mapGet, h2, h3, ih, h]

theorem find_newTreeMap (q : List String) :
    treeMap.find q newTreeMap = if q = [] then some newTreeMap else none := by
  cases q <;> simp [treeMap.find, newTreeMap, treeMap.childDirs, mapGet]

/-- After `getTreeNode` walked `p` and the caller wrote through `f`, the node
at `p` is `f` of the node that was there (or of a fresh node), and every other
node keeps its fields. -/
theorem find_walk {α : Type} (fld : NodeField α) (f : treeMap → treeMap)
    (hf : ∀ t, (f t).childDirs = t.childDirs) :
    ∀ (p q : List String) (t : treeMap),
      (treeMap.find q (treeMap.walk p f t)).bind fld.get
        = if q = p then fld.get (f ((treeMap.find p t).getD newTreeMap))
          else (treeMap.find q t).bind fld.get := by
  intro p
  induction p with
  | nil =>
    intro q t
    cases q with
    | nil => simp [treeMap.find, treeMap.walk]
    | cons b qs => simp [treeMap.find, treeMap.walk, hf]
  | cons a ps ih =>
    intro q t
    obtain ⟨cs, c, bd⟩ := t
    cases q with
    | nil =>
      simp only [treeMap.find, treeMap.walk, Option.some_bind, treeMap.collection,
        treeMap.baseDir]
      rw [if_neg (by simp)]
      exact fld.ignoresChildren _ _ _ _
    | cons b qs =>
      simp only [treeMap.find, treeMap.walk, treeMap.childDirs, mapGet_mapSet]
      by_cases hab : a = b
      · subst hab
        simp only [if_true, List.cons.injEq, true_and]
        rw [ih qs]
        cases hg : mapGet cs a with
        | none =>
          simp only [Option.getD_none, find_newTreeMap]
          by_cases hq : qs = ps
          · subst hq
            by_cases hq2 : qs = [] <;> simp [hq2]
          · simp only [hq, if_false]
            by_cases hq2 : qs = [] <;> simp [hq2, fld.new]
        | some child => simp
      · have hba : ¬ b = a := fun h => hab h.symm
        simp [hab, hba]

theorem findNode_eq_find (roots : GoMap String treeMap) (q0 : String) (qs : List String) :
    findNode roots (q0 :: qs) = treeMap.find (q0 :: qs) (.mk roots none none) := by
  simp [findNode, treeMap.find, treeMap.childDirs]

theorem getTreeNode_eq_walk (roots : GoMap String treeMap) (p0 : String) (ps : List String)
    (f : treeMap → treeMap) :
    getTreeNode roots (p0 :: ps) f
      = some (treeMap.walk (p0 :: ps) f (.mk roots none none)).childDirs := rfl

theorem find_cons_childDirs (q0 : String) (qs : List String) (t : treeMap) :
    treeMap.find (q0 :: qs) t = treeMap.find (q0 :: qs) (.mk t.childDirs none none) := by
  simp [treeMap.find, treeMap.childDirs]

/-- Fields of the nodes of the forest after `getTreeNode(roots, p)` and the
write `f` through the returned node. -/
theorem findNode_getTreeNode {α : Type} (fld : NodeField α) (f : treeMap → treeMap)
    (hf : ∀ t, (f t).childDirs = t.childDirs) (roots roots1 : GoMap String treeMap)
    (p q : List String) (h : getTreeNode roots p f = some roots1) :
    (findNode roots1 q).bind fld.get
      = if q = p then fld.get (f ((findNode roots p).getD newTreeMap))
        else (findNode roots q).bind fld.get := by
  cases p with
  | nil => simp [getTreeNode] at h
  | cons p0 ps =>
    rw [getTreeNode_eq_walk] at h
    cases h
    cases q with
    | nil => simp [findNode]
    | cons q0 qs =>
      rw [findNode_eq_find, findNode_eq_find, findNode_eq_find, ← find_cons_childDirs]
      exact find_walk fld f hf (p0 :: ps) (q0 :: qs) (.mk roots none none)

theorem setBaseDir_childDirs (d : Entry) (t : treeMap) :
    (treeMap.setBaseDir d t).childDirs = t.childDirs := by
  cases t; rfl

theorem setCollection_childDirs (c : Collection) (t : treeMap) :
    (treeMap.setCollection c t).childDirs = t.childDirs := by
  cases t; rfl

/-- One `baseDir` assignment changes the `baseDir` at its path only. -/
theorem baseDirAt_assignBaseDir (roots : GoMap String treeMap) (a : List String × Entry)
    (q : List String) (hq : q ≠ []) :
    baseDirAt (assignBaseDir roots a) q = if a.1 = q then some a.2 else baseDirAt roots q := by
  obtain ⟨p, d⟩ := a
  cases hg : getTreeNode roots p (treeMap.setBaseDir d) with
  | none =>
    have hp : p = [] := by
      cases p with
      | nil => rfl
      | cons _ _ => simp [getTreeNode] at hg
    subst hp
    simp [assignBaseDir, hg, hq, fun h : [] = q => hq h.symm]
  | some roots1 =>
    simp only [assignBaseDir, hg, Option.getD_some, baseDirAt]
    have h := findNode_getTreeNode NodeField.baseDir _ (setBaseDir_childDirs d) roots roots1 p q hg
    simp only [NodeField.baseDir] at h
    rw [h]
    by_cases hqp : q = p
    · subst hqp
      simp only [if_true]
      cases (findNode roots q).getD newTreeMap
      rfl
    · have hpq : ¬ p = q := fun h => hqp h.symm
      simp only [hqp, hpq, if_false]

/-- A `baseDir` assignment leaves every `collection` as it was. -/
theorem collectionAt_assignBaseDir (roots : GoMap String treeMap) (a : List String × Entry)
    (q : List String) :
    collectionAt (assignBaseDir roots a) q = collectionAt roots q := by
  obtain ⟨p, d⟩ := a
  cases hg : getTreeNode roots p (treeMap.setBaseDir d) with
  | none => simp [assignBaseDir, hg]
  | some roots1 =>
    simp only [assignBaseDir, hg, Option.getD_some, collectionAt]
    have h := findNode_getTreeNode NodeField.collection _ (setBaseDir_childDirs d) roots roots1
      p q hg
    simp only [NodeField.collection] at h
    rw [h]
    by_cases hqp : q = p
    · subst hqp
      simp only [if_true]
      cases hf : findNode roots q with
      | none => rfl
      | some t => cases t; rfl
    · simp [hqp]

theorem lastPlaced_append (ps qs : List Placement) (q : List String) :
    lastPlaced (ps ++ qs) q = (lastPlaced qs q).or (lastPlaced ps q) := by
  simp only [lastPlaced, List.filter_append, List.getLast?_append]
  cases (List.filter (fun p => p.dir.hasItems && decide (p.newPath = some q)) qs).getLast? <;>
    simp

theorem baseDirAt_applyPlacements_single (pl : Placement) (roots : GoMap String treeMap)
    (q : List String) (hq : q ≠ []) :
    baseDirAt (applyPlacements [pl] roots) q = (lastPlaced [pl] q).or (baseDirAt roots q) := by
  obtain ⟨o, n, d⟩ := pl
  cases n with
  | none => simp [applyPlacements, Placement.assignment, lastPlaced]
  | some n =>
    by_cases hi : d.hasItems = true
    · simp only [applyPlacements, Placement.assignment, hi, if_true, List.filterMap_cons,
        List.filterMap_nil, List.foldl_cons, List.foldl_nil, lastPlaced]
      rw [baseDirAt_assignBaseDir _ _ _ hq]
      by_cases hn : n = q
      · subst hn
        simp [hi]
      · simp [hn, hi]
    · simp [applyPlacements, Placement.assignment, hi, lastPlaced]

/-- After the assignments of the placements `ps`, the node at `q` holds the
directory placed there last, or what it held before when none was. -/
theorem baseDirAt_applyPlacements (q : List String) (hq : q ≠ []) :
    ∀ (ps : List Placement) (roots : GoMap String treeMap),
      baseDirAt (applyPlacements ps roots) q = (lastPlaced ps q).or (baseDirAt roots q) := by
  intro ps
  induction ps with
  | nil => intro roots; simp [applyPlacements, lastPlaced]
  | cons pl rest ih =>
    intro roots
    have e : pl :: rest = [pl] ++ rest := rfl
    rw [e, applyPlacements_append, ih, baseDirAt_applyPlacements_single pl roots q hq,
      lastPlaced_append]
    cases lastPlaced rest q <;> simp

/-- The assignments of placements leave every `collection` as it was. -/
theorem collectionAt_applyPlacements (q : List String) :
    ∀ (ps : List Placement) (roots : GoMap String treeMap),
      collectionAt (applyPlacements ps roots) q = collectionAt roots q := by
  intro ps roots
  unfold applyPlacements
  generalize ps.filterMap Placement.assignment = as
  induction as generalizing roots with
  | nil => rfl
  | cons a rest ih => rw [List.foldl_cons, ih, collectionAt_assignBaseDir]

mutual
/-- A directory whose old path is a key of `updatedPaths` is placed at the
path registered for it, whatever happened to its ancestors. -/
theorem placements_updated (env : Env) (up : GoMap (List String) (Option Path)) :
    ∀ (dir : Entry) (old : List String) (new : Option (List String)) (pl : Placement),
      pl ∈ placements env up old new dir → ∀ upb, mapGet up pl.oldPath = some upb →
      pl.newPath = upb.map Path.elements
  | .file _, old, new, pl => by
    intro h
    simp [placements] at h
  | .dir name entries, old, new, pl => by
    intro h upb hup
    unfold placements at h
    split at h
    · simp at h
    · rename_i dirName hdec
      rcases List.mem_append.mp h with h1 | h1
      · exact placementsList_updated env up entries _ _ pl h1 upb hup
      · simp only [List.mem_singleton] at h1
        subst h1
        simp only at hup
        simp [newPathRule, hup]
/-- The same for the directories among a list of entries. -/
theorem placementsList_updated (env : Env) (up : GoMap (List String) (Option Path)) :
    ∀ (entries : List Entry) (old : List String) (new : Option (List String)) (pl : Placement),
      pl ∈ placementsList env up old new entries → ∀ upb, mapGet up pl.oldPath = some upb →
      pl.newPath = upb.map Path.elements
  | [], old, new, pl => by
    intro h
    simp [placementsList] at h
  | e :: rest, old, new, pl => by
    intro h upb hup
    unfold placementsList at h
    rcases List.mem_append.mp h with h1 | h1
    · exact placements_updated env up e old new pl h1 upb hup
    · exact placementsList_updated env up rest old new pl h1 upb hup
end


theorem lastPlaced_eq_some (ps : List Placement) (q : List String) (d : Entry)
    (h : lastPlaced ps q = some d) :
    ∃ pl ∈ ps, pl.dir = d ∧ pl.dir.hasItems = true ∧ pl.newPath = some q := by
  unfold lastPlaced at h
  obtain ⟨pl, hpl, hd⟩ := Option.map_eq_some'.mp h
  have hm := List.mem_of_mem_getLast? hpl
  obtain ⟨h1, h2⟩ := List.mem_filter.mp hm
  simp only [Bool.and_eq_true, decide_eq_true_eq] at h2
  exact ⟨pl, h1, hd, h2.1, h2.2⟩

theorem lastPlaced_of_unique (ps : List Placement) (q : List String) (pl : Placement)
    (hmem : pl ∈ ps) (hi : pl.dir.hasItems = true) (hn : pl.newPath = some q)
    (huniq : ∀ pl1 ∈ ps, pl1.dir.hasItems = true → pl1.newPath = some q → pl1.dir = pl.dir) :
    lastPlaced ps q = some pl.dir := by
  unfold lastPlaced
  have hmf : pl ∈ ps.filter (fun p => p.dir.hasItems && decide (p.newPath = some q)) := by
    simp [List.mem_filter, hmem, hi, hn]
  cases hl : (ps.filter (fun p => p.dir.hasItems && decide (p.newPath = some q))).getLast? with
  | none =>
    rw [List.getLast?_eq_none_iff] at hl
    rw [hl] at hmf
    cases hmf
  | some pl1 =>
    have hm := List.mem_of_mem_getLast? hl
    obtain ⟨h1, h2⟩ := List.mem_filter.mp hm
    simp only [Bool.and_eq_true, decide_eq_true_eq] at h2
    simp [huniq pl1 h1 h2.1 h2.2]

/-! ## Inflation of the base snapshots: lemmas -/

theorem inflateSubtrees_eq_apply (env : Env) (up : GoMap (List String) (Option Path))
    (dir : Entry) :
    ∀ (subtrees : List (List String)) (roots roots1 : GoMap String treeMap),
      inflateSubtrees env up dir subtrees roots = .ok roots1 →
      roots1 = applyPlacements (subtreePlacements env up dir subtrees) roots := by
  intro subtrees
  induction subtrees with
  | nil =>
    intro roots roots1 h
    simp only [inflateSubtrees, Except.ok.injEq] at h
    simp [subtreePlacements, applyPlacements, h]
  | cons S rest ih =>
    intro roots roots1 h
    unfold inflateSubtrees at h
    unfold subtreePlacements
    simp only at h ⊢
    split at h
    · cases h
    · rename_i ent hent
      by_cases hd : ent.isDir = true
      · simp only [hd, Bool.not_true, Bool.false_eq_true, if_false] at h ⊢
        split at h
        · cases h
        · rename_i roots2 htr
          rw [applyPlacements_append, ← traverseBaseDir_eq_apply env up ent 0 _ _ roots roots2 htr]
          exact ih roots2 roots1 h
      · simp only [hd, Bool.not_false, if_true, Except.ok.injEq, Bool.not_eq_true] at h ⊢
        simp [Bool.eq_false_iff.mpr hd, applyPlacements, h] at h ⊢

theorem inflateBaseTree_eq_apply (env : Env) (loader : String → Except Err Entry)
    (up : GoMap (List String) (Option Path)) (snap : IncrementalBase)
    (roots roots1 : GoMap String treeMap)
    (h : inflateBaseTree env loader snap up roots = .ok roots1) :
    roots1 = applyPlacements (basePlacements env loader up snap) roots := by
  unfold inflateBaseTree at h
  unfold basePlacements
  by_cases hi : snap.IncompleteReason.length > 0
  · simp only [hi, if_true, Except.ok.injEq] at h ⊢
    simp [applyPlacements, h]
  · simp only [hi, if_false] at h ⊢
    split at h
    · cases h
    · rename_i root hroot
      by_cases hd : root.isDir = true
      · simp only [hd, Bool.not_true, Bool.false_eq_true, if_false] at h ⊢
        exact inflateSubtrees_eq_apply env up root _ roots roots1 h
      · simp [hd] at h

theorem inflateBaseTrees_eq_apply (env : Env) (loader : String → Except Err Entry)
    (up : GoMap (List String) (Option Path)) :
    ∀ (bases : List IncrementalBase) (roots roots1 : GoMap String treeMap),
      inflateBaseTrees env loader up bases roots = .ok roots1 →
      roots1 = applyPlacements (allPlacements env loader up bases) roots := by
  intro bases
  induction bases with
  | nil =>
    intro roots roots1 h
    simp only [inflateBaseTrees, Except.ok.injEq] at h
    simp [allPlacements, applyPlacements, h]
  | cons snap rest ih =>
    intro roots roots1 h
    unfold inflateBaseTrees at h
    split at h
    · cases h
    · rename_i roots2 hb
      rw [allPlacements, applyPlacements_append,
        ← inflateBaseTree_eq_apply env loader up snap roots roots2 hb]
      exact ih roots2 roots1 h

/-- A successful `inflateRoots` is the collection tree followed by the
assignments of the placements of all base snapshots. -/
theorem inflateRoots_eq_apply (env : Env) (loader : String → Except Err Entry)
    (bases : List IncrementalBase) (cs : List Collection) (roots : GoMap String treeMap)
    (h : inflateRoots env loader bases cs = .ok roots) :
    ∃ roots0 up, inflateCollectionTree cs = .ok (roots0, up)
      ∧ roots = applyPlacements (allPlacements env loader up bases) roots0 := by
  unfold inflateRoots at h
  split at h
  · cases h
  · rename_i roots0 up hc
    exact ⟨roots0, up, hc, inflateBaseTrees_eq_apply env loader up bases roots0 roots h⟩

/-! ## Which nodes exist -/

/-- A node found after `getTreeNode` walked `p` was there before or lies on
`p`. -/
theorem find_walk_isSome (f : treeMap → treeMap) (hf : ∀ t, (f t).childDirs = t.childDirs) :
    ∀ (p q : List String) (t : treeMap),
      treeMap.find q (treeMap.walk p f t) ≠ none → treeMap.find q t ≠ none ∨ q <+: p := by
  intro p
  induction p with
  | nil =>
    intro q t h
    cases q with
    | nil => exact Or.inr (List.prefix_refl _)
    | cons b qs =>
      left
      simpa [treeMap.find, treeMap.walk, hf] using h
  | cons a ps ih =>
    intro q t h
    obtain ⟨cs, c, bd⟩ := t
    cases q with
    | nil => exact Or.inr (List.nil_prefix)
    | cons b qs =>
      simp only [treeMap.find, treeMap.walk, treeMap.childDirs, mapGet_mapSet] at h ⊢
      by_cases hab : a = b
      · subst hab
        simp only [if_true] at h
        rcases ih qs _ h with h1 | h1
        · cases hg : mapGet cs a with
          | none =>
            rw [hg, Option.getD_none, find_newTreeMap] at h1
            by_cases hq : qs = []
            · subst hq
              exact Or.inr ((List.prefix_cons_inj a).mpr List.nil_prefix)
            · simp [hq] at h1
          | some child =>
            rw [hg, Option.getD_some] at h1
            exact Or.inl h1
        · exact Or.inr ((List.prefix_cons_inj a).mpr h1)
      · simp only [hab, if_false] at h
        exact Or.inl h

theorem findNode_getTreeNode_isSome (f : treeMap → treeMap)
    (hf : ∀ t, (f t).childDirs = t.childDirs) (roots roots1 : GoMap String treeMap)
    (p q : List String) (h : getTreeNode roots p f = some roots1)
    (hq : findNode roots1 q ≠ none) : findNode roots q ≠ none ∨ q <+: p := by
  cases p with
  | nil => simp [getTreeNode] at h
  | cons p0 ps =>
    rw [getTreeNode_eq_walk] at h
    cases h
    cases q with
    | nil => simp [findNode] at hq
    | cons q0 qs =>
      rw [findNode_eq_find, ← find_cons_childDirs] at hq
      rw [findNode_eq_find]
      exact find_walk_isSome f hf (p0 :: ps) (q0 :: qs) _ hq

/-- A node found after the assignments of the placements `ps` was there
before or lies on the new path of one of them. -/
theorem findNode_applyPlacements (q : List String) :
    ∀ (ps : List Placement) (roots : GoMap String treeMap),
      findNode (applyPlacements ps roots) q ≠ none →
      findNode roots q ≠ none ∨ ∃ pl ∈ ps, ∃ n, pl.newPath = some n ∧ q <+: n := by
  intro ps
  induction ps using List.reverseRecOn with
  | nil => intro roots h; exact Or.inl h
  | append_singleton ps pl ih =>
    intro roots h
    rw [applyPlacements_append] at h
    have hstep : findNode (applyPlacements ps roots) q ≠ none
        ∨ ∃ n, pl.newPath = some n ∧ q <+: n := by
      obtain ⟨o, n, d⟩ := pl
      cases n with
      | none => exact Or.inl (by simpa [applyPlacements, Placement.assignment] using h)
      | some n =>
        by_cases hi : d.hasItems = true
        · simp only [applyPlacements, Placement.assignment, hi, if_true, List.filterMap_cons,
            List.filterMap_nil, List.foldl_cons, List.foldl_nil, assignBaseDir] at h
          cases hg : getTreeNode ((ps.filterMap Placement.assignment).foldl assignBaseDir roots)
              n (treeMap.setBaseDir d) with
          | none =>
            rw [hg] at h
            exact Or.inl h
          | some roots1 =>
            rw [hg] at h
            rcases findNode_getTreeNode_isSome _ (setBaseDir_childDirs d) _ _ n q hg h with h1 | h1
            · exact Or.inl h1
            · exact Or.inr ⟨n, rfl, h1⟩
        · exact Or.inl (by simpa [applyPlacements, Placement.assignment, hi] using h)
    rcases hstep with h1 | ⟨n, hn, hqn⟩
    · rcases ih roots h1 with h2 | ⟨pl1, hpl1, h2⟩
      · exact Or.inl h2
      · exact Or.inr ⟨pl1, List.mem_append_left _ hpl1, h2⟩
    · exact Or.inr ⟨pl, by simp, n, hn, hqn⟩

/-! ## The collection tree -/

theorem registerMove_cases (s : Collection) (up up1 : GoMap (List String) (Option Path))
    (h : registerMove s up = .ok up1) :
    (s.State = .MovedState ∧ ∃ prev, s.PreviousPath = some prev
        ∧ up1 = mapSet up prev.elements s.FullPath)
      ∨ (s.State ≠ .MovedState ∧ up1 = up) := by
  unfold registerMove at h
  split at h
  · rename_i hst
    split at h
    · cases h
    · rename_i prev hprev
      cases h
      exact Or.inl ⟨hst, prev, hprev, rfl⟩
  · rename_i hst
    cases h
    exact Or.inr ⟨fun h => hst h, rfl⟩

/-- One step of the loop of `inflateCollectionTree`. -/
theorem inflateCollectionLoop_cons (s : Collection) (rest : List Collection)
    (roots roots1 : GoMap String treeMap) (up up1 : GoMap (List String) (Option Path))
    (h : inflateCollectionLoop (s :: rest) roots up = .ok (roots1, up1)) :
    (s.State = .DeletedState ∧ ∃ prev, s.PreviousPath = some prev
        ∧ inflateCollectionLoop rest roots (mapSet up prev.elements none) = .ok (roots1, up1))
      ∨ (s.State ≠ .DeletedState ∧ ∃ up2 fullPath roots2,
          registerMove s up = .ok up2 ∧ s.FullPath = some fullPath
            ∧ fullPath.elements ≠ []
            ∧ getTreeNode roots fullPath.elements (treeMap.setCollection s) = some roots2
            ∧ inflateCollectionLoop rest roots2 up2 = .ok (roots1, up1)) := by
  unfold inflateCollectionLoop at h
  by_cases hst : s.State = .DeletedState
  · simp only [hst, if_true] at h
    split at h
    · cases h
    · rename_i prev hprev
      exact Or.inl ⟨hst, prev, hprev, h⟩
  · simp only [hst, if_false] at h
    split at h
    · cases h
    · rename_i up2 hreg
      split at h
      · cases h
      · rename_i fullPath hfull
        split at h
        · cases h
        · rename_i hlen
          split at h
          · cases h
          · rename_i roots2 hget
            refine Or.inr ⟨hst, up2, fullPath, roots2, hreg, hfull, ?_, hget, h⟩
            intro he
            exact hlen (by simp [he])

/-- What a successful `inflateCollectionTree` leaves in `updatedPaths` and in
the tree: keys are kept, the previous path of every deleted or moved
collection is a key, a non-nil value is the full path of a moved collection,
and every node lies on the full path of a collection. -/
theorem inflateCollectionLoop_facts :
    ∀ (cs : List Collection) (roots roots1 : GoMap String treeMap)
      (up up1 : GoMap (List String) (Option Path)),
      inflateCollectionLoop cs roots up = .ok (roots1, up1) →
      (∀ k, mapGet up k ≠ none → mapGet up1 k ≠ none)
        ∧ (∀ c ∈ cs, (c.State = .DeletedState ∨ c.State = .MovedState) →
            ∀ p, c.PreviousPath = some p → mapGet up1 p.elements ≠ none)
        ∧ (∀ k F, mapGet up1 k = some (some F) → mapGet up k = some (some F)
            ∨ ∃ c ∈ cs, c.State = .MovedState ∧ c.FullPath = some F)
        ∧ (∀ q, findNode roots1 q ≠ none → findNode roots q ≠ none
            ∨ ∃ c ∈ cs, ∃ F, c.FullPath = some F ∧ q <+: F.elements) := by
  intro cs
  induction cs with
  | nil =>
    intro roots roots1 up up1 h
    simp only [inflateCollectionLoop, Except.ok.injEq, Prod.mk.injEq] at h
    obtain ⟨rfl, rfl⟩ := h
    exact ⟨fun _ h => h, fun c hc => absurd hc (List.not_mem_nil c), fun _ _ h => Or.inl h,
      fun _ h => Or.inl h⟩
  | cons s rest ih =>
    intro roots roots1 up up1 h
    rcases inflateCollectionLoop_cons s rest roots roots1 up up1 h with
      ⟨hst, prev, hprev, hrec⟩ | ⟨hst, up2, fullPath, roots2, hreg, hfull, _, hget, hrec⟩
    · obtain ⟨k1, k2, v, n⟩ := ih _ _ _ _ hrec
      refine ⟨?_, ?_, ?_, ?_⟩
      · intro k hk
        apply k1
        rw [mapGet_mapSet]
        split
        · simp
        · exact hk
      · intro c hc hstate p hp
        rcases List.mem_cons.mp hc with rfl | hc
        · rw [hprev] at hp
          cases hp
          apply k1
          simp [mapGet_mapSet]
        · exact k2 c hc hstate p hp
      · intro k F hk
        rcases v k F hk with h1 | ⟨c, hc, h1⟩
        · rw [mapGet_mapSet] at h1
          split at h1
          · cases h1
          · exact Or.inl h1
        · exact Or.inr ⟨c, List.mem_cons_of_mem _ hc, h1⟩
      · intro q hq
        rcases n q hq with h1 | ⟨c, hc, h1⟩
        · exact Or.inl h1
        · exact Or.inr ⟨c, List.mem_cons_of_mem _ hc, h1⟩
    · obtain ⟨k1, k2, v, n⟩ := ih _ _ _ _ hrec
      have hreg2 := registerMove_cases s up up2 hreg
      refine ⟨?_, ?_, ?_, ?_⟩
      · intro k hk
        apply k1
        rcases hreg2 with ⟨_, prev, _, rfl⟩ | ⟨_, rfl⟩
        · rw [mapGet_mapSet]
          split
          · simp
          · exact hk
        · exact hk
      · intro c hc hstate p hp
        rcases List.mem_cons.mp hc with rfl | hc
        · apply k1
          rcases hreg2 with ⟨_, prev, hprev, rfl⟩ | ⟨hnm, rfl⟩
          · rw [hprev] at hp
            cases hp
            simp [mapGet_mapSet]
          · rcases hstate with h1 | h1
            · exact absurd h1 hst
            · exact absurd h1 hnm
        · exact k2 c hc hstate p hp
      · intro k F hk
        rcases v k F hk with h1 | ⟨c, hc, h1⟩
        · rcases hreg2 with ⟨hm, prev, hprev, rfl⟩ | ⟨hnm, rfl⟩
          · rw [mapGet_mapSet] at h1
            split at h1
            · simp only [Option.some.injEq] at h1
              exact Or.inr ⟨s, List.mem_cons_self _ _, hm, h1⟩
            · exact Or.inl h1
          · exact Or.inl h1
        · exact Or.inr ⟨c, List.mem_cons_of_mem _ hc, h1⟩
      · intro q hq
        rcases n q hq with h1 | ⟨c, hc, h1⟩
        · rcases findNode_getTreeNode_isSome _ (setCollection_childDirs s) _ _ _ q hget h1
            with h2 | h2
          · exact Or.inl h2
          · exact Or.inr ⟨s, List.mem_cons_self _ _, fullPath, hfull, h2⟩
        · exact Or.inr ⟨c, List.mem_cons_of_mem _ hc, h1⟩

/-! ## Placements stay away from a deleted or moved path -/

theorem AvoidsPath.not_below {P old : List String} {new : Option (List String)}
    (h : AvoidsPath P old new) (n : List String) (hn : new = some n) : ¬ P <+: n := by
  rcases h n hn with ⟨h1, h2⟩ | ⟨F, h1, h2, h3⟩
  · rw [h1]
    exact h2
  · intro hp
    rcases List.prefix_or_prefix_of_prefix hp h3 with h4 | h4
    · exact h1 h4
    · exact h2 h4

theorem AvoidsPath.step {P old : List String} {new : Option (List String)}
    (up : GoMap (List String) (Option Path)) (hkey : mapGet up P ≠ none)
    (hval : ∀ k F, mapGet up k = some (some F) → ¬ P <+: F.elements ∧ ¬ F.elements <+: P)
    (h : AvoidsPath P old new) (dirName : String) :
    AvoidsPath P (old ++ [dirName]) (newPathRule up old new dirName) := by
  intro n hn
  unfold newPathRule at hn
  cases hg : mapGet up (old ++ [dirName]) with
  | some upb =>
    rw [hg] at hn
    cases upb with
    | none => simp at hn
    | some F =>
      simp only [Option.map_some', Option.some.injEq] at hn
      subst hn
      exact Or.inr ⟨F.elements, (hval _ F hg).1, (hval _ F hg).2, List.prefix_refl _⟩
  | none =>
    rw [hg] at hn
    cases new with
    | none => simp at hn
    | some m =>
      simp only [Option.some.injEq] at hn
      subst hn
      rcases h m rfl with ⟨h1, h2⟩ | ⟨F, h1, h2, h3⟩
      · subst h1
        refine Or.inl ⟨rfl, ?_⟩
        intro hp
        rcases List.prefix_concat_iff.mp hp with h4 | h4
        · rw [h4] at hkey
          exact hkey hg
        · exact h2 h4
      · exact Or.inr ⟨F, h1, h2, h3.trans (List.prefix_append _ _)⟩

mutual
/-- Under the invariant no directory of the subtree is placed at or below
`P`. -/
theorem placements_avoid (env : Env) (up : GoMap (List String) (Option Path))
    (P : List String) (hkey : mapGet up P ≠ none)
    (hval : ∀ k F, mapGet up k = some (some F) → ¬ P <+: F.elements ∧ ¬ F.elements <+: P) :
    ∀ (dir : Entry) (old : List String) (new : Option (List String)),
      AvoidsPath P old new → ∀ pl ∈ placements env up old new dir,
      ∀ n, pl.newPath = some n → ¬ P <+: n
  | .file _, old, new => by
    intro _ pl h
    simp [placements] at h
  | .dir name entries, old, new => by
    intro hinv pl h n hn
    unfold placements at h
    split at h
    · simp at h
    · rename_i dirName hdec
      have hstep := AvoidsPath.step up hkey hval hinv dirName
      rcases List.mem_append.mp h with h1 | h1
      · exact placementsList_avoid env up P hkey hval entries _ _ hstep pl h1 n hn
      · simp only [List.mem_singleton] at h1
        subst h1
        exact hstep.not_below n hn
/-- The same for the directories among a list of entries. -/
theorem placementsList_avoid (env : Env) (up : GoMap (List String) (Option Path))
    (P : List String) (hkey : mapGet up P ≠ none)
    (hval : ∀ k F, mapGet up k = some (some F) → ¬ P <+: F.elements ∧ ¬ F.elements <+: P) :
    ∀ (entries : List Entry) (old : List String) (new : Option (List String)),
      AvoidsPath P old new → ∀ pl ∈ placementsList env up old new entries,
      ∀ n, pl.newPath = some n → ¬ P <+: n
  | [], old, new => by
    intro _ pl h
    simp [placementsList] at h
  | e :: rest, old, new => by
    intro hinv pl h n hn
    unfold placementsList at h
    rcases List.mem_append.mp h with h1 | h1
    · exact placements_avoid env up P hkey hval e old new hinv pl h1 n hn
    · exact placementsList_avoid env up P hkey hval rest old new hinv pl h1 n hn
end

theorem allPlacements_avoid (env : Env) (loader : String → Except Err Entry)
    (up : GoMap (List String) (Option Path)) (P : List String) (hkey : mapGet up P ≠ none)
    (hval : ∀ k F, mapGet up k = some (some F) → ¬ P <+: F.elements ∧ ¬ F.elements <+: P)
    (bases : List IncrementalBase)
    (hsub : ∀ snap ∈ bases, ∀ S ∈ snap.SubtreePaths, ¬ P <+: builderDir S) :
    ∀ pl ∈ allPlacements env loader up bases, ∀ n, pl.newPath = some n → ¬ P <+: n := by
  induction bases with
  | nil =>
    intro pl h
    simp [allPlacements] at h
  | cons snap rest ih =>
    intro pl h n hn
    unfold allPlacements at h
    rcases List.mem_append.mp h with h1 | h1
    · unfold basePlacements at h1
      split at h1
      · simp at h1
      · split at h1
        · simp at h1
        · rename_i root _
          split at h1
          · simp at h1
          · have hs : ∀ S ∈ snap.SubtreePaths, ¬ P <+: builderDir S :=
              hsub snap (List.mem_cons_self _ _)
            generalize snap.SubtreePaths = subtrees at h1 hs
            induction subtrees with
            | nil => simp [subtreePlacements] at h1
            | cons S more ih2 =>
              unfold subtreePlacements at h1
              split at h1
              · simp at h1
              · rename_i ent _
                split at h1
                · simp at h1
                · rcases List.mem_append.mp h1 with h2 | h2
                  · have hinv : AvoidsPath P (builderDir S) (some (builderDir S)) := by
                      intro m hm
                      cases hm
                      exact Or.inl ⟨rfl, hs S (List.mem_cons_self _ _)⟩
                    exact placements_avoid env up P hkey hval ent _ _ hinv pl h2 n hn
                  · exact ih2 h2 (fun S1 hS1 => hs S1 (List.mem_cons_of_mem _ hS1))
    · exact ih (fun snap1 h1s => hsub snap1 (List.mem_cons_of_mem _ h1s)) pl h1 n hn

/-! ## The collection tree when paths are not shared -/

/-- Attaching a collection changes the `collection` at its path only. -/
theorem collectionAt_getTreeNode (roots roots1 : GoMap String treeMap) (s : Collection)
    (p q : List String) (h : getTreeNode roots p (treeMap.setCollection s) = some roots1) :
    collectionAt roots1 q = if q = p then some s else collectionAt roots q := by
  have h1 := findNode_getTreeNode NodeField.collection _ (setCollection_childDirs s) roots
    roots1 p q h
  simp only [NodeField.collection] at h1
  unfold collectionAt
  rw [h1]
  by_cases hqp : q = p
  · simp only [hqp, if_true]
    cases (findNode roots p).getD newTreeMap
    rfl
  · simp only [hqp, if_false]

/-- Attaching a collection leaves every `baseDir` as it was. -/
theorem baseDirAt_getTreeNode (roots roots1 : GoMap String treeMap) (s : Collection)
    (p q : List String) (h : getTreeNode roots p (treeMap.setCollection s) = some roots1) :
    baseDirAt roots1 q = baseDirAt roots q := by
  have h1 := findNode_getTreeNode NodeField.baseDir _ (setCollection_childDirs s) roots
    roots1 p q h
  simp only [NodeField.baseDir] at h1
  unfold baseDirAt
  rw [h1]
  by_cases hqp : q = p
  · subst hqp
    simp only [if_true]
    cases hf : findNode roots q with
    | none => rfl
    | some t => cases t; rfl
  · simp only [hqp, if_false]

/-- The collection tree holds no base directory that was not there before,
holds at `Q` the only collection with full path `Q`, and maps `P` to the full
path of the only deleted or moved collection with previous path `P`. -/
theorem inflateCollectionLoop_unique (c : Collection) (hcm : c.State = .MovedState)
    (P Q : List String) :
    ∀ (cs : List Collection) (roots roots1 : GoMap String treeMap)
      (up up1 : GoMap (List String) (Option Path)),
      inflateCollectionLoop cs roots up = .ok (roots1, up1) →
      (∀ c1 ∈ cs, c1.State ≠ .DeletedState → ∀ F, c1.FullPath = some F → F.elements = Q →
        c1 = c) →
      (∀ c1 ∈ cs, (c1.State = .DeletedState ∨ c1.State = .MovedState) → ∀ p,
        c1.PreviousPath = some p → p.elements = P → c1 = c) →
      (∀ q, baseDirAt roots1 q = baseDirAt roots q)
        ∧ (collectionAt roots1 Q = some c ∨ (collectionAt roots1 Q = collectionAt roots Q
            ∧ ∀ c1 ∈ cs, c1.State ≠ .DeletedState → ∀ F, c1.FullPath = some F →
              F.elements ≠ Q))
        ∧ (mapGet up1 P = some c.FullPath
            ∨ (mapGet up1 P = mapGet up P
              ∧ ∀ c1 ∈ cs, (c1.State = .DeletedState ∨ c1.State = .MovedState) → ∀ p,
                c1.PreviousPath = some p → p.elements ≠ P)) := by
  intro cs
  induction cs with
  | nil =>
    intro roots roots1 up up1 h _ _
    simp only [inflateCollectionLoop, Except.ok.injEq, Prod.mk.injEq] at h
    obtain ⟨rfl, rfl⟩ := h
    exact ⟨fun _ => rfl, Or.inr ⟨rfl, fun c1 hc1 => absurd hc1 (List.not_mem_nil c1)⟩,
      Or.inr ⟨rfl, fun c1 hc1 => absurd hc1 (List.not_mem_nil c1)⟩⟩
  | cons s rest ih =>
    intro roots roots1 up up1 h hfull hprev
    have hfull1 : ∀ c1 ∈ rest, c1.State ≠ .DeletedState → ∀ F, c1.FullPath = some F →
        F.elements = Q → c1 = c := fun c1 hc1 => hfull c1 (List.mem_cons_of_mem _ hc1)
    have hprev1 : ∀ c1 ∈ rest, (c1.State = .DeletedState ∨ c1.State = .MovedState) → ∀ p,
        c1.PreviousPath = some p → p.elements = P → c1 = c :=
      fun c1 hc1 => hprev c1 (List.mem_cons_of_mem _ hc1)
    rcases inflateCollectionLoop_cons s rest roots roots1 up up1 h with
      ⟨hst, prev, hpr, hrec⟩ | ⟨hst, up2, fullPath, roots2, hreg, hfp, _, hget, hrec⟩
    · obtain ⟨b, cc, u⟩ := ih _ _ _ _ hrec hfull1 hprev1
      refine ⟨b, ?_, ?_⟩
      · rcases cc with h1 | ⟨h1, h2⟩
        · exact Or.inl h1
        · refine Or.inr ⟨h1, ?_⟩
          intro c1 hc1
          rcases List.mem_cons.mp hc1 with rfl | hc1
          · exact fun hn => absurd hst hn
          · exact h2 c1 hc1
      · rcases u with h1 | ⟨h1, h2⟩
        · exact Or.inl h1
        · rw [mapGet_mapSet] at h1
          by_cases hp : prev.elements = P
          · have hsc : s = c := hprev s (List.mem_cons_self _ _) (Or.inl hst) prev hpr hp
            rw [hsc, hcm] at hst
            cases hst
          · simp only [hp, if_false] at h1
            refine Or.inr ⟨h1, ?_⟩
            intro c1 hc1
            rcases List.mem_cons.mp hc1 with rfl | hc1
            · intro _ p hp1 hp2
              rw [hpr] at hp1
              cases hp1
              exact hp hp2
            · exact h2 c1 hc1
    · obtain ⟨b, cc, u⟩ := ih _ _ _ _ hrec hfull1 hprev1
      refine ⟨?_, ?_, ?_⟩
      · intro q
        rw [b q, baseDirAt_getTreeNode roots roots2 s _ q hget]
      · rcases cc with h1 | ⟨h1, h2⟩
        · exact Or.inl h1
        · rw [collectionAt_getTreeNode roots roots2 s _ Q hget] at h1
          by_cases hq : Q = fullPath.elements
          · have hsc : s = c := hfull s (List.mem_cons_self _ _) hst fullPath hfp hq.symm
            rw [if_pos hq, hsc] at h1
            exact Or.inl h1
          · rw [if_neg hq] at h1
            refine Or.inr ⟨h1, ?_⟩
            intro c1 hc1
            rcases List.mem_cons.mp hc1 with rfl | hc1
            · intro _ F hF hFQ
              rw [hfp] at hF
              cases hF
              exact hq hFQ.symm
            · exact h2 c1 hc1
      · rcases u with h1 | ⟨h1, h2⟩
        · exact Or.inl h1
        · rcases registerMove_cases s up up2 hreg with ⟨hm, prev, hpr, rfl⟩ | ⟨hnm, rfl⟩
          · rw [mapGet_mapSet] at h1
            by_cases hp : prev.elements = P
            · have hsc : s = c := hprev s (List.mem_cons_self _ _) (Or.inr hm) prev hpr hp
              rw [if_pos hp, hsc] at h1
              exact Or.inl h1
            · rw [if_neg hp] at h1
              refine Or.inr ⟨h1, ?_⟩
              intro c1 hc1
              rcases List.mem_cons.mp hc1 with rfl | hc1
              · intro _ p hp1 hp2
                rw [hpr] at hp1
                cases hp1
                exact hp hp2
              · exact h2 c1 hc1
          · refine Or.inr ⟨h1, ?_⟩
            intro c1 hc1
            rcases List.mem_cons.mp hc1 with rfl | hc1
            · intro hs
              rcases hs with hs | hs
              · exact absurd hs hst
              · exact absurd hs hnm
            · exact h2 c1 hc1

/-! ## The new path as a function of the old path -/

theorem resolvePath_append (up : GoMap (List String) (Option Path)) :
    ∀ (r1 r2 old : List String) (new : Option (List String)),
      resolvePath up old new (r1 ++ r2)
        = resolvePath up (old ++ r1) (resolvePath up old new r1) r2 := by
  intro r1
  induction r1 with
  | nil => intro r2 old new; simp [resolvePath]
  | cons n rest ih =>
    intro r2 old new
    show resolvePath up (old ++ [n]) (newPathRule up old new n) (rest ++ r2) = _
    rw [ih]
    simp [resolvePath]

/-- Below a directory, as long as no old path is a key of `updatedPaths`, the
new path is the directory's new path extended by the same names. -/
theorem resolvePath_no_keys (up : GoMap (List String) (Option Path)) :
    ∀ (r old : List String) (new : Option (List String)),
      (∀ r1, r1 ≠ [] → r1 <+: r → mapGet up (old ++ r1) = none) →
      resolvePath up old new r = new.map (fun p => p ++ r) := by
  intro r
  induction r with
  | nil => intro old new _; cases new <;> simp [resolvePath]
  | cons n rest ih =>
    intro old new h
    have h1 : mapGet up (old ++ [n]) = none :=
      h [n] (by simp) ((List.prefix_cons_inj n).mpr List.nil_prefix)
    simp only [resolvePath, newPathRule, h1]
    rw [ih]
    · cases new <;> simp
    · intro r1 hr1 hp
      have := h (n :: r1) (by simp) ((List.prefix_cons_inj n).mpr hp)
      simpa using this

/-- A directory whose old path is a key of `updatedPaths` has the registered
new path. -/
theorem resolvePath_key (up : GoMap (List String) (Option Path)) (old r : List String)
    (new : Option (List String)) (hr : r ≠ []) (upb : Option Path)
    (h : mapGet up (old ++ r) = some upb) :
    resolvePath up old new r = upb.map Path.elements := by
  obtain ⟨r1, n, rfl⟩ : ∃ r1 n, r = r1 ++ [n] :=
    ⟨r.dropLast, r.getLast hr, (List.dropLast_append_getLast hr).symm⟩
  rw [resolvePath_append]
  simp only [resolvePath, newPathRule, List.append_assoc]
  rw [h]

mutual
/-- The old path of a placement extends the old path of the traversal's start
by at least one name, and its new path is the resolved one. -/
theorem placements_resolve (env : Env) (up : GoMap (List String) (Option Path)) :
    ∀ (dir : Entry) (old : List String) (new : Option (List String)) (pl : Placement),
      pl ∈ placements env up old new dir →
      ∃ rel, rel ≠ [] ∧ pl.oldPath = old ++ rel ∧ pl.newPath = resolvePath up old new rel
  | .file _, old, new, pl => by
    intro h
    simp [placements] at h
  | .dir name entries, old, new, pl => by
    intro h
    unfold placements at h
    split at h
    · simp at h
    · rename_i dirName hdec
      rcases List.mem_append.mp h with h1 | h1
      · obtain ⟨rel, h2, h3, h4⟩ := placementsList_resolve env up entries _ _ pl h1
        exact ⟨dirName :: rel, by simp, by simp [h3], by simp [h4, resolvePath]⟩
      · simp only [List.mem_singleton] at h1
        subst h1
        exact ⟨[dirName], by simp, rfl, by simp [resolvePath]⟩
/-- The same for the directories among a list of entries. -/
theorem placementsList_resolve (env : Env) (up : GoMap (List String) (Option Path)) :
    ∀ (entries : List Entry) (old : List String) (new : Option (List String)) (pl : Placement),
      pl ∈ placementsList env up old new entries →
      ∃ rel, rel ≠ [] ∧ pl.oldPath = old ++ rel ∧ pl.newPath = resolvePath up old new rel
  | [], old, new, pl => by
    intro h
    simp [placementsList] at h
  | e :: rest, old, new, pl => by
    intro h
    unfold placementsList at h
    rcases List.mem_append.mp h with h1 | h1
    · exact placements_resolve env up e old new pl h1
    · exact placementsList_resolve env up rest old new pl h1
end

/-- Every placement of the base snapshots comes from the traversal of a
subtree root, started at the parent of a subtree path. -/
theorem allPlacements_resolve (env : Env) (loader : String → Except Err Entry)
    (up : GoMap (List String) (Option Path)) (bases : List IncrementalBase) :
    ∀ pl ∈ allPlacements env loader up bases,
      ∃ snap ∈ bases, ∃ S ∈ snap.SubtreePaths, ∃ rel, rel ≠ []
        ∧ pl.oldPath = builderDir S ++ rel
        ∧ pl.newPath = resolvePath up (builderDir S) (some (builderDir S)) rel := by
  induction bases with
  | nil =>
    intro pl h
    simp [allPlacements] at h
  | cons snap rest ih =>
    intro pl h
    unfold allPlacements at h
    rcases List.mem_append.mp h with h1 | h1
    · refine ⟨snap, List.mem_cons_self _ _, ?_⟩
      unfold basePlacements at h1
      split at h1
      · simp at h1
      · split at h1
        · simp at h1
        · rename_i root _
          split at h1
          · simp at h1
          · generalize snap.SubtreePaths = subtrees at h1
            induction subtrees with
            | nil => simp [subtreePlacements] at h1
            | cons S more ih2 =>
              unfold subtreePlacements at h1
              split at h1
              · simp at h1
              · rename_i ent _
                split at h1
                · simp at h1
                · rcases List.mem_append.mp h1 with h2 | h2
                  · exact ⟨S, List.mem_cons_self _ _, placements_resolve env up ent _ _ pl h2⟩
                  · obtain ⟨S1, hS1, h3⟩ := ih2 h2
                    exact ⟨S1, List.mem_cons_of_mem _ hS1, h3⟩
    · obtain ⟨snap1, hs1, h2⟩ := ih pl h1
      exact ⟨snap1, List.mem_cons_of_mem _ hs1, h2⟩

/-- Below a moved directory with old path `P`, as long as no further old path
is a key of `updatedPaths`, every directory is placed under the registered new
path with the same relative path. -/
theorem allPlacements_below_moved (env : Env) (loader : String → Except Err Entry)
    (up : GoMap (List String) (Option Path)) (bases : List IncrementalBase)
    (P : List String) (Qp : Path) (hup : mapGet up P = some (some Qp))
    (pl : Placement) (hpl : pl ∈ allPlacements env loader up bases) (rel : List String)
    (hold : pl.oldPath = P ++ rel)
    (hsub : rel = [] ∨ ∀ snap ∈ bases, ∀ S ∈ snap.SubtreePaths, ¬ P <+: builderDir S)
    (hkeys : ∀ r1, r1 ≠ [] → r1 <+: rel → mapGet up (P ++ r1) = none) :
    pl.newPath = some (Qp.elements ++ rel) := by
  obtain ⟨snap, hsnap, S, hS, rel1, hrel1, ho, hn⟩ :=
    allPlacements_resolve env loader up bases pl hpl
  rw [hold] at ho
  have hcmp : builderDir S <+: P ∧ ¬ P <+: builderDir S := by
    rcases hsub with h1 | h1
    · subst h1
      rw [List.append_nil] at ho
      refine ⟨⟨rel1, ho.symm⟩, ?_⟩
      rintro ⟨t, ht⟩
      rw [← ht, List.append_assoc] at ho
      have h3 : t ++ rel1 = [] := by simpa using ho
      exact hrel1 (List.append_eq_nil.mp h3).2
    · have hn1 := h1 snap hsnap S hS
      have p1 : P <+: P ++ rel := List.prefix_append _ _
      have p2 : builderDir S <+: P ++ rel := ⟨rel1, ho.symm⟩
      rcases List.prefix_or_prefix_of_prefix p1 p2 with h2 | h2
      · exact absurd h2 hn1
      · exact ⟨h2, hn1⟩
  obtain ⟨⟨relP, hP⟩, hne⟩ := hcmp
  have hrelP : relP ≠ [] := by
    intro h
    subst h
    rw [List.append_nil] at hP
    exact hne (hP ▸ List.prefix_refl _)
  subst hP
  rw [List.append_assoc] at ho
  have hrel : rel1 = relP ++ rel := (List.append_cancel_left ho).symm
  rw [hn, hrel, resolvePath_append, resolvePath_key up _ relP _ hrelP _ hup,
    resolvePath_no_keys up rel _ _ hkeys]
  rfl

/-! ## Enumeration with a callback that accepts every entry -/

theorem staticEntries_accept (cb : Callback) (hcb : ∀ hist e, cb hist e = none) :
    ∀ (statics : List KopiaDir) (st : EnumState),
      staticEntries cb statics st
        = (none, { st with calls := st.calls ++ statics.map CbEntry.static }) := by
  intro statics
  induction statics with
  | nil => intro st; simp [staticEntries]
  | cons d rest ih =>
    intro st
    simp only [staticEntries, invoke, hcb, ih]
    simp

theorem streamBaseLoop_accept (env : Env) (cb : Callback) (hcb : ∀ hist e, cb hist e = none)
    (seen : GoMap String Unit) :
    ∀ (entries : List Entry) (st : EnumState), st.ctx = none →
      streamBaseLoop env cb seen entries st
        = (none, { st with calls := st.calls ++ survivingEntries seen entries }) := by
  intro entries
  unfold survivingEntries
  induction entries with
  | nil => intro st _; simp [streamBaseLoop]
  | cons e rest ih =>
    intro st hctx
    obtain ⟨calls, progress, ctx⟩ := st
    simp only at hctx
    subst hctx
    simp only [streamBaseLoop, ctxPoll]
    by_cases hd : e.isDir = true
    · simp only [hd, if_true]
      rw [ih _ rfl]
      simp [hd]
    · simp only [hd, Bool.false_eq_true, if_false]
      by_cases hs : (mapGet seen e.Name).isSome = true
      · simp only [hs, if_true]
        rw [ih _ rfl]
        have : (mapGet seen e.Name).isNone = false := by
          cases hm : mapGet seen e.Name <;> simp [hm] at hs ⊢
        simp [this]
      · simp only [hs, Bool.false_eq_true, if_false, invoke, hcb]
        rw [ih _ rfl]
        have : (mapGet seen e.Name).isNone = true := by
          cases hm : mapGet seen e.Name <;> simp [hm] at hs ⊢
        simp [this, hd]

/-! ## Directories of the materialised tree -/

theorem mapGet_mem {κ ν : Type} [DecidableEq κ] (m : GoMap κ ν) (k : κ) (v : ν)
    (h : mapGet m k = some v) : (k, v) ∈ m := by
  induction m with
  | nil => simp [mapGet] at h
  | cons kv m ih =>
    obtain ⟨k1, v1⟩ := kv
    by_cases hk : k1 = k
    · subst hk
      simp only [mapGet, if_true, Option.some.injEq] at h
      subst h
      exact List.mem_cons_self _ _
    · simp only [mapGet, hk, if_false] at h
      exact List.mem_cons_of_mem _ (ih h)

theorem forall₂_mem_left {α β : Type} {R : α → β → Prop} {l1 : List α} {l2 : List β}
    (h : List.Forall₂ R l1 l2) (x : α) (hx : x ∈ l1) : ∃ y ∈ l2, R x y := by
  induction h with
  | nil => cases hx
  | cons hr _ ih =>
    rcases List.mem_cons.mp hx with rfl | hx
    · exact ⟨_, List.mem_cons_self _ _, hr⟩
    · obtain ⟨y, hy, hxy⟩ := ih hx
      exact ⟨y, List.mem_cons_of_mem _ hy, hxy⟩

/-- A node with a collection or a child is materialised as a streaming
directory. -/
theorem buildKopiaDirs_streaming (env : Env) (dirName : String) (dir : treeMap)
    (h : dir.collection ≠ none ∨ dir.childDirs ≠ []) :
    ∃ childEnts,
      buildKopiaDirs env dirName dir
          = .ok (.streaming (env.encodeAsPath [dirName]) childEnts dir.collection dir.baseDir)
        ∧ List.Forall₂ (fun kv k => buildKopiaDirs env kv.1 kv.2 = .ok k)
            dir.childDirs childEnts := by
  obtain ⟨childDirs, collection, baseDir⟩ := dir
  obtain ⟨ks, hks, hall⟩ := buildChildDirs_total env childDirs
  refine ⟨ks, ?_, hall⟩
  simp only [treeMap.collection, treeMap.childDirs, treeMap.baseDir] at h ⊢
  unfold buildKopiaDirs
  split
  · rcases h with h | h <;> exact absurd rfl h
  · rw [hks]

/-- The directory built for a node with a collection is found in the
materialised tree by following the encoded names of the node's path. -/
theorem buildKopiaDirs_subdirsAt (env : Env) :
    ∀ (qs : List String) (t : treeMap) (name : String) (K : KopiaDir) (node : treeMap),
      buildKopiaDirs env name t = .ok K → treeMap.find qs t = some node →
      node.collection ≠ none →
      ∃ k, buildKopiaDirs env (qs.getLastD name) node = .ok k ∧ k ∈ subdirsAt env qs K := by
  intro qs
  induction qs with
  | nil =>
    intro t name K node hK hfind _
    simp only [treeMap.find, Option.some.injEq] at hfind
    subst hfind
    exact ⟨K, hK, by simp [subdirsAt]⟩
  | cons a rest ih =>
    intro t name K node hK hfind hcoll
    simp only [treeMap.find] at hfind
    split at hfind
    · cases hfind
    · rename_i child hchild
      have hmem := mapGet_mem _ _ _ hchild
      have hne : t.childDirs ≠ [] := fun h => by rw [h] at hmem; cases hmem
      obtain ⟨statics, hbuild, hall⟩ := buildKopiaDirs_streaming env name t (Or.inr hne)
      rw [hbuild] at hK
      cases hK
      obtain ⟨Kc, hKc, hKc2⟩ := forall₂_mem_left hall _ hmem
      simp only at hKc2
      have hchildStream : child.collection ≠ none ∨ child.childDirs ≠ [] := by
        cases rest with
        | nil =>
          simp only [treeMap.find, Option.some.injEq] at hfind
          subst hfind
          exact Or.inl hcoll
        | cons b more =>
          right
          simp only [treeMap.find] at hfind
          split at hfind
          · cases hfind
          · rename_i gc hgc
            intro h
            rw [h] at hgc
            simp [mapGet] at hgc
      obtain ⟨cstatics, hcb, _⟩ := buildKopiaDirs_streaming env a child hchildStream
      obtain ⟨k, hk, hkin⟩ := ih child a Kc node hKc2 hfind hcoll
      have hlast : (a :: rest).getLastD name = rest.getLastD a := by
        cases rest <;> rfl
      refine ⟨k, by rw [hlast]; exact hk, ?_⟩
      simp only [subdirsAt, KopiaDir.childDirs, List.mem_flatten, List.mem_map,
        List.mem_filter, decide_eq_true_eq]
      refine ⟨subdirsAt env rest Kc, ⟨Kc, ⟨hKc, ?_⟩, rfl⟩, hkin⟩
      rw [hcb] at hKc2
      cases hKc2
      rfl

theorem getStreamItemFunc_accept (env : Env) (statics : List KopiaDir) (c : Collection)
    (hitems : c.Items = []) (D : Entry) (cb : Callback) (hcb : ∀ hist e, cb hist e = none)
    (st : EnumState) (hctx : st.ctx = none) :
    getStreamItemFunc env statics (some c) (some D) cb st
      = ([], { st with calls := st.calls ++ statics.map CbEntry.static
                ++ survivingEntries [] D.entries }) := by
  obtain ⟨calls, progress, ctx⟩ := st
  simp only at hctx
  subst hctx
  simp only [getStreamItemFunc, staticEntries_accept cb hcb, collectionEntries, hitems,
    collectionItems, ctxPoll, streamBaseEntries]
  rw [streamBaseLoop_accept env cb hcb [] D.entries _ rfl]

theorem roots_singleton (roots : GoMap String treeMap) (r0 : String) (t0 : treeMap)
    (hlen : roots.length ≤ 1) (h : mapGet roots r0 = some t0) : roots = [(r0, t0)] := by
  match roots, hlen, h with
  | [(k, v)], _, h =>
    by_cases hk : k = r0
    · simp only [mapGet, hk, if_true, Option.some.injEq] at h
      rw [hk, h]
    · simp [mapGet, hk] at h

/-! ## Base traversal: claims -/

/-- C7. New path of every base directory: a successful `traverseBaseDir`
performs exactly the `baseDir` assignments of the placements of the subtree,
where every directory `d` has as old path its parent's old path with its
decoded name appended and as new path the one of `newPathRule`:
`updatedPaths[old(d)]` when `old(d)` is a key (nil meaning deleted), otherwise
nil under a parent whose new path is nil, otherwise the parent's new path with
the name appended. In particular a directory whose old path is a key is placed
at the registered path whatever happened to its ancestors. -/
theorem traverseBaseDir_new_path_rule (env : Env) (up : GoMap (List String) (Option Path))
    (dir : Entry) (depth : Nat) (old : List String) (new : Option (List String))
    (roots roots1 : GoMap String treeMap)
    (h : traverseBaseDir env up depth old new dir roots = .ok roots1) :
    roots1 = applyPlacements (placements env up old new dir) roots
      ∧ (∀ name entries dirName, env.decodeElement name = .ok dirName →
          ∀ oldParent newParent,
            placements env up oldParent newParent (.dir name entries)
              = placementsList env up (oldParent ++ [dirName])
                    (newPathRule up oldParent newParent dirName) entries
                  ++ [⟨oldParent ++ [dirName], newPathRule up oldParent newParent dirName,
                      .dir name entries⟩])
      ∧ (∀ oldParent newParent dirName,
          newPathRule up oldParent newParent dirName
            = match mapGet up (oldParent ++ [dirName]), newParent with
              | some upb, _ => upb.map Path.elements
              | none, none => none
              | none, some p => some (p ++ [dirName]))
      ∧ (∀ pl ∈ placements env up old new dir, ∀ upb, mapGet up pl.oldPath = some upb →
          pl.newPath = upb.map Path.elements) := by
  refine ⟨traverseBaseDir_eq_apply env up dir depth old new roots roots1 h, ?_, ?_, ?_⟩
  · intro name entries dirName hdec oldParent newParent
    simp [placements, hdec]
  · intro oldParent newParent dirName
    unfold newPathRule
    cases mapGet up (oldParent ++ [dirName]) <;> cases newParent <;> rfl
  · exact fun pl hpl => placements_updated env up dir old new pl hpl

/-- Instance of C7: folder `A` is deleted and its subfolder `x` is moved to
`B`; `x` lands exactly at `B`. -/
theorem traverseBaseDir_new_path_rule_witness :
    ([("tenant", .mk [("exchange", .mk [("alice", .mk [("mail", .mk
          [("B", .mk [] none (some (.dir "x" [.file "f"])))] none none)] none none)] none none)]
          none none)] : GoMap String treeMap)
      = applyPlacements
          (placements plainEnv
            [(samplePrefix ++ ["A"], none),
              (samplePrefix ++ ["A", "x"], some ⟨samplePrefix ++ ["B"], false⟩)]
            ["tenant", "exchange", "alice"] (some ["tenant", "exchange", "alice"])
            nestedFolder) [] :=
  (traverseBaseDir_new_path_rule plainEnv
    [(samplePrefix ++ ["A"], none),
      (samplePrefix ++ ["A", "x"], some ⟨samplePrefix ++ ["B"], false⟩)]
    nestedFolder 0 ["tenant", "exchange", "alice"] (some ["tenant", "exchange", "alice"]) []
    _ rfl).1

/-- C8, refuted as stated: `Archive` was moved to the path of the existing
folder `Inbox`. The traversal succeeds, the directory `Archive` has the new
path `mail/Inbox` and holds the file `y`, yet after the traversal the node at
`mail/Inbox` does not have `Archive` as its `baseDir`: it holds `Inbox`, which
was assigned later. -/
theorem baseDir_overwritten_by_later_directory :
    ∃ roots1,
      traverseBaseDir plainEnv
          [(samplePrefix ++ ["Archive"], some ⟨samplePrefix ++ ["Inbox"], false⟩)]
          0 ["tenant", "exchange", "alice"] (some ["tenant", "exchange", "alice"])
          archiveInbox [] = .ok roots1
        ∧ (⟨samplePrefix ++ ["Archive"], some (samplePrefix ++ ["Inbox"]),
              .dir "Archive" [.file "y"]⟩ : Placement)
            ∈ placements plainEnv
                [(samplePrefix ++ ["Archive"], some ⟨samplePrefix ++ ["Inbox"], false⟩)]
                ["tenant", "exchange", "alice"] (some ["tenant", "exchange", "alice"])
                archiveInbox
        ∧ (Entry.dir "Archive" [.file "y"]).hasItems = true
        ∧ baseDirAt roots1 (samplePrefix ++ ["Inbox"]) = some (.dir "Inbox" [.file "x"])
        ∧ baseDirAt roots1 (samplePrefix ++ ["Inbox"]) ≠ some (.dir "Archive" [.file "y"]) :=
  ⟨_, rfl, by decide, rfl, rfl, by decide⟩

/-- C8, amended: after a successful `traverseBaseDir` the node at a path `q`
holds as `baseDir` the directory assigned to `q` last, among the directories
of the subtree whose new path is `q` and that directly contain a non-directory
entry (children are assigned before their parent, siblings in iteration
order), and keeps its previous `baseDir` when there is none. Hence a directory
with a new path and a non-directory entry is the `baseDir` of the node at its
new path when no other assigned directory shares that path, and a `baseDir`
that was not there before always is such a directory: one holding only
subdirectories, or with a nil new path, is never assigned. -/
theorem baseDir_after_traversal (env : Env) (up : GoMap (List String) (Option Path))
    (dir : Entry) (depth : Nat) (old : List String) (new : Option (List String))
    (roots roots1 : GoMap String treeMap)
    (h : traverseBaseDir env up depth old new dir roots = .ok roots1)
    (q : List String) (hq : q ≠ []) :
    baseDirAt roots1 q
        = (lastPlaced (placements env up old new dir) q).or (baseDirAt roots q)
      ∧ (∀ pl ∈ placements env up old new dir, pl.dir.hasItems = true → pl.newPath = some q →
          (∀ pl1 ∈ placements env up old new dir, pl1.dir.hasItems = true →
            pl1.newPath = some q → pl1.dir = pl.dir) →
          baseDirAt roots1 q = some pl.dir)
      ∧ (∀ d, baseDirAt roots1 q = some d → baseDirAt roots q = some d ∨
          ∃ pl ∈ placements env up old new dir,
            pl.dir = d ∧ pl.dir.hasItems = true ∧ pl.newPath = some q) := by
  have hr := traverseBaseDir_eq_apply env up dir depth old new roots roots1 h
  have hb := baseDirAt_applyPlacements q hq (placements env up old new dir) roots
  rw [← hr] at hb
  refine ⟨hb, ?_, ?_⟩
  · intro pl hmem hi hn huniq
    rw [hb, lastPlaced_of_unique _ q pl hmem hi hn huniq]
    rfl
  · intro d hd
    rw [hb] at hd
    cases hl : lastPlaced (placements env up old new dir) q with
    | none =>
      rw [hl] at hd
      exact Or.inl hd
    | some d1 =>
      rw [hl] at hd
      cases hd
      exact Or.inr (lastPlaced_eq_some _ q d hl)

/-- Instance of the amended C8 on the folders `Archive` and `Inbox` with
`Archive` moved onto `Inbox`: the node at `mail/Inbox` holds the directory
assigned last. -/
theorem baseDir_after_traversal_witness :
    baseDirAt
        [("tenant", .mk [("exchange", .mk [("alice", .mk [("mail", .mk
          [("Inbox", .mk [] none (some (.dir "Inbox" [.file "x"])))] none none)] none none)]
          none none)] none none)]
        (samplePrefix ++ ["Inbox"])
      = (lastPlaced
          (placements plainEnv
            [(samplePrefix ++ ["Archive"], some ⟨samplePrefix ++ ["Inbox"], false⟩)]
            ["tenant", "exchange", "alice"] (some ["tenant", "exchange", "alice"])
            archiveInbox)
          (samplePrefix ++ ["Inbox"])).or (baseDirAt [] (samplePrefix ++ ["Inbox"])) :=
  (baseDir_after_traversal plainEnv
    [(samplePrefix ++ ["Archive"], some ⟨samplePrefix ++ ["Inbox"], false⟩)]
    archiveInbox 0 ["tenant", "exchange", "alice"] (some ["tenant", "exchange", "alice"]) []
    _ rfl (samplePrefix ++ ["Inbox"]) (by decide)).1

/-! ## Tree merge: deletions and moves -/

/-- C5, refuted as stated: folder `B/x` is deleted and folder `A`, which has a
subfolder `x` holding file `f`, is moved to `B`. No collection has a full path
at or below `B/x`, yet the tree returned by `inflateDirTree` has a directory at
`B/x`: the former `A/x` with its file `f`. -/
theorem directory_moved_onto_deleted_path :
    (¬ (samplePrefix ++ ["B", "x"]) <+: (samplePrefix ++ ["B"]))
      ∧ ∃ root,
        inflateDirTree plainEnv (fun _ => .ok (snapshotOf nestedFolder)) [sampleBase]
            [⟨none, some ⟨samplePrefix ++ ["B", "x"], false⟩, .DeletedState, []⟩,
              ⟨some ⟨samplePrefix ++ ["B"], false⟩, some ⟨samplePrefix ++ ["A"], false⟩,
                .MovedState, []⟩]
          = .ok (some root)
        ∧ subdirsAt plainEnv ["exchange", "alice", "mail", "B", "x"] root
          = [.base (.dir "x" [.file "f"])] :=
  ⟨by decide, _, rfl, rfl⟩

/-- The reuse of a base directory carries a deleted subfolder along: folder
`Inbox` holds file `x` and subfolder `Old` with file `y`, and `Inbox/Old` is
deleted. The node of `Inbox` has no collection and no child, so its base
directory is returned as it is, with `Old` and `y` inside, although the
comment of `buildKopiaDirs` allows the reuse only "if the subtree rooted at
them is unchanged". No collection that is not deleted lies at or below the
parent of `Inbox/Old` here. -/
theorem reused_directory_keeps_deleted_subfolder :
    ∃ root,
      inflateDirTree plainEnv
          (fun _ => .ok (snapshotOf
            (.dir "mail" [.dir "Inbox" [.dir "Old" [.file "y"], .file "x"]])))
          [sampleBase]
          [⟨none, some ⟨samplePrefix ++ ["Inbox", "Old"], false⟩, .DeletedState, []⟩]
        = .ok (some root)
      ∧ subdirsAt plainEnv ["exchange", "alice", "mail", "Inbox", "Old"] root
        = [.base (.dir "Old" [.file "y"])] :=
  ⟨_, rfl, rfl⟩

/-- A successful `inflateDirTree` built its result from the merge tree of
`inflateRoots`, which has at most one root. -/
theorem inflateDirTree_roots (env : Env) (loader : String → Except Err Entry)
    (bases : List IncrementalBase) (cs : List Collection) (res : Option KopiaDir)
    (h : inflateDirTree env loader bases cs = .ok res) :
    ∃ roots, inflateRoots env loader bases cs = .ok roots ∧ roots.length ≤ 1
      ∧ (roots = [] → res = none)
      ∧ ∀ dirName dir, roots = [(dirName, dir)] →
          ∃ k, buildKopiaDirs env dirName dir = .ok k ∧ res = some k := by
  unfold inflateDirTree at h
  split at h
  · cases h
  · rename_i roots hroots
    refine ⟨roots, hroots, ?_, ?_, ?_⟩
    · by_contra hl
      simp only [Nat.not_le] at hl
      simp [hl] at h
    · intro he
      subst he
      simpa using h.symm
    · intro dirName dir he
      subst he
      simp only [List.length_singleton, gt_iff_lt, Nat.lt_irrefl, if_false] at h
      split at h
      · cases h
      · rename_i k hk
        cases h
        exact ⟨k, hk, rfl⟩

/-! ## Distinct keys -/

theorem mapSet_keys_mem {κ ν : Type} [DecidableEq κ] (m : GoMap κ ν) (k x : κ) (v : ν) :
    x ∈ (mapSet m k v).map Prod.fst ↔ x = k ∨ x ∈ m.map Prod.fst := by
  induction m with
  | nil => simp [mapSet]
  | cons kv m ih =>
    obtain ⟨k1, v1⟩ := kv
    by_cases hk : k1 = k
    · subst hk
      simp [mapSet]
    · simp only [mapSet, hk, if_false, List.map_cons, List.mem_cons, ih]
      tauto

theorem mapSet_keys_nodup {κ ν : Type} [DecidableEq κ] (m : GoMap κ ν) (k : κ) (v : ν)
    (h : (m.map Prod.fst).Nodup) : ((mapSet m k v).map Prod.fst).Nodup := by
  induction m with
  | nil => simp [mapSet]
  | cons kv m ih =>
    obtain ⟨k1, v1⟩ := kv
    simp only [List.map_cons, List.nodup_cons] at h
    by_cases hk : k1 = k
    · subst hk
      simpa [mapSet] using h
    · simp only [mapSet, hk, if_false, List.map_cons, List.nodup_cons, mapSet_keys_mem]
      refine ⟨?_, ih h.2⟩
      rintro (h1 | h1)
      · exact h1.elim
      · exact h.1 h1

theorem mapGet_of_mem {κ ν : Type} [DecidableEq κ] (m : GoMap κ ν) (k : κ) (v : ν)
    (hn : (m.map Prod.fst).Nodup) (h : (k, v) ∈ m) : mapGet m k = some v := by
  induction m with
  | nil => cases h
  | cons kv m ih =>
    obtain ⟨k1, v1⟩ := kv
    simp only [List.map_cons, List.nodup_cons] at hn
    rcases List.mem_cons.mp h with h1 | h1
    · cases h1
      simp [mapGet]
    · have hne : k1 ≠ k := by
        intro he
        subst he
        exact hn.1 (List.mem_map.mpr ⟨(k1, v), h1, rfl⟩)
      simp only [mapGet, hne, if_false]
      exact ih hn.2 h1

theorem distinctKeys_newTreeMap : newTreeMap.distinctKeys := by
  intro q node h
  cases q with
  | nil =>
    simp only [treeMap.find, Option.some.injEq] at h
    subst h
    simp [newTreeMap, treeMap.childDirs]
  | cons b qs => simp [treeMap.find, newTreeMap, treeMap.childDirs, mapGet] at h

theorem distinctKeys_child (t child : treeMap) (k : String) (h : t.distinctKeys)
    (hk : mapGet t.childDirs k = some child) : child.distinctKeys := by
  intro q node hq
  apply h (k :: q) node
  simp [treeMap.find, hk, hq]

/-- Walking a path and writing a field of the node reached keeps the keys
distinct. -/
theorem distinctKeys_walk (f : treeMap → treeMap) (hf : ∀ t, (f t).childDirs = t.childDirs) :
    ∀ (p : List String) (t : treeMap), t.distinctKeys → (treeMap.walk p f t).distinctKeys := by
  intro p
  induction p with
  | nil =>
    intro t ht q node h
    cases q with
    | nil =>
      simp only [treeMap.walk, treeMap.find, Option.some.injEq] at h
      subst h
      rw [hf]
      exact ht [] t rfl
    | cons b qs =>
      apply ht (b :: qs) node
      simpa [treeMap.walk, treeMap.find, hf] using h
  | cons a ps ih =>
    intro t ht q node h
    obtain ⟨cs, c, bd⟩ := t
    have hchild : ((mapGet cs a).getD newTreeMap).distinctKeys := by
      cases hg : mapGet cs a with
      | none => exact distinctKeys_newTreeMap
      | some child => exact distinctKeys_child _ child a ht hg
    cases q with
    | nil =>
      simp only [treeMap.walk, treeMap.find, Option.some.injEq] at h
      subst h
      simp only [treeMap.childDirs]
      exact mapSet_keys_nodup cs a _ (ht [] _ rfl)
    | cons b qs =>
      simp only [treeMap.find, treeMap.walk, treeMap.childDirs, mapGet_mapSet] at h
      by_cases hab : a = b
      · subst hab
        simp only [if_true] at h
        exact ih _ hchild qs node h
      · simp only [hab, if_false] at h
        apply ht (b :: qs) node
        simpa [treeMap.find, treeMap.childDirs] using h

theorem distinctKeys_getTreeNode (f : treeMap → treeMap)
    (hf : ∀ t, (f t).childDirs = t.childDirs) (roots roots1 : GoMap String treeMap)
    (p : List String) (h : getTreeNode roots p f = some roots1)
    (hd : (treeMap.mk roots none none).distinctKeys) :
    (treeMap.mk roots1 none none).distinctKeys := by
  cases p with
  | nil => simp [getTreeNode] at h
  | cons p0 ps =>
    rw [getTreeNode_eq_walk] at h
    cases h
    exact distinctKeys_walk f hf (p0 :: ps) _ hd

/-- The collection tree has distinct keys. -/
theorem distinctKeys_inflateCollectionLoop :
    ∀ (cs : List Collection) (roots roots1 : GoMap String treeMap)
      (up up1 : GoMap (List String) (Option Path)),
      inflateCollectionLoop cs roots up = .ok (roots1, up1) →
      (treeMap.mk roots none none).distinctKeys → (treeMap.mk roots1 none none).distinctKeys := by
  intro cs
  induction cs with
  | nil =>
    intro roots roots1 up up1 h hd
    simp only [inflateCollectionLoop, Except.ok.injEq, Prod.mk.injEq] at h
    obtain ⟨rfl, rfl⟩ := h
    exact hd
  | cons s rest ih =>
    intro roots roots1 up up1 h hd
    rcases inflateCollectionLoop_cons s rest roots roots1 up up1 h with
      ⟨_, prev, _, hrec⟩ | ⟨_, up2, fullPath, roots2, _, _, _, hget, hrec⟩
    · exact ih _ _ _ _ hrec hd
    · exact ih _ _ _ _ hrec
        (distinctKeys_getTreeNode _ (setCollection_childDirs s) _ _ _ hget hd)

/-- The assignments of placements keep the keys distinct. -/
theorem distinctKeys_applyPlacements (ps : List Placement) (roots : GoMap String treeMap)
    (hd : (treeMap.mk roots none none).distinctKeys) :
    (treeMap.mk (applyPlacements ps roots) none none).distinctKeys := by
  unfold applyPlacements
  generalize ps.filterMap Placement.assignment = as
  induction as generalizing roots with
  | nil => exact hd
  | cons a rest ih =>
    rw [List.foldl_cons]
    apply ih
    obtain ⟨p, d⟩ := a
    cases hg : getTreeNode roots p (treeMap.setBaseDir d) with
    | none => simpa [assignBaseDir, hg] using hd
    | some roots1 =>
      simp only [assignBaseDir, hg, Option.getD_some]
      exact distinctKeys_getTreeNode _ (setBaseDir_childDirs d) _ _ _ hg hd

theorem find_append (qs rs : List String) :
    ∀ t : treeMap, treeMap.find (qs ++ rs) t = (treeMap.find qs t).bind (treeMap.find rs) := by
  induction qs with
  | nil => intro t; simp [treeMap.find]
  | cons a qs ih =>
    intro t
    simp only [List.cons_append, treeMap.find]
    cases mapGet t.childDirs a with
    | none => rfl
    | some child => exact ih child

/-! ## Fields of the collection tree -/

/-- The loop of `inflateCollectionTree` leaves every `baseDir` as it was. -/
theorem inflateCollectionLoop_baseDir :
    ∀ (cs : List Collection) (roots roots1 : GoMap String treeMap)
      (up up1 : GoMap (List String) (Option Path)),
      inflateCollectionLoop cs roots up = .ok (roots1, up1) →
      ∀ q, baseDirAt roots1 q = baseDirAt roots q := by
  intro cs
  induction cs with
  | nil =>
    intro roots roots1 up up1 h q
    simp only [inflateCollectionLoop, Except.ok.injEq, Prod.mk.injEq] at h
    obtain ⟨rfl, rfl⟩ := h
    rfl
  | cons s rest ih =>
    intro roots roots1 up up1 h q
    rcases inflateCollectionLoop_cons s rest roots roots1 up up1 h with
      ⟨_, prev, _, hrec⟩ | ⟨_, up2, fullPath, roots2, _, _, _, hget, hrec⟩
    · exact ih _ _ _ _ hrec q
    · rw [ih _ _ _ _ hrec q]
      exact baseDirAt_getTreeNode roots roots2 s _ q hget

/-- After a successful loop of `inflateCollectionTree` the node at the full
path of every collection that is not deleted holds a collection, and so does
every node that held one before. -/
theorem inflateCollectionLoop_collection :
    ∀ (cs : List Collection) (roots roots1 : GoMap String treeMap)
      (up up1 : GoMap (List String) (Option Path)),
      inflateCollectionLoop cs roots up = .ok (roots1, up1) →
      (∀ q, collectionAt roots q ≠ none → collectionAt roots1 q ≠ none)
        ∧ ∀ c ∈ cs, c.State ≠ .DeletedState → ∀ F, c.FullPath = some F →
            collectionAt roots1 F.elements ≠ none := by
  intro cs
  induction cs with
  | nil =>
    intro roots roots1 up up1 h
    simp only [inflateCollectionLoop, Except.ok.injEq, Prod.mk.injEq] at h
    obtain ⟨rfl, rfl⟩ := h
    exact ⟨fun _ h => h, fun c hc => absurd hc (List.not_mem_nil c)⟩
  | cons s rest ih =>
    intro roots roots1 up up1 h
    rcases inflateCollectionLoop_cons s rest roots roots1 up up1 h with
      ⟨hst, prev, _, hrec⟩ | ⟨hst, up2, fullPath, roots2, _, hfull, _, hget, hrec⟩
    · obtain ⟨k1, k2⟩ := ih _ _ _ _ hrec
      refine ⟨k1, ?_⟩
      intro c hc hs F hF
      rcases List.mem_cons.mp hc with rfl | hc
      · exact absurd hst hs
      · exact k2 c hc hs F hF
    · obtain ⟨k1, k2⟩ := ih _ _ _ _ hrec
      have hstep : ∀ q, collectionAt roots q ≠ none ∨ q = fullPath.elements →
          collectionAt roots2 q ≠ none := by
        intro q hq
        rw [collectionAt_getTreeNode roots roots2 s _ q hget]
        by_cases hqp : q = fullPath.elements
        · simp [hqp]
        · simp only [hqp, if_false]
          rcases hq with h1 | h1
          · exact h1
          · exact absurd h1 hqp
      refine ⟨fun q hq => k1 q (hstep q (Or.inl hq)), ?_⟩
      intro c hc hs F hF
      rcases List.mem_cons.mp hc with rfl | hc
      · rw [hfull] at hF
        cases hF
        exact k1 _ (hstep _ (Or.inr rfl))
      · exact k2 c hc hs F hF

/-! ## Names of placed directories -/

mutual
/-- A placed directory is registered in `updatedPaths` under its old path, has
no new path, or has a new path that ends in its decoded name. -/
theorem placements_name (env : Env) (up : GoMap (List String) (Option Path)) :
    ∀ (dir : Entry) (old : List String) (new : Option (List String)) (pl : Placement),
      pl ∈ placements env up old new dir →
      mapGet up pl.oldPath ≠ none ∨ pl.newPath = none
        ∨ ∃ parent dirName, env.decodeElement pl.dir.Name = .ok dirName
            ∧ pl.newPath = some (parent ++ [dirName])
  | .file _, old, new, pl => by
    intro h
    simp [placements] at h
  | .dir name entries, old, new, pl => by
    intro h
    unfold placements at h
    split at h
    · simp at h
    · rename_i dirName hdec
      rcases List.mem_append.mp h with h1 | h1
      · exact placementsList_name env up entries _ _ pl h1
      · simp only [List.mem_singleton] at h1
        subst h1
        simp only [newPathRule]
        cases hg : mapGet up (old ++ [dirName]) with
        | some upb => exact Or.inl (by simp)
        | none =>
          cases new with
          | none => exact Or.inr (Or.inl rfl)
          | some p => exact Or.inr (Or.inr ⟨p, dirName, hdec, rfl⟩)
/-- The same for the directories among a list of entries. -/
theorem placementsList_name (env : Env) (up : GoMap (List String) (Option Path)) :
    ∀ (entries : List Entry) (old : List String) (new : Option (List String)) (pl : Placement),
      pl ∈ placementsList env up old new entries →
      mapGet up pl.oldPath ≠ none ∨ pl.newPath = none
        ∨ ∃ parent dirName, env.decodeElement pl.dir.Name = .ok dirName
            ∧ pl.newPath = some (parent ++ [dirName])
  | [], old, new, pl => by
    intro h
    simp [placementsList] at h
  | e :: rest, old, new, pl => by
    intro h
    unfold placementsList at h
    rcases List.mem_append.mp h with h1 | h1
    · exact placements_name env up e old new pl h1
    · exact placementsList_name env up rest old new pl h1
end

/-- Every placement of the base snapshots is registered in `updatedPaths`
under its old path and placed at the registered path, or has no new path, or
has a new path that ends in its decoded name. -/
theorem allPlacements_name (env : Env) (loader : String → Except Err Entry)
    (up : GoMap (List String) (Option Path)) (bases : List IncrementalBase) :
    ∀ pl ∈ allPlacements env loader up bases,
      (∃ upb, mapGet up pl.oldPath = some upb ∧ pl.newPath = upb.map Path.elements)
        ∨ pl.newPath = none
        ∨ ∃ parent dirName, env.decodeElement pl.dir.Name = .ok dirName
            ∧ pl.newPath = some (parent ++ [dirName]) := by
  induction bases with
  | nil =>
    intro pl h
    simp [allPlacements] at h
  | cons snap rest ih =>
    intro pl h
    unfold allPlacements at h
    rcases List.mem_append.mp h with h1 | h1
    · unfold basePlacements at h1
      split at h1
      · simp at h1
      · split at h1
        · simp at h1
        · rename_i root _
          split at h1
          · simp at h1
          · generalize snap.SubtreePaths = subtrees at h1
            induction subtrees with
            | nil => simp [subtreePlacements] at h1
            | cons S more ih2 =>
              unfold subtreePlacements at h1
              split at h1
              · simp at h1
              · rename_i ent _
                split at h1
                · simp at h1
                · rcases List.mem_append.mp h1 with h2 | h2
                  · rcases placements_name env up ent _ _ pl h2 with h3 | h3
                    · left
                      obtain ⟨upb, hupb⟩ := Option.ne_none_iff_exists'.mp h3
                      exact ⟨upb, hupb, placements_updated env up ent _ _ pl h2 upb hupb⟩
                    · exact Or.inr h3
                  · exact ih2 h2
    · exact ih pl h1

/-! ## Directories absent from the materialised tree -/

theorem forall₂_mem_right {α β : Type} {R : α → β → Prop} {l1 : List α} {l2 : List β}
    (h : List.Forall₂ R l1 l2) (y : β) (hy : y ∈ l2) : ∃ x ∈ l1, R x y := by
  induction h with
  | nil => cases hy
  | cons hr _ ih =>
    rcases List.mem_cons.mp hy with rfl | hy
    · exact ⟨_, List.mem_cons_self _ _, hr⟩
    · obtain ⟨x, hx, hxy⟩ := ih hy
      exact ⟨x, List.mem_cons_of_mem _ hx, hxy⟩

theorem subdirsAt_eq_nil (env : Env) (p : String) (ps : List String) (dir : KopiaDir)
    (h : ∀ child ∈ dir.childDirs, child.Name = env.encodeAsPath [p] →
      subdirsAt env ps child = []) :
    subdirsAt env (p :: ps) dir = [] := by
  simp only [subdirsAt, List.flatten_eq_nil_iff, List.mem_map, List.mem_filter,
    decide_eq_true_eq]
  rintro l ⟨child, ⟨hmem, hname⟩, rfl⟩
  exact h child hmem hname

theorem subdirsAt_cons_nil (env : Env) (p : String) (ps : List String) (dir : KopiaDir)
    (h : subdirsAt env (p :: ps) dir = []) :
    ∀ child ∈ dir.childDirs, child.Name = env.encodeAsPath [p] →
      subdirsAt env ps child = [] := by
  simp only [subdirsAt, List.flatten_eq_nil_iff, List.mem_map, List.mem_filter,
    decide_eq_true_eq] at h
  intro child hmem hname
  exact h _ ⟨child, ⟨hmem, hname⟩, rfl⟩

/-- Where there is no directory, there is none below. -/
theorem subdirsAt_below (env : Env) (more : List String) :
    ∀ (ps : List String) (dir : KopiaDir), subdirsAt env ps dir = [] →
      subdirsAt env (ps ++ more) dir = [] := by
  intro ps
  induction ps with
  | nil =>
    intro dir h
    simp [subdirsAt] at h
  | cons p ps ih =>
    intro dir h
    rw [List.cons_append]
    apply subdirsAt_eq_nil
    intro child hmem hname
    exact ih child (subdirsAt_cons_nil env p ps dir h child hmem hname)

/-- The two results of `buildKopiaDirs`: the base directory of a node without
collection and children, or a streaming directory named after the node. -/
theorem buildKopiaDirs_cases (env : Env) (dirName : String) (dir : treeMap) (K : KopiaDir)
    (h : buildKopiaDirs env dirName dir = .ok K) :
    (dir.collection = none ∧ dir.childDirs = []
        ∧ ∃ D, dir.baseDir = some D ∧ K = .base D)
      ∨ ∃ statics,
          K = .streaming (env.encodeAsPath [dirName]) statics dir.collection dir.baseDir
            ∧ List.Forall₂ (fun kv k => buildKopiaDirs env kv.1 kv.2 = .ok k)
                dir.childDirs statics := by
  obtain ⟨childDirs, collection, baseDir⟩ := dir
  obtain ⟨ks, hks, hall⟩ := buildChildDirs_total env childDirs
  unfold buildKopiaDirs at h
  split at h
  · rename_i b
    cases h
    exact Or.inl ⟨rfl, rfl, b, rfl, rfl⟩
  · rw [hks] at h
    cases h
    exact Or.inr ⟨ks, rfl, hall⟩

/-- The materialised tree has no directory at `ps` when the merge tree has no
node there, no node on the way to `ps` is replaced by its base directory, and
every base directory that replaces a node carries the name of that node. -/
theorem subdirsAt_absent (env : Env)
    (hcodec : ∀ d, env.decodeElement (env.encodeAsPath [d]) = .ok d) :
    ∀ (ps : List String) (t : treeMap) (name : String) (K : KopiaDir), ps ≠ [] →
      buildKopiaDirs env name t = .ok K → t.distinctKeys → treeMap.find ps t = none →
      (∀ qs, qs <+: ps → qs ≠ ps → ∀ n, treeMap.find qs t = some n →
        n.collection ≠ none ∨ n.childDirs ≠ []) →
      (∀ qs k n D, treeMap.find (qs ++ [k]) t = some n → n.collection = none →
        n.baseDir = some D → env.decodeElement D.Name = .ok k) →
      subdirsAt env ps K = [] := by
  intro ps
  induction ps with
  | nil => intro _ _ _ h; exact absurd rfl h
  | cons p rest ih =>
    intro t name K _ hK hd hnone hpre hname
    have hstream := hpre [] List.nil_prefix (by simp) t rfl
    rcases buildKopiaDirs_cases env name t K hK with ⟨h1, h2, _⟩ | ⟨statics, hKeq, hall⟩
    · rcases hstream with h3 | h3
      · exact absurd h1 h3
      · exact absurd h2 h3
    · subst hKeq
      apply subdirsAt_eq_nil
      intro Kc hmem hKname
      simp only [KopiaDir.childDirs] at hmem
      obtain ⟨⟨k, c⟩, hkc, hKc⟩ := forall₂_mem_right hall Kc hmem
      simp only at hKc
      have hget : mapGet t.childDirs k = some c := mapGet_of_mem _ k c (hd [] t rfl) hkc
      have hfind : ∀ qs, treeMap.find (k :: qs) t = treeMap.find qs c := by
        intro qs
        simp [treeMap.find, hget]
      have hkp : k = p := by
        rcases buildKopiaDirs_cases env k c Kc hKc with ⟨h1, _, D, hD, hKD⟩ | ⟨st, hKs, _⟩
        · subst hKD
          have hdec := hname [] k c D (by simpa [treeMap.find] using hfind []) h1 hD
          simp only [KopiaDir.Name] at hKname
          rw [hKname, hcodec] at hdec
          cases hdec
          rfl
        · subst hKs
          simp only [KopiaDir.Name] at hKname
          have h1 := hcodec k
          rw [hKname, hcodec] at h1
          cases h1
          rfl
      subst hkp
      cases rest with
      | nil =>
        rw [hfind []] at hnone
        simp [treeMap.find] at hnone
      | cons r more =>
        apply ih c k Kc (by simp) hKc (distinctKeys_child t c k hd hget)
        · rw [← hfind]
          exact hnone
        · intro qs hqs hne n hn
          refine hpre (k :: qs) ((List.prefix_cons_inj k).mpr hqs) ?_ n (by rw [hfind]; exact hn)
          intro he
          exact hne (List.cons.inj he).2
        · intro qs k1 n D hn
          exact hname (k :: qs) k1 n D (by rw [List.cons_append, hfind]; exact hn)

/-- C5, amended: let a collection that is deleted or moved have the previous
path `P`, a folder below the root; let no collection have a full path at or
below `P`, let no moved collection have a full path that is `P` or above it,
let `P` not be the parent of a subtree root of a base snapshot or above it,
and let some collection that is not deleted have its full path at or below the
parent of `P`, so that no directory above `P` is taken over from the base as
it is; decoding an encoded name gives the name back. Then a successful
`inflateDirTree` returns a directory tree, rooted at the first element of `P`,
that contains no directory at or below `P`, hence yields no file there; and
the merge tree it was built from has no node at or below `P`. -/
theorem no_directory_at_deleted_or_moved_path (env : Env)
    (loader : String → Except Err Entry) (bases : List IncrementalBase)
    (cs : List Collection) (res : Option KopiaDir)
    (P : List String) (c : Collection) (prev : Path) (hc : c ∈ cs)
    (hstate : c.State = .DeletedState ∨ c.State = .MovedState)
    (hprev : c.PreviousPath = some prev) (hP : prev.elements = P)
    (hfull : ∀ c1 ∈ cs, ∀ F, c1.FullPath = some F → ¬ P <+: F.elements)
    (hmoved : ∀ c1 ∈ cs, c1.State = .MovedState → ∀ F, c1.FullPath = some F →
      ¬ F.elements <+: P)
    (hsub : ∀ snap ∈ bases, ∀ S ∈ snap.SubtreePaths, ¬ P <+: builderDir S)
    (c2 : Collection) (F2 : Path) (hc2 : c2 ∈ cs) (hst2 : c2.State ≠ .DeletedState)
    (hF2 : c2.FullPath = some F2) (hanchor : builderDir P <+: F2.elements)
    (hlen : 2 ≤ P.length)
    (hcodec : ∀ d, env.decodeElement (env.encodeAsPath [d]) = .ok d)
    (h : inflateDirTree env loader bases cs = .ok res) :
    (∃ root, res = some root ∧ root.Name = env.encodeAsPath (P.take 1)
        ∧ ∀ q, P <+: q → subdirsAt env (builderPopFront q) root = [])
      ∧ ∃ roots, inflateRoots env loader bases cs = .ok roots
          ∧ ∀ q, P <+: q → findNode roots q = none := by
  obtain ⟨roots, hroots, hlen1, _, hbuild⟩ := inflateDirTree_roots env loader bases cs res h
  obtain ⟨roots0, up, hct, hr⟩ := inflateRoots_eq_apply env loader bases cs roots hroots
  obtain ⟨_, k2, v, n⟩ := inflateCollectionLoop_facts cs [] roots0 [] up hct
  have hkey : mapGet up P ≠ none := hP ▸ k2 c hc hstate prev hprev
  have hmv : ∀ k F, mapGet up k = some (some F) →
      ∃ c1 ∈ cs, c1.State = .MovedState ∧ c1.FullPath = some F := by
    intro k F hk
    rcases v k F hk with h1 | h1
    · simp [mapGet] at h1
    · exact h1
  have hval : ∀ k F, mapGet up k = some (some F) → ¬ P <+: F.elements ∧ ¬ F.elements <+: P := by
    intro k F hk
    obtain ⟨c1, hc1, hm, hf⟩ := hmv k F hk
    exact ⟨hfull c1 hc1 F hf, hmoved c1 hc1 hm F hf⟩
  -- the merge tree has no node at or below `P`
  have hA : ∀ q, P <+: q → findNode roots q = none := by
    intro q hq
    by_contra hne
    rw [hr] at hne
    rcases findNode_applyPlacements q _ roots0 hne with h1 | ⟨pl, hpl, m, hm, hqm⟩
    · rcases n q h1 with h2 | ⟨c1, hc1, F, hf, hqF⟩
      · cases q <;> simp [findNode, mapGet] at h2
      · exact hfull c1 hc1 F hf (hq.trans hqF)
    · exact allPlacements_avoid env loader up P hkey hval bases hsub pl hpl m hm (hq.trans hqm)
  refine ⟨?_, roots, hroots, hA⟩
  -- fields of the merge tree
  obtain ⟨_, hcolAll⟩ := inflateCollectionLoop_collection cs [] roots0 [] up hct
  have hcolR : ∀ c1 ∈ cs, c1.State ≠ .DeletedState → ∀ F, c1.FullPath = some F →
      collectionAt roots F.elements ≠ none := by
    intro c1 hc1 hs F hF
    rw [hr, collectionAt_applyPlacements]
    exact hcolAll c1 hc1 hs F hF
  have hbase0 : ∀ q, baseDirAt roots0 q = none := by
    intro q
    rw [inflateCollectionLoop_baseDir cs [] roots0 [] up hct q]
    cases q <;> simp [baseDirAt, findNode, mapGet]
  have hdist : (treeMap.mk roots none none).distinctKeys := by
    rw [hr]
    exact distinctKeys_applyPlacements _ _
      (distinctKeys_inflateCollectionLoop cs [] roots0 [] up hct distinctKeys_newTreeMap)
  -- the path `P` and the node of the collection at or below its parent
  obtain ⟨r0, ps, hPeq, hps⟩ : ∃ r0 ps, P = r0 :: ps ∧ ps ≠ [] := by
    match P, hlen with
    | a :: b :: l, _ => exact ⟨a, b :: l, rfl, by simp⟩
  subst hPeq
  obtain ⟨n2, hn2, hn2c⟩ : ∃ n2, findNode roots F2.elements = some n2
      ∧ n2.collection ≠ none := by
    have := hcolR c2 hc2 hst2 F2 hF2
    unfold collectionAt at this
    cases hf : findNode roots F2.elements with
    | none => simp [hf] at this
    | some n2 => exact ⟨n2, rfl, by simpa [hf] using this⟩
  obtain ⟨rs, hrs⟩ := hanchor
  have hF2e : F2.elements = r0 :: (ps.dropLast ++ rs) := by
    rw [← hrs, builderDir, List.dropLast_cons_of_ne_nil hps]
    rfl
  rw [hF2e] at hn2
  simp only [findNode] at hn2
  split at hn2
  · cases hn2
  · rename_i t0 ht0
    have hsingle := roots_singleton roots r0 t0 hlen1 ht0
    obtain ⟨K, hK, hres⟩ := hbuild r0 t0 hsingle
    have hfn : ∀ qs, findNode roots (r0 :: qs) = treeMap.find qs t0 := by
      intro qs
      simp [findNode, ht0]
    have hd0 : t0.distinctKeys := distinctKeys_child (.mk roots none none) t0 r0 hdist ht0
    -- no node on the way to `P` is replaced by its base directory
    have hpre : ∀ qs, qs <+: ps → qs ≠ ps → ∀ nd, treeMap.find qs t0 = some nd →
        nd.collection ≠ none ∨ nd.childDirs ≠ [] := by
      intro qs hqs hne nd hnd
      obtain ⟨ws, hws⟩ := hqs
      have hwne : ws ≠ [] := by
        intro he
        subst he
        exact hne (by simpa using hws)
      rw [← hws, List.dropLast_append_of_ne_nil _ hwne, List.append_assoc, find_append, hnd,
        Option.some_bind] at hn2
      cases hrest : ws.dropLast ++ rs with
      | nil =>
        rw [hrest] at hn2
        simp only [treeMap.find, Option.some.injEq] at hn2
        subst hn2
        exact Or.inl hn2c
      | cons x more =>
        rw [hrest] at hn2
        simp only [treeMap.find] at hn2
        split at hn2
        · cases hn2
        · rename_i child hchild
          right
          intro he
          rw [he] at hchild
          simp [mapGet] at hchild
    -- a base directory that replaces a node carries the name of the node
    have hname : ∀ qs k nd D, treeMap.find (qs ++ [k]) t0 = some nd → nd.collection = none →
        nd.baseDir = some D → env.decodeElement D.Name = .ok k := by
      intro qs k nd D hnd hcn hbn
      rw [← hfn] at hnd
      have hQne : r0 :: (qs ++ [k]) ≠ [] := by simp
      have hb : baseDirAt roots (r0 :: (qs ++ [k])) = some D := by
        simp [baseDirAt, hnd, hbn]
      have hcq : collectionAt roots (r0 :: (qs ++ [k])) = none := by
        simp [collectionAt, hnd, hcn]
      rw [hr, baseDirAt_applyPlacements _ hQne, hbase0] at hb
      have hl : lastPlaced (allPlacements env loader up bases) (r0 :: (qs ++ [k])) = some D := by
        cases hlp : lastPlaced (allPlacements env loader up bases) (r0 :: (qs ++ [k])) with
        | none => simp [hlp] at hb
        | some d => simpa [hlp] using hb
      obtain ⟨pl, hpl, hdir, _, hnew⟩ := lastPlaced_eq_some _ _ D hl
      rcases allPlacements_name env loader up bases pl hpl with
        ⟨upb, hupb, hnp⟩ | hnp | ⟨parent, dirName, hdec, hnp⟩
      · rw [hnew] at hnp
        cases upb with
        | none => simp at hnp
        | some F =>
          simp only [Option.map_some', Option.some.injEq] at hnp
          obtain ⟨c1, hc1, hm, hf⟩ := hmv _ F hupb
          have := hcolR c1 hc1 (by rw [hm]; simp) F hf
          rw [← hnp] at this
          exact absurd hcq this
      · rw [hnew] at hnp
        cases hnp
      · rw [hnew, Option.some.injEq, ← List.cons_append] at hnp
        have hk : [k] = [dirName] := List.append_inj_right' hnp rfl
        cases hk
        rw [← hdir]
        exact hdec
    have habs : subdirsAt env ps K = [] :=
      subdirsAt_absent env hcodec ps t0 r0 K hps hK hd0
        (by rw [← hfn]; exact hA _ (List.prefix_refl _)) hpre hname
    refine ⟨K, hres, ?_, ?_⟩
    · obtain ⟨statics, hst, _⟩ := buildKopiaDirs_streaming env r0 t0
        (hpre [] List.nil_prefix (fun he => hps he.symm) t0 rfl)
      rw [hst] at hK
      cases hK
      rfl
    · rintro q ⟨more, rfl⟩
      exact subdirsAt_below env more ps K habs

/-- Instance of the amended C5: folder `Drafts` is deleted while `Inbox` is
unchanged; the returned tree, rooted at `tenant`, has no directory at or below
`Drafts`, and the merge tree has no node there. -/
theorem no_directory_at_deleted_or_moved_path_witness :
    (∃ root,
        inflateDirTree plainEnv (fun _ => .ok (snapshotOf draftsInbox)) [sampleBase]
            [deletedDrafts, unchangedInbox] = .ok (some root)
          ∧ root.Name = "tenant"
          ∧ ∀ q, (samplePrefix ++ ["Drafts"]) <+: q →
              subdirsAt plainEnv (builderPopFront q) root = [])
      ∧ ∃ roots,
          inflateRoots plainEnv (fun _ => .ok (snapshotOf draftsInbox)) [sampleBase]
              [deletedDrafts, unchangedInbox] = .ok roots
            ∧ ∀ q, (samplePrefix ++ ["Drafts"]) <+: q → findNode roots q = none := by
  obtain ⟨⟨root, h1, h2, h3⟩, h4⟩ :=
    no_directory_at_deleted_or_moved_path plainEnv (fun _ => .ok (snapshotOf draftsInbox))
      [sampleBase] [deletedDrafts, unchangedInbox] _ (samplePrefix ++ ["Drafts"]) deletedDrafts
      ⟨samplePrefix ++ ["Drafts"], false⟩ (by decide) (Or.inl rfl) rfl rfl
      (by
        intro c1 hc1 F hF
        simp only [List.mem_cons, List.mem_singleton, List.not_mem_nil, or_false] at hc1
        rcases hc1 with rfl | rfl
        · simp [deletedDrafts] at hF
        · simp only [unchangedInbox, Option.some.injEq] at hF
          subst hF
          decide)
      (by
        intro c1 hc1 hm
        simp only [List.mem_cons, List.mem_singleton, List.not_mem_nil, or_false] at hc1
        rcases hc1 with rfl | rfl
        · simp [deletedDrafts] at hm
        · simp [unchangedInbox] at hm)
      (by
        intro snap hs S hS
        simp only [List.mem_singleton] at hs
        subst hs
        simp only [sampleBase, List.mem_singleton] at hS
        subst hS
        decide)
      unchangedInbox ⟨samplePrefix ++ ["Inbox"], false⟩ (by decide) (by decide) rfl
      (by decide) (by decide) (fun _ => rfl) rfl
  exact ⟨⟨root, by rw [← h1]; rfl, h2, h3⟩, h4⟩

/-- C6, refuted as stated: the base holds `Archive` with file `y` and `Inbox`
with file `x`, and a collection without items moves `Archive` to `Inbox`. The
directory at `Inbox` of the returned tree streams the base directory `Inbox`:
its enumeration yields `x` and not the file `y` of the moved `Archive`. -/
theorem moved_folder_content_lost_on_collision :
    ∃ root,
      inflateDirTree plainEnv (fun _ => .ok (snapshotOf archiveInbox)) [sampleBase]
          [⟨some ⟨samplePrefix ++ ["Inbox"], false⟩, some ⟨samplePrefix ++ ["Archive"], false⟩,
            .MovedState, []⟩]
        = .ok (some root)
      ∧ subdirsAt plainEnv ["exchange", "alice", "mail", "Inbox"] root
        = [.streaming "Inbox" []
            (some ⟨some ⟨samplePrefix ++ ["Inbox"], false⟩,
              some ⟨samplePrefix ++ ["Archive"], false⟩, .MovedState, []⟩)
            (some (.dir "Inbox" [.file "x"]))]
      ∧ getStreamItemFunc plainEnv []
          (some ⟨some ⟨samplePrefix ++ ["Inbox"], false⟩,
            some ⟨samplePrefix ++ ["Archive"], false⟩, .MovedState, []⟩)
          (some (.dir "Inbox" [.file "x"])) (fun _ _ => none)
          { calls := [], progress := { pending := [], totalBytes := 0 }, ctx := none }
        = ([], { calls := [.base (.file "x")], progress := { pending := [], totalBytes := 0 },
                 ctx := none }) :=
  ⟨_, rfl, rfl, rfl⟩

/-- C6, amended: let `c` be a moved collection without items, the only
deleted or moved collection with previous path `P` and the only collection
with full path `Q`; let `D` be a directory of a complete base snapshot at old
path `P` that holds files, and let no other base directory holding files be
placed at `Q`. Then a successful `inflateDirTree` returns a tree in which the
directory at `Q` is the streaming directory over `c` and `D`, and its
enumeration, with a callback that accepts every entry and a context that is
not cancelled, yields its static children followed by every file entry of
`D`. Moreover every base directory below `P` that holds files, with no moved
or deleted directory between `P` and itself, is the `baseDir` of the node at
the same relative path under `Q`, when `P` is not the parent of a subtree root
or above it and no other directory holding files is placed there. -/
theorem moved_folder_carries_base_content (env : Env) (loader : String → Except Err Entry)
    (bases : List IncrementalBase) (cs : List Collection) (res : Option KopiaDir)
    (c : Collection) (P Q : Path) (D : Entry) (pl : Placement)
    (hc : c ∈ cs) (hstate : c.State = .MovedState) (hprev : c.PreviousPath = some P)
    (hfull : c.FullPath = some Q) (hitems : c.Items = [])
    (huniqFull : ∀ c1 ∈ cs, c1.State ≠ .DeletedState → ∀ F, c1.FullPath = some F →
      F.elements = Q.elements → c1 = c)
    (huniqPrev : ∀ c1 ∈ cs, (c1.State = .DeletedState ∨ c1.State = .MovedState) → ∀ p,
      c1.PreviousPath = some p → p.elements = P.elements → c1 = c)
    (hpl : pl ∈ allPlacements env loader (updatedPathsOf cs) bases)
    (hold : pl.oldPath = P.elements) (hdir : pl.dir = D) (hD : D.hasItems = true)
    (huniqD : ∀ pl1 ∈ allPlacements env loader (updatedPathsOf cs) bases,
      pl1.dir.hasItems = true → pl1.newPath = some Q.elements → pl1.dir = D)
    (h : inflateDirTree env loader bases cs = .ok res) :
    ∃ root statics roots,
      res = some root
        ∧ inflateRoots env loader bases cs = .ok roots
        ∧ KopiaDir.streaming (env.encodeAsPath [Q.elements.getLastD ""]) statics (some c) (some D)
            ∈ subdirsAt env Q.elements.tail root
        ∧ (∀ (cb : Callback) (st : EnumState), (∀ hist e, cb hist e = none) → st.ctx = none →
            getStreamItemFunc env statics (some c) (some D) cb st
              = ([], { st with calls := st.calls ++ statics.map CbEntry.static
                        ++ survivingEntries [] D.entries }))
        ∧ (∀ e ∈ D.entries, e.isDir = false → CbEntry.base e ∈ survivingEntries [] D.entries)
        ∧ (∀ pl1 ∈ allPlacements env loader (updatedPathsOf cs) bases,
            pl1.dir.hasItems = true → ∀ rel, pl1.oldPath = P.elements ++ rel →
            (∀ snap ∈ bases, ∀ S ∈ snap.SubtreePaths, ¬ P.elements <+: builderDir S) →
            (∀ r1, r1 ≠ [] → r1 <+: rel → mapGet (updatedPathsOf cs) (P.elements ++ r1) = none) →
            (∀ pl2 ∈ allPlacements env loader (updatedPathsOf cs) bases,
              pl2.dir.hasItems = true → pl2.newPath = some (Q.elements ++ rel) →
              pl2.dir = pl1.dir) →
            baseDirAt roots (Q.elements ++ rel) = some pl1.dir) := by
  obtain ⟨roots, hroots, hlen, _, hbuild⟩ := inflateDirTree_roots env loader bases cs res h
  obtain ⟨roots0, up, hct, hr⟩ := inflateRoots_eq_apply env loader bases cs roots hroots
  have hup : updatedPathsOf cs = up := by simp [updatedPathsOf, hct]
  rw [hup] at hpl huniqD
  obtain ⟨hb, hcc, hu⟩ := inflateCollectionLoop_unique c hstate P.elements Q.elements cs []
    roots0 [] up hct huniqFull huniqPrev
  -- the collection and the registered move survive the rest of the list
  have hcoll0 : collectionAt roots0 Q.elements = some c := by
    rcases hcc with h1 | ⟨_, h2⟩
    · exact h1
    · exact absurd rfl (h2 c hc (by rw [hstate]; simp) Q hfull)
  have hmap : mapGet up P.elements = some (some Q) := by
    rcases hu with h1 | ⟨_, h2⟩
    · rw [h1, hfull]
    · exact absurd rfl (h2 c hc (Or.inr hstate) P hprev)
  have hQne : Q.elements ≠ [] := by
    intro hq
    rw [hq] at hcoll0
    simp [collectionAt, findNode] at hcoll0
  have hbase0 : ∀ q, baseDirAt roots0 q = none := by
    intro q
    rw [hb q]
    cases q <;> simp [baseDirAt, findNode, mapGet]
  -- fields of the node at `Q`
  have hcoll : collectionAt roots Q.elements = some c := by
    rw [hr, collectionAt_applyPlacements, hcoll0]
  have hnew : pl.newPath = some Q.elements := by
    have := allPlacements_below_moved env loader up bases P.elements Q hmap pl hpl []
      (by simpa using hold) (Or.inl rfl) (fun r1 hr1 hp => absurd (List.prefix_nil.mp hp) hr1)
    simpa using this
  have hbase : baseDirAt roots Q.elements = some D := by
    rw [hr, baseDirAt_applyPlacements _ hQne,
      lastPlaced_of_unique _ _ pl hpl (hdir ▸ hD) hnew (fun pl1 h1 h2 h3 =>
        (huniqD pl1 h1 h2 h3).trans hdir.symm), hdir]
    rfl
  -- the node and the single root
  obtain ⟨node, hnode, hnc⟩ : ∃ node, findNode roots Q.elements = some node
      ∧ node.collection = some c := by
    unfold collectionAt at hcoll
    cases hf : findNode roots Q.elements with
    | none => simp [hf] at hcoll
    | some node => exact ⟨node, rfl, by simpa [hf] using hcoll⟩
  have hnb : node.baseDir = some D := by
    simpa [baseDirAt, hnode] using hbase
  obtain ⟨r0, qs, hQ⟩ : ∃ r0 qs, Q.elements = r0 :: qs := by
    cases hq : Q.elements with
    | nil => exact absurd hq hQne
    | cons r0 qs => exact ⟨r0, qs, rfl⟩
  rw [hQ] at hnode
  simp only [findNode] at hnode
  split at hnode
  · cases hnode
  · rename_i t0 ht0
    have hsingle := roots_singleton roots r0 t0 hlen ht0
    obtain ⟨K, hK, hres⟩ := hbuild r0 t0 hsingle
    obtain ⟨k, hk, hkin⟩ := buildKopiaDirs_subdirsAt env qs t0 r0 K node hK hnode
      (by rw [hnc]; simp)
    obtain ⟨statics, hstream, _⟩ := buildKopiaDirs_streaming env (qs.getLastD r0) node
      (Or.inl (by rw [hnc]; simp))
    rw [hstream] at hk
    cases hk
    rw [hnc, hnb] at hkin
    have hlast : (r0 :: qs).getLastD "" = qs.getLastD r0 := by cases qs <;> rfl
    refine ⟨K, statics, roots, hres, hroots, ?_, ?_, ?_, ?_⟩
    · rw [hQ, hlast]
      exact hkin
    · intro cb st hcb hctx
      exact getStreamItemFunc_accept env statics c hitems D cb hcb st hctx
    · intro e he hed
      simp only [survivingEntries, List.mem_map, List.mem_filter]
      exact ⟨e, ⟨he, by simp [hed, mapGet]⟩, rfl⟩
    · rw [hup]
      intro pl1 hpl1 hi rel hold1 hsub hkeys huniq1
      have hnew1 := allPlacements_below_moved env loader up bases P.elements Q hmap pl1 hpl1
        rel hold1 (Or.inr hsub) hkeys
      have hne1 : Q.elements ++ rel ≠ [] := by
        simp [hQ]
      rw [hr, baseDirAt_applyPlacements _ hne1,
        lastPlaced_of_unique _ _ pl1 hpl1 hi hnew1 huniq1]
      rfl

/-- Instance of the amended C6: folder `Inbox` with file `x` is moved to
`Archive/Inbox`; the returned tree has at `Archive/Inbox` the streaming
directory over the moved collection and the base directory `Inbox`, whose
enumeration yields the file `x`. -/
theorem moved_folder_carries_base_content_witness :
    ∃ root statics,
      inflateDirTree plainEnv (fun _ => .ok (snapshotOf onlyInbox)) [sampleBase] [movedInbox]
          = .ok (some root)
        ∧ KopiaDir.streaming "Inbox" statics (some movedInbox) (some (.dir "Inbox" [.file "x"]))
            ∈ subdirsAt plainEnv ["exchange", "alice", "mail", "Archive", "Inbox"] root
        ∧ getStreamItemFunc plainEnv statics (some movedInbox)
            (some (.dir "Inbox" [.file "x"])) (fun _ _ => none)
            { calls := [], progress := { pending := [], totalBytes := 0 }, ctx := none }
          = ([], { calls := [] ++ statics.map CbEntry.static
                      ++ survivingEntries [] [.file "x"],
                   progress := { pending := [], totalBytes := 0 }, ctx := none }) := by
  obtain ⟨root, statics, _, h1, _, h2, h3, _⟩ :=
    moved_folder_carries_base_content plainEnv (fun _ => .ok (snapshotOf onlyInbox))
      [sampleBase] [movedInbox] _ movedInbox ⟨samplePrefix ++ ["Inbox"], false⟩
      ⟨samplePrefix ++ ["Archive", "Inbox"], false⟩ (.dir "Inbox" [.file "x"])
      ⟨samplePrefix ++ ["Inbox"], some (samplePrefix ++ ["Archive", "Inbox"]),
        .dir "Inbox" [.file "x"]⟩
      (by decide) rfl rfl rfl rfl
      (by
        intro c1 hc1 _ _ _ _
        simpa using hc1)
      (by
        intro c1 hc1 _ _ _ _
        simpa using hc1)
      (by decide) rfl rfl rfl (by decide) rfl
  refine ⟨root, statics, ?_, h2, ?_⟩
  · rw [← h1]
    rfl
  · exact h3 (fun _ _ => none)
      { calls := [], progress := { pending := [], totalBytes := 0 }, ctx := none }
      (fun _ _ => rfl) rfl


/-! ## Order of a directory enumeration -/

theorem staticEntries_ok (cb : Callback) :
    ∀ (statics : List KopiaDir) (st st1 : EnumState),
      staticEntries cb statics st = (none, st1) →
      st1 = { st with calls := st.calls ++ statics.map CbEntry.static } := by
  intro statics
  induction statics with
  | nil =>
    intro st st1 h
    simp only [staticEntries, Prod.mk.injEq, true_and] at h
    simp [← h]
  | cons d rest ih =>
    intro st st1 h
    simp only [staticEntries, invoke] at h
    split at h
    · cases h
    · rename_i st2 heq
      simp only [Prod.mk.injEq] at heq
      rw [ih _ _ h, ← heq.2]
      simp

/-- A run of the item loop that ends without any error started without
errors, passed the streaming files of all items that are not deleted, and saw
the names of all items. -/
theorem collectionItems_ok (env : Env) (cb : Callback) (fullPath : Option Path) :
    ∀ (items : List Stream) (seen : GoMap String Unit) (errs : List Err) (st : EnumState)
      (seen1 : GoMap String Unit) (st1 : EnumState),
      collectionItems env cb fullPath items seen errs st = ((seen1, []), st1) →
      errs = []
        ∧ st1.calls = st.calls ++ (items.filter (fun e => !e.Deleted)).map (streamingFileOf env)
        ∧ seen1 = items.foldl (fun seen e => mapSet seen (env.encodeAsPath [e.UUID]) ()) seen := by
  intro items
  induction items with
  | nil =>
    intro seen errs st seen1 st1 h
    unfold collectionItems at h
    split at h
    · simp at h
    · simp only [Prod.mk.injEq] at h
      obtain ⟨⟨h1, h2⟩, h3⟩ := h
      subst h1 h2 h3
      simp
  | cons e rest ih =>
    intro seen errs st seen1 st1 h
    unfold collectionItems at h
    split at h
    · simp at h
    · simp only at h
      split at h
      · simp at h
      · rename_i fp
        split at h
        · obtain ⟨h1, _, _⟩ := ih _ _ _ _ _ h
          simp at h1
        · rename_i itemPath _
          by_cases hdel : e.Deleted = true
          · simp only [hdel, if_true] at h
            obtain ⟨h1, h2, h3⟩ := ih _ _ _ _ _ h
            refine ⟨h1, ?_, ?_⟩
            · simpa [hdel] using h2
            · simpa using h3
          · simp only [hdel, Bool.false_eq_true, if_false] at h
            split at h
            · simp at h
            · rename_i st2 hinv
              obtain ⟨h1, h2, h3⟩ := ih _ _ _ _ _ h
              refine ⟨h1, ?_, ?_⟩
              · simp only [invoke, Prod.mk.injEq] at hinv
                rw [h2, ← hinv.2]
                have hd : e.Deleted = false := by simpa using hdel
                cases hi : e.Info <;> simp [hd, streamingFileOf, List.append_assoc]
              · simpa using h3

/-- The iteration over a base directory passes a prefix of the surviving
entries, whatever its result. -/
theorem streamBaseLoop_calls (env : Env) (cb : Callback) (seen : GoMap String Unit) :
    ∀ (entries : List Entry) (st : EnumState),
      ∃ bs, (streamBaseLoop env cb seen entries st).2.calls = st.calls ++ bs
        ∧ bs <+: survivingEntries seen entries := by
  intro entries
  induction entries with
  | nil => intro st; exact ⟨[], by simp [streamBaseLoop], List.nil_prefix⟩
  | cons e rest ih =>
    intro st
    unfold streamBaseLoop
    split
    · exact ⟨[], by simp, List.nil_prefix⟩
    · rename_i ctx _
      simp only
      by_cases hd : e.isDir = true
      · simp only [hd, if_true]
        obtain ⟨bs, h1, h2⟩ := ih { st with ctx := ctx }
        exact ⟨bs, h1, by simpa [survivingEntries, hd] using h2⟩
      · simp only [hd, Bool.false_eq_true, if_false]
        by_cases hs : (mapGet seen e.Name).isSome = true
        · simp only [hs, if_true]
          obtain ⟨bs, h1, h2⟩ := ih { st with ctx := ctx }
          have hn : (mapGet seen e.Name).isNone = false := by
            cases hm : mapGet seen e.Name <;> simp [hm] at hs ⊢
          exact ⟨bs, h1, by simpa [survivingEntries, hd, hn] using h2⟩
        · simp only [hs, Bool.false_eq_true, if_false, invoke]
          have hn : (mapGet seen e.Name).isNone = true := by
            cases hm : mapGet seen e.Name <;> simp [hm] at hs ⊢
          have hsurv : survivingEntries seen (e :: rest)
              = CbEntry.base e :: survivingEntries seen rest := by
            simp [survivingEntries, hd, hn]
          obtain ⟨bs, h1, h2⟩ := ih ⟨st.calls ++ [CbEntry.base e], st.progress, ctx⟩
          have hcons : CbEntry.base e :: bs <+: survivingEntries seen (e :: rest) := by
            rw [hsurv]
            exact (List.prefix_cons_inj _).mpr h2
          cases hres : cb st.calls (CbEntry.base e) with
          | none => exact ⟨CbEntry.base e :: bs, by simpa using h1, hcons⟩
          | some err =>
            simp only
            cases hdec : env.decodeElement e.Name with
            | ok _ => exact ⟨CbEntry.base e :: bs, by simpa using h1, hcons⟩
            | error _ => exact ⟨[CbEntry.base e], by simp, by rw [hsurv]; simp⟩

theorem streamBaseEntries_calls (env : Env) (cb : Callback) (dir : Option Entry)
    (seen : GoMap String Unit) (st : EnumState) :
    ∃ bs, (streamBaseEntries env cb dir seen st).2.calls = st.calls ++ bs
      ∧ bs <+: survivingEntries seen ((dir.map Entry.entries).getD []) := by
  cases dir with
  | none => exact ⟨[], by simp [streamBaseEntries], List.nil_prefix⟩
  | some d =>
    obtain ⟨bs, h1, h2⟩ := streamBaseLoop_calls env cb seen d.entries st
    refine ⟨bs, ?_, by simpa using h2⟩
    rw [← h1]
    unfold streamBaseEntries
    simp only
    split
    · split <;> simp_all
    · simp_all

/-- Order of an enumeration that returns a nil error: the callback received
all static child directories, then the streaming files of all items of the
collection that are not deleted, in the order received, then entries of the
base directory that are not directories and whose name was not seen, in the
order of the base: a prefix of the surviving entries. -/
theorem enumeration_order (env : Env) (statics : List KopiaDir)
    (streamedEnts : Option Collection) (baseDir : Option Entry) (cb : Callback)
    (st st1 : EnumState)
    (h : getStreamItemFunc env statics streamedEnts baseDir cb st = ([], st1)) :
    ∃ bs, st1.calls = st.calls ++ statics.map CbEntry.static ++ streamedFiles env streamedEnts
          ++ bs
      ∧ bs <+: survivingEntries (seenNames env streamedEnts)
          ((baseDir.map Entry.entries).getD []) := by
  unfold getStreamItemFunc at h
  split at h
  · simp at h
  · rename_i st2 hstat
    have h2 := staticEntries_ok cb statics st st2 hstat
    split at h
    rename_i seen errs st3 hcoll
    obtain ⟨bs, hb1, hb2⟩ := streamBaseEntries_calls env cb baseDir seen st3
    have herrs : errs = [] ∧ st1 = (streamBaseEntries env cb baseDir seen st3).2 := by
      split at h
      · simp at h
      · rename_i st4 hsb
        simp only [Prod.mk.injEq] at h
        exact ⟨h.1, by rw [hsb]; exact h.2.symm⟩
    obtain ⟨he, hst1⟩ := herrs
    subst he
    have hcalls : st3.calls = st2.calls ++ streamedFiles env streamedEnts
        ∧ seen = seenNames env streamedEnts := by
      cases streamedEnts with
      | none =>
        simp only [collectionEntries, Prod.mk.injEq] at hcoll
        obtain ⟨⟨h3, _⟩, h4⟩ := hcoll
        simp [streamedFiles, seenNames, ← h3, ← h4]
      | some c =>
        simp only [collectionEntries] at hcoll
        obtain ⟨_, h3, h4⟩ := collectionItems_ok env cb _ _ _ _ _ _ _ hcoll
        exact ⟨by simpa [streamedFiles] using h3, by simpa [seenNames] using h4⟩
    refine ⟨bs, ?_, hcalls.2 ▸ hb2⟩
    rw [hst1, hb1, hcalls.1, h2]

/-- C10, the failing run: a node with a collection without items and the base
directory `Inbox` holding file `x` is enumerated with a callback that accepts
every entry, under a context that is cancelled once the items channel was
closed. `streamBaseEntries` sees the cancellation at the first base entry, yet
the enumeration returns a nil error, and the surviving base file `x` was
never passed to the callback. -/
theorem cancelled_enumeration_returns_nil_without_base_entries :
    getStreamItemFunc plainEnv [] (some unchangedInbox) (some (.dir "Inbox" [.file "x"]))
        (fun _ _ => none)
        { calls := [], progress := { pending := [], totalBytes := 0 }, ctx := some 1 }
      = ([], { calls := [], progress := { pending := [], totalBytes := 0 }, ctx := some 0 })
      ∧ survivingEntries (seenNames plainEnv (some unchangedInbox)) [.file "x"]
        = [.base (.file "x")] :=
  ⟨rfl, rfl⟩

/-! ## Base entries of an enumeration -/

/-- C11, the failing run: the node of `Inbox` holds a collection with the new
version of item `a` and the base directory with the files `a`, `q` and `r`;
the callback accepts every entry and the context is cancelled after file `q`
was passed. `streamBaseEntries` sees the cancellation at file `r`, yet the
enumeration returns a nil error: the callback received the streaming file `a`
and the base file `q` only, while the base files that are not directories and
were not seen are `q` and `r`. -/
theorem nil_error_enumeration_passes_part_of_base :
    getStreamItemFunc plainEnv [] (some inboxWithA) (some inboxAQR) (fun _ _ => none)
        { calls := [], progress := { pending := [], totalBytes := 0 }, ctx := some 4 }
      = ([], { calls := [streamingFileOf plainEnv (liveItem "a"), .base (.file "q")],
               progress := { pending := [], totalBytes := 0 }, ctx := some 0 })
      ∧ survivingEntries (seenNames plainEnv (some inboxWithA)) inboxAQR.entries
        = [.base (.file "q"), .base (.file "r")] :=
  ⟨rfl, rfl⟩

/-- C13, the failing runs, on the node of `Inbox` with the new version of item
`a` and the base files `a`, `q` and `r`. First run: the callback fails on the
streaming file `a`; `collectionEntries` returns at once, but the enumeration
goes on with the base directory and still passes `q` and `r` to the callback
before it returns the error. Second run: the callback fails on the base file
`q`; the error is dropped, the callback still receives `r`, and the
enumeration returns a nil error. -/
theorem callback_invoked_after_callback_error :
    getStreamItemFunc plainEnv [] (some inboxWithA) (some inboxAQR) (failOn "a")
        { calls := [], progress := { pending := [], totalBytes := 0 }, ctx := none }
      = ([Err.wrap (Err.other 1) "executing callback on item"],
          { calls := [streamingFileOf plainEnv (liveItem "a"), .base (.file "q"),
              .base (.file "r")],
            progress := { pending := [], totalBytes := 0 }, ctx := none })
      ∧ failOn "q" [streamingFileOf plainEnv (liveItem "a")] (.base (.file "q"))
          = some (Err.other 1)
      ∧ getStreamItemFunc plainEnv [] (some inboxWithA) (some inboxAQR) (failOn "q")
        { calls := [], progress := { pending := [], totalBytes := 0 }, ctx := none }
      = ([], { calls := [streamingFileOf plainEnv (liveItem "a"), .base (.file "q"),
                 .base (.file "r")],
               progress := { pending := [], totalBytes := 0 }, ctx := none }) :=
  ⟨rfl, rfl, rfl⟩

/-! ## Items received by an enumeration -/

theorem filesOf_cons (env : Env) (fullPath : Option Path) (e : Stream) (items : List Stream) :
    filesOf env fullPath (e :: items)
      = (if itemYielded fullPath e then [streamingFileOf env e] else [])
        ++ filesOf env fullPath items := by
  by_cases h : itemYielded fullPath e = true <;> simp [filesOf, h]

/-- The item loop under a context that is never cancelled: it receives a
prefix of the items, all of them unless it stopped at the last one received,
records the names of the items received and passes their streaming files. -/
theorem collectionItems_received (env : Env) (cb : Callback) (fullPath : Option Path) :
    ∀ (items : List Stream) (seen : GoMap String Unit) (errs : List Err) (st : EnumState)
      (r : (GoMap String Unit × List Err) × EnumState),
      st.ctx = none → collectionItems env cb fullPath items seen errs st = r →
      ∃ received, received <+: items
        ∧ (received = items ∨ ∃ rest i, received = rest ++ [i]
            ∧ (fullPath = none ∨ (itemYielded fullPath i = true
                ∧ (cb (st.calls ++ filesOf env fullPath rest) (streamingFileOf env i)).isSome)))
        ∧ r.1.1 = seenAfter env seen received
        ∧ r.2.calls = st.calls ++ filesOf env fullPath received
        ∧ r.2.ctx = none := by
  intro items
  induction items with
  | nil =>
    intro seen errs st r hctx h
    obtain ⟨calls, progress, ctx⟩ := st
    simp only at hctx
    subst hctx
    simp only [collectionItems, ctxPoll] at h
    subst h
    exact ⟨[], List.prefix_refl _, Or.inl rfl, rfl, by simp [filesOf], rfl⟩
  | cons e rest ih =>
    intro seen errs st r hctx h
    obtain ⟨calls, progress, ctx⟩ := st
    simp only at hctx
    subst hctx
    unfold collectionItems at h
    simp only [ctxPoll] at h
    cases fullPath with
    | none =>
      simp only at h
      subst h
      exact ⟨[e], by simp, Or.inr ⟨[], e, rfl, Or.inl rfl⟩, rfl, by simp [filesOf, itemYielded],
        rfl⟩
    | some fp =>
      simp only [Path.Append] at h
      have hstep : ∀ (st2 : EnumState) (errs2 : List Err), st2.calls = calls → st2.ctx = none →
          itemYielded (some fp) e = false →
          collectionItems env cb (some fp) rest (mapSet seen (env.encodeAsPath [e.UUID]) ())
            errs2 st2 = r →
          ∃ received, received <+: e :: rest
            ∧ (received = e :: rest ∨ ∃ rest1 i, received = rest1 ++ [i]
                ∧ (some fp = none ∨ (itemYielded (some fp) i = true
                    ∧ (cb (calls ++ filesOf env (some fp) rest1)
                        (streamingFileOf env i)).isSome)))
            ∧ r.1.1 = seenAfter env seen received
            ∧ r.2.calls = calls ++ filesOf env (some fp) received
            ∧ r.2.ctx = none := by
        intro st2 errs2 hc hx hy hr
        obtain ⟨rc, h1, h2, h3, h4, h5⟩ := ih _ _ _ _ hx hr
        refine ⟨e :: rc, (List.prefix_cons_inj e).mpr h1, ?_, ?_, ?_, h5⟩
        · rcases h2 with h2 | ⟨rest1, i, h21, h22⟩
          · exact Or.inl (by rw [h2])
          · refine Or.inr ⟨e :: rest1, i, by rw [h21]; rfl, ?_⟩
            rcases h22 with h22 | ⟨h22, h23⟩
            · exact Or.inl h22
            · refine Or.inr ⟨h22, ?_⟩
              rw [filesOf_cons, hy]
              simpa [hc] using h23
        · simpa [seenAfter] using h3
        · rw [h4, filesOf_cons, hy, hc]
          simp
      by_cases hitem : fp.hasItem = true
      · simp only [hitem, if_true] at h
        exact hstep _ _ rfl rfl (by simp [itemYielded, hitem]) h
      · simp only [hitem, Bool.false_eq_true, if_false] at h
        by_cases hdel : e.Deleted = true
        · simp only [hdel, if_true] at h
          exact hstep _ _ rfl rfl (by simp [itemYielded, hdel]) h
        · simp only [hdel, Bool.false_eq_true, if_false, invoke] at h
          have hy : itemYielded (some fp) e = true := by
            simp [itemYielded, hdel, hitem]
          have hcalls : ∀ st2 : EnumState, st2 = (match e.Info with
              | some info => (⟨calls, progress.put (env.encodeAsPath
                  (builderPopFront (builderAppend fp.elements e.UUID)))
                  ⟨info, ⟨builderAppend fp.elements e.UUID, true⟩⟩, none⟩ : EnumState)
              | none => ⟨calls, progress, none⟩) → st2.calls = calls ∧ st2.ctx = none := by
            intro st2 h2
            cases hi : e.Info <;> simp [hi] at h2 <;> simp [h2]
          generalize hst2 : (match e.Info with
              | some info => (⟨calls, progress.put (env.encodeAsPath
                  (builderPopFront (builderAppend fp.elements e.UUID)))
                  ⟨info, ⟨builderAppend fp.elements e.UUID, true⟩⟩, none⟩ : EnumState)
              | none => ⟨calls, progress, none⟩) = st2 at h
          obtain ⟨hc, hx⟩ := hcalls st2 hst2.symm
          have hentry : CbEntry.streamingFile (env.encodeAsPath [e.UUID])
              (e.ModTime.getD env.now)
              (newBackupStreamReader env.serializationVersion (bytesReader.NewReader e.ToReader))
              = streamingFileOf env e := rfl
          rw [hentry, hc] at h
          cases hres : cb calls (streamingFileOf env e) with
          | some err =>
            simp only [hres] at h
            subst h
            refine ⟨[e], by simp, Or.inr ⟨[], e, rfl, Or.inr ⟨hy, ?_⟩⟩, rfl, ?_, hx⟩
            · simp [filesOf, hres]
            · simp [filesOf, hy, hc]
          | none =>
            simp only [hres] at h
            obtain ⟨rc, h1, h2, h3, h4, h5⟩ :=
              ih _ _ ⟨calls ++ [streamingFileOf env e], st2.progress, st2.ctx⟩ _ hx h
            refine ⟨e :: rc, (List.prefix_cons_inj e).mpr h1, ?_, ?_, ?_, h5⟩
            · rcases h2 with h2 | ⟨rest1, i, h21, h22⟩
              · exact Or.inl (by rw [h2])
              · refine Or.inr ⟨e :: rest1, i, by rw [h21]; rfl, ?_⟩
                rcases h22 with h22 | ⟨h22, h23⟩
                · exact Or.inl h22
                · refine Or.inr ⟨h22, ?_⟩
                  rw [filesOf_cons, hy]
                  simpa using h23
            · simpa [seenAfter] using h3
            · rw [h4, filesOf_cons, hy]
              simp

theorem mapGet_seenAfter (env : Env) :
    ∀ (received : List Stream) (seen : GoMap String Unit) (k : String),
      (mapGet (seenAfter env seen received) k).isSome
        ↔ (mapGet seen k).isSome ∨ ∃ i ∈ received, env.encodeAsPath [i.UUID] = k := by
  intro received
  induction received with
  | nil => intro seen k; simp [seenAfter]
  | cons e rest ih =>
    intro seen k
    have h := ih (mapSet seen (env.encodeAsPath [e.UUID]) ()) k
    simp only [seenAfter, List.foldl_cons] at h ⊢
    rw [h, mapGet_mapSet]
    by_cases hk : env.encodeAsPath [e.UUID] = k
    · simp [hk]
    · simp [hk]

theorem mem_survivingEntries (seen : GoMap String Unit) (entries : List Entry) (b : CbEntry)
    (h : b ∈ survivingEntries seen entries) :
    ∃ e, b = .base e ∧ e ∈ entries ∧ e.isDir = false ∧ mapGet seen e.Name = none := by
  simp only [survivingEntries, List.mem_map, List.mem_filter, Bool.and_eq_true,
    Bool.not_eq_true', Option.isNone_iff_eq_none] at h
  obtain ⟨e, ⟨h1, h2, h3⟩, h4⟩ := h
  exact ⟨e, h4.symm, h1, h2, h3⟩

theorem mem_filesOf (env : Env) (fullPath : Option Path) (items : List Stream) (x : CbEntry) :
    x ∈ filesOf env fullPath items
      ↔ ∃ j ∈ items, itemYielded fullPath j = true ∧ x = streamingFileOf env j := by
  simp only [filesOf, List.mem_map, List.mem_filter]
  constructor
  · rintro ⟨j, ⟨h1, h2⟩, h3⟩
    exact ⟨j, h1, h2, h3.symm⟩
  · rintro ⟨j, h1, h2, h3⟩
    exact ⟨j, ⟨h1, h2⟩, h3.symm⟩

/-- The state an enumeration ends in: when the static children were accepted
it is the state `streamBaseEntries` ends in, called with the names seen by
`collectionEntries`, whatever errors `collectionEntries` gathered. -/
theorem getStreamItemFunc_state (env : Env) (statics : List KopiaDir)
    (streamedEnts : Option Collection) (baseDir : Option Entry) (cb : Callback)
    (st st0 : EnumState) (hstat : staticEntries cb statics st = (none, st0)) :
    (getStreamItemFunc env statics streamedEnts baseDir cb st).2
      = (streamBaseEntries env cb baseDir (collectionEntries env cb streamedEnts st0).1.1
          (collectionEntries env cb streamedEnts st0).2).2 := by
  unfold getStreamItemFunc
  rw [hstat]
  simp only
  generalize collectionEntries env cb streamedEnts st0 = r
  obtain ⟨⟨seen, errs⟩, st3⟩ := r
  simp only
  rcases hsb : streamBaseEntries env cb baseDir seen st3 with ⟨_ | err, st4⟩ <;> simp

/-- C12, refuted as stated: the collection of `Inbox` reports item `a` twice,
first as deleted and then with content. The enumeration is not cancelled and
the callback accepts every entry; the deleted item `a` was received, yet the
streaming file named `a` is passed to the callback. -/
theorem entry_yielded_under_name_of_deleted_item :
    getStreamItemFunc plainEnv [] (some inboxTwiceA) none (fun _ _ => none)
        { calls := [], progress := { pending := [], totalBytes := 0 }, ctx := none }
      = ([], { calls := [streamingFileOf plainEnv (liveItem "a")],
               progress := { pending := [], totalBytes := 0 }, ctx := none })
      ∧ deletedItem "a" ∈ inboxTwiceA.Items
      ∧ (deletedItem "a").Deleted = true
      ∧ (streamingFileOf plainEnv (liveItem "a")).Name
          = plainEnv.encodeAsPath [(deletedItem "a").UUID] :=
  ⟨rfl, by decide, rfl, rfl⟩

/-- C12, amended: an enumeration whose context is never cancelled and whose
static children were accepted receives a prefix `received` of the items of the
collection, all of them unless the loop stopped at the last one received
(no `FullPath`, or the callback failed on its file). The encoded name of every
item received is recorded as seen; the callback is passed one streaming file
for every item received that is not deleted and whose item path can be built,
in the order received, and after them entries of the base directory, none of
which bears the encoded name of an item received. For an item received whose
encoded name no other item received shares, a streaming file of that name is
passed exactly when the item is not deleted and its path can be built, and
when the item is deleted no entry of that name is passed at all, from the
collection or from the base. -/
theorem received_items_seen_and_yielded (env : Env) (cb : Callback) (statics : List KopiaDir)
    (c : Collection) (baseDir : Option Entry) (st st0 : EnumState)
    (hctx : st.ctx = none) (hstat : staticEntries cb statics st = (none, st0)) :
    ∃ received bs,
      received <+: c.Items
      ∧ (received = c.Items ∨ ∃ rest i, received = rest ++ [i]
          ∧ (c.FullPath = none ∨ (itemYielded c.FullPath i = true
              ∧ (cb (st0.calls ++ filesOf env c.FullPath rest) (streamingFileOf env i)).isSome)))
      ∧ (collectionEntries env cb (some c) st0).1.1 = seenAfter env [] received
      ∧ (∀ i ∈ received,
          (mapGet (seenAfter env [] received) (env.encodeAsPath [i.UUID])).isSome)
      ∧ (getStreamItemFunc env statics (some c) baseDir cb st).2.calls
          = st0.calls ++ filesOf env c.FullPath received ++ bs
      ∧ (∀ b ∈ bs, ∃ e, b = .base e
          ∧ ∀ i ∈ received, e.Name ≠ env.encodeAsPath [i.UUID])
      ∧ (∀ i ∈ received,
          (∀ j ∈ received, env.encodeAsPath [j.UUID] = env.encodeAsPath [i.UUID] → j = i) →
          ((∃ x ∈ filesOf env c.FullPath received, x.Name = env.encodeAsPath [i.UUID])
              ↔ itemYielded c.FullPath i = true)
            ∧ (i.Deleted = true → ∀ x ∈ filesOf env c.FullPath received ++ bs,
                x.Name ≠ env.encodeAsPath [i.UUID])) := by
  have hst0 := staticEntries_ok cb statics st st0 hstat
  have hctx0 : st0.ctx = none := by rw [hst0]; exact hctx
  obtain ⟨received, h1, h2, h3, h4, h5⟩ :=
    collectionItems_received env cb c.FullPath c.Items [] [] st0 _ hctx0 rfl
  obtain ⟨bs, hb1, hb2⟩ := streamBaseEntries_calls env cb baseDir
    (collectionEntries env cb (some c) st0).1.1 (collectionEntries env cb (some c) st0).2
  have hseen : ∀ i ∈ received,
      (mapGet (seenAfter env [] received) (env.encodeAsPath [i.UUID])).isSome := by
    intro i hi
    exact (mapGet_seenAfter env received [] _).mpr (Or.inr ⟨i, hi, rfl⟩)
  have hbase : ∀ b ∈ bs, ∃ e, b = .base e
      ∧ ∀ i ∈ received, e.Name ≠ env.encodeAsPath [i.UUID] := by
    intro b hb
    obtain ⟨e, he1, _, _, he4⟩ := mem_survivingEntries _ _ b (hb2.subset hb)
    refine ⟨e, he1, ?_⟩
    intro i hi hname
    have hs := hseen i hi
    have h3a : (collectionEntries env cb (some c) st0).1.1 = seenAfter env [] received := h3
    rw [h3a, hname] at he4
    rw [he4] at hs
    simp at hs
  refine ⟨received, bs, h1, h2, h3, hseen, ?_, hbase, ?_⟩
  · rw [getStreamItemFunc_state env statics (some c) baseDir cb st st0 hstat, hb1]
    have h4a : (collectionEntries env cb (some c) st0).2.calls
        = st0.calls ++ filesOf env c.FullPath received := h4
    rw [h4a]
  · intro i hi huniq
    have hfile : ∀ x, x ∈ filesOf env c.FullPath received →
        x.Name = env.encodeAsPath [i.UUID] → itemYielded c.FullPath i = true := by
      intro x hx hname
      obtain ⟨j, hj1, hj2, hj3⟩ := (mem_filesOf env c.FullPath received x).mp hx
      have hji : j = i := huniq j hj1 (by rw [← hname, hj3]; rfl)
      rw [← hji]
      exact hj2
    refine ⟨⟨?_, ?_⟩, ?_⟩
    · rintro ⟨x, hx, hname⟩
      exact hfile x hx hname
    · intro hy
      exact ⟨streamingFileOf env i,
        (mem_filesOf env c.FullPath received _).mpr ⟨i, hi, hy, rfl⟩, rfl⟩
    · intro hdel x hx hname
      rcases List.mem_append.mp hx with hx | hx
      · have hy := hfile x hx hname
        simp [itemYielded, hdel] at hy
      · obtain ⟨e, he1, he2⟩ := hbase x hx
        subst he1
        exact he2 i hi hname

/-- Instance of the amended C12: folder `Inbox` reports item `q` as deleted and
a new version of item `a`, and its base directory holds the files `a`, `q` and
`r`; the callback accepts every entry. -/
theorem received_items_seen_and_yielded_witness :
    ∃ received bs,
      received <+: inboxDeletedQ.Items
      ∧ (getStreamItemFunc plainEnv [] (some inboxDeletedQ) (some inboxAQR) (fun _ _ => none)
          { calls := [], progress := { pending := [], totalBytes := 0 }, ctx := none }).2.calls
          = [] ++ filesOf plainEnv inboxDeletedQ.FullPath received ++ bs
      ∧ (∀ i ∈ received,
          (mapGet (seenAfter plainEnv [] received) (plainEnv.encodeAsPath [i.UUID])).isSome)
      ∧ (∀ b ∈ bs, ∃ e, b = .base e
          ∧ ∀ i ∈ received, e.Name ≠ plainEnv.encodeAsPath [i.UUID]) := by
  obtain ⟨received, bs, h1, _, _, h4, h5, h6, _⟩ :=
    received_items_seen_and_yielded plainEnv (fun _ _ => none) [] inboxDeletedQ
      (some inboxAQR)
      { calls := [], progress := { pending := [], totalBytes := 0 }, ctx := none }
      { calls := [], progress := { pending := [], totalBytes := 0 }, ctx := none } rfl rfl
  exact ⟨received, bs, h1, h5, h4, h6⟩

/-! ## Collections without an identifier -/

/-- The loop of `inflateCollectionTree` fails once it holds a collection that
is not deleted and has no full path or an empty one: with the error of the
missing identifier, unless the nil previous path of a deleted or moved
collection made it fail before. -/
theorem inflateCollectionLoop_no_identifier (c : Collection) (hst : c.State ≠ .DeletedState)
    (hfp : c.FullPath = none ∨ ∃ F, c.FullPath = some F ∧ F.elements = []) :
    ∀ (cs : List Collection) (roots : GoMap String treeMap)
      (up : GoMap (List String) (Option Path)), c ∈ cs →
      ∃ err, inflateCollectionLoop cs roots up = .error err
        ∧ (err = Err.new "no identifier for collection" ∨ err = nilDereference) := by
  intro cs
  induction cs with
  | nil => intro _ _ hc; exact absurd hc (List.not_mem_nil c)
  | cons s rest ih =>
    intro roots up hc
    unfold inflateCollectionLoop
    by_cases hs : s.State = .DeletedState
    · have hne : c ≠ s := fun h => hst (h ▸ hs)
      have hc1 : c ∈ rest := by
        rcases List.mem_cons.mp hc with h | h
        · exact absurd h hne
        · exact h
      simp only [hs, if_true]
      cases hp : s.PreviousPath with
      | none => exact ⟨_, rfl, Or.inr rfl⟩
      | some prev => exact ih _ _ hc1
    · simp only [hs, if_false]
      cases hreg : registerMove s up with
      | error err =>
        refine ⟨err, rfl, Or.inr ?_⟩
        unfold registerMove at hreg
        split at hreg
        · split at hreg
          · cases hreg
            rfl
          · cases hreg
        · cases hreg
      | ok up2 =>
        simp only
        cases hf : s.FullPath with
        | none => exact ⟨_, rfl, Or.inl rfl⟩
        | some fullPath =>
          simp only
          by_cases hlen : fullPath.elements.length = 0
          · simp only [hlen, if_true]
            exact ⟨_, rfl, Or.inl rfl⟩
          · simp only [hlen, if_false]
            have hne : c ≠ s := by
              intro h
              subst h
              rcases hfp with h1 | ⟨F, h1, h2⟩
              · rw [h1] at hf
                cases hf
              · rw [h1] at hf
                cases hf
                exact hlen (by simp [h2])
            have hc1 : c ∈ rest := by
              rcases List.mem_cons.mp hc with h | h
              · exact absurd h hne
              · exact h
            cases hel : fullPath.elements with
            | nil => exact absurd (by simp [hel]) hlen
            | cons p0 ps =>
              simp only [getTreeNode]
              exact ih _ _ hc1

/-- C15, refuted as stated: the only collection of the list is the deleted
folder `Drafts`, which has no `FullPath`; `inflateCollectionTree` returns no
error but an empty tree and the entry of the deleted path. -/
theorem deleted_collection_without_full_path_accepted :
    deletedDrafts.FullPath = none
      ∧ inflateCollectionTree [deletedDrafts]
        = .ok ([], [(samplePrefix ++ ["Drafts"], none)]) :=
  ⟨rfl, rfl⟩

/-- C15, amended: for every list of collections that contains a collection
which is not deleted and whose `FullPath` is nil or has no elements,
`inflateCollectionTree` fails and returns no tree: with the error "no
identifier for collection", unless the nil previous path of a deleted or moved
collection stopped it before. -/
theorem inflateCollectionTree_no_identifier (cs : List Collection) (c : Collection)
    (hc : c ∈ cs) (hst : c.State ≠ .DeletedState)
    (hfp : c.FullPath = none ∨ ∃ F, c.FullPath = some F ∧ F.elements = []) :
    ∃ err, inflateCollectionTree cs = .error err
      ∧ (err = Err.new "no identifier for collection" ∨ err = nilDereference) :=
  inflateCollectionLoop_no_identifier c hst hfp cs [] [] hc

/-- Instance of the amended C15: the unchanged folder `Inbox` followed by a
new collection without `FullPath`. -/
theorem inflateCollectionTree_no_identifier_witness :
    ∃ err, inflateCollectionTree [unchangedInbox, pathlessCollection] = .error err
      ∧ (err = Err.new "no identifier for collection" ∨ err = nilDereference) :=
  inflateCollectionTree_no_identifier [unchangedInbox, pathlessCollection] pathlessCollection
    (by decide) (by decide) (Or.inl rfl)

/-! ## Roots of the merged tree -/

/-- C16, refuted as stated: the only collection reports the deleted folder
`Drafts` and there is no base snapshot. The merged tree has no root, and
`inflateDirTree` returns a nil directory without an error. -/
theorem inflateDirTree_nil_directory_without_error :
    inflateRoots plainEnv (fun _ => .ok (snapshotOf draftsInbox)) [] [deletedDrafts] = .ok []
      ∧ inflateDirTree plainEnv (fun _ => .ok (snapshotOf draftsInbox)) [] [deletedDrafts]
        = .ok none :=
  ⟨rfl, rfl⟩

/-- C16, amended: whenever `inflateDirTree` returns without error, the merged
tree has at most one root. When it has one, the returned value is the
directory built from that root, which is not nil; when it has none, the
returned directory is nil. -/
theorem inflateDirTree_returns_the_root (env : Env) (loader : String → Except Err Entry)
    (bases : List IncrementalBase) (cs : List Collection) (res : Option KopiaDir)
    (h : inflateDirTree env loader bases cs = .ok res) :
    ∃ roots, inflateRoots env loader bases cs = .ok roots
      ∧ ((roots = [] ∧ res = none)
        ∨ ∃ dirName dir k, roots = [(dirName, dir)]
            ∧ buildKopiaDirs env dirName dir = .ok k ∧ res = some k) := by
  obtain ⟨roots, h1, h2, h3, h4⟩ := inflateDirTree_roots env loader bases cs res h
  refine ⟨roots, h1, ?_⟩
  match roots, h2, h3, h4 with
  | [], _, h3, _ => exact Or.inl ⟨rfl, h3 rfl⟩
  | [(dirName, dir)], _, _, h4 =>
    obtain ⟨k, hk1, hk2⟩ := h4 dirName dir rfl
    exact Or.inr ⟨dirName, dir, k, rfl, hk1, hk2⟩

/-- Instance of the amended C16: the unchanged folder `Inbox` over the base
with `Drafts` and `Inbox` gives one root, `tenant`, and its directory is
returned. -/
theorem inflateDirTree_returns_the_root_witness :
    ∃ roots, inflateRoots plainEnv (fun _ => .ok (snapshotOf draftsInbox)) [sampleBase]
        [unchangedInbox] = .ok roots
      ∧ ((roots = [] ∧ ((inflateDirTree plainEnv (fun _ => .ok (snapshotOf draftsInbox))
            [sampleBase] [unchangedInbox]).toOption.getD none) = none)
        ∨ ∃ dirName dir k, roots = [(dirName, dir)]
            ∧ buildKopiaDirs plainEnv dirName dir = .ok k
            ∧ ((inflateDirTree plainEnv (fun _ => .ok (snapshotOf draftsInbox)) [sampleBase]
                [unchangedInbox]).toOption.getD none) = some k) :=
  inflateDirTree_returns_the_root plainEnv (fun _ => .ok (snapshotOf draftsInbox))
    [sampleBase] [unchangedInbox] _ rfl

/-- Walking a path keeps every root and makes the first element of the path a
root. -/
theorem getTreeNode_roots (f : treeMap → treeMap) (roots roots1 : GoMap String treeMap)
    (p0 : String) (ps : List String) (h : getTreeNode roots (p0 :: ps) f = some roots1) :
    mapGet roots1 p0 ≠ none ∧ ∀ k, mapGet roots k ≠ none → mapGet roots1 k ≠ none := by
  simp only [getTreeNode, Option.some.injEq] at h
  subst h
  refine ⟨by simp [mapGet_mapSet], ?_⟩
  intro k hk
  rw [mapGet_mapSet]
  split
  · simp
  · exact hk

theorem assignBaseDir_roots (roots : GoMap String treeMap) (a : List String × Entry)
    (k : String) (hk : mapGet roots k ≠ none) : mapGet (assignBaseDir roots a) k ≠ none := by
  obtain ⟨p, d⟩ := a
  cases p with
  | nil => simpa [assignBaseDir, getTreeNode] using hk
  | cons p0 ps =>
    have h := (getTreeNode_roots (treeMap.setBaseDir d) roots _ p0 ps rfl).2 k hk
    simpa [assignBaseDir, getTreeNode] using h

/-- The assignments of placements keep every root. -/
theorem applyPlacements_roots (k : String) :
    ∀ (ps : List Placement) (roots : GoMap String treeMap),
      mapGet roots k ≠ none → mapGet (applyPlacements ps roots) k ≠ none := by
  intro ps roots hk
  unfold applyPlacements
  generalize ps.filterMap Placement.assignment = l
  induction l generalizing roots with
  | nil => exact hk
  | cons a rest ih => exact ih _ (assignBaseDir_roots roots a k hk)

/-- A successful loop of `inflateCollectionTree` keeps every root, and the
first element of the full path of every collection that is not deleted is a
root. -/
theorem inflateCollectionLoop_roots :
    ∀ (cs : List Collection) (roots roots1 : GoMap String treeMap)
      (up up1 : GoMap (List String) (Option Path)),
      inflateCollectionLoop cs roots up = .ok (roots1, up1) →
      (∀ k, mapGet roots k ≠ none → mapGet roots1 k ≠ none)
        ∧ ∀ c ∈ cs, c.State ≠ .DeletedState → ∀ F, c.FullPath = some F →
            ∃ p0, F.elements.head? = some p0 ∧ mapGet roots1 p0 ≠ none := by
  intro cs
  induction cs with
  | nil =>
    intro roots roots1 up up1 h
    simp only [inflateCollectionLoop, Except.ok.injEq, Prod.mk.injEq] at h
    obtain ⟨rfl, rfl⟩ := h
    exact ⟨fun _ h => h, fun c hc => absurd hc (List.not_mem_nil c)⟩
  | cons s rest ih =>
    intro roots roots1 up up1 h
    rcases inflateCollectionLoop_cons s rest roots roots1 up up1 h with
      ⟨hst, prev, hprev, hrec⟩ | ⟨hst, up2, fullPath, roots2, hreg, hfull, hne, hget, hrec⟩
    · obtain ⟨h1, h2⟩ := ih _ _ _ _ hrec
      refine ⟨h1, ?_⟩
      intro c hc hcs F hF
      rcases List.mem_cons.mp hc with rfl | hc
      · exact absurd hst hcs
      · exact h2 c hc hcs F hF
    · obtain ⟨h1, h2⟩ := ih _ _ _ _ hrec
      cases hel : fullPath.elements with
      | nil => exact absurd hel hne
      | cons p0 ps =>
        rw [hel] at hget
        obtain ⟨g1, g2⟩ := getTreeNode_roots _ roots roots2 p0 ps hget
        refine ⟨fun k hk => h1 k (g2 k hk), ?_⟩
        intro c hc hcs F hF
        rcases List.mem_cons.mp hc with rfl | hc
        · rw [hfull] at hF
          cases hF
          exact ⟨p0, by simp [hel], h1 p0 g1⟩
        · exact h2 c hc hcs F hF

theorem two_keys_length {ν : Type} (m : GoMap String ν) (a b : String) (hab : a ≠ b)
    (ha : mapGet m a ≠ none) (hb : mapGet m b ≠ none) : 1 < m.length := by
  match m, ha, hb with
  | [], ha, _ => simp [mapGet] at ha
  | [(k, v)], ha, hb =>
    by_cases h1 : k = a
    · subst h1
      simp [mapGet, hab] at hb
    · simp [mapGet, h1] at ha
  | _ :: _ :: _, _, _ => simp

/-- C17. If the tree has more than one root after the collections and the
base snapshots were inflated, `inflateDirTree` returns the error "multiple
root directories" and no directory; this is the case whenever two collections
that are not deleted have full paths with different first elements. -/
theorem inflateDirTree_multiple_roots (env : Env) (loader : String → Except Err Entry)
    (bases : List IncrementalBase) (cs : List Collection) (roots : GoMap String treeMap)
    (h : inflateRoots env loader bases cs = .ok roots) :
    (1 < roots.length →
        inflateDirTree env loader bases cs = .error (Err.new "multiple root directories"))
      ∧ ∀ c1 ∈ cs, ∀ c2 ∈ cs, c1.State ≠ .DeletedState → c2.State ≠ .DeletedState →
          ∀ F1 F2, c1.FullPath = some F1 → c2.FullPath = some F2 →
            F1.elements.head? ≠ F2.elements.head? → 1 < roots.length := by
  constructor
  · intro hlen
    unfold inflateDirTree
    rw [h]
    simp [hlen]
  · intro c1 hc1 c2 hc2 hs1 hs2 F1 F2 hF1 hF2 hne
    obtain ⟨roots0, up, hcoll, hroots⟩ := inflateRoots_eq_apply env loader bases cs roots h
    obtain ⟨_, hr⟩ := inflateCollectionLoop_roots cs [] roots0 [] up hcoll
    obtain ⟨a, ha1, ha2⟩ := hr c1 hc1 hs1 F1 hF1
    obtain ⟨b, hb1, hb2⟩ := hr c2 hc2 hs2 F2 hF2
    have hab : a ≠ b := by
      intro hab
      apply hne
      rw [ha1, hb1, hab]
    rw [hroots]
    exact two_keys_length _ a b hab (applyPlacements_roots a _ _ ha2)
      (applyPlacements_roots b _ _ hb2)

/-- Instance of C17: the folder `Inbox` of tenant `tenant` and the folder
`Inbox` of tenant `other` give two roots. -/
theorem inflateDirTree_multiple_roots_witness :
    inflateDirTree plainEnv (fun _ => .ok (snapshotOf onlyInbox)) [sampleBase]
        [unchangedInbox, otherTenantInbox] = .error (Err.new "multiple root directories") :=
  (inflateDirTree_multiple_roots plainEnv (fun _ => .ok (snapshotOf onlyInbox)) [sampleBase]
    [unchangedInbox, otherTenantInbox] _ rfl).1 (by decide)

/-! ## Where the collection tree holds the collections -/

/-- What a successful loop of `inflateCollectionTree` adds: a collection held
at a path is a collection of the list that is not deleted and has that full
path; a node lies on the full path of such a collection; and a value of
`updatedPaths` was registered by a deleted collection (nil) or a moved one
(its full path) under its previous path. -/
theorem inflateCollectionLoop_tree :
    ∀ (cs : List Collection) (roots roots1 : GoMap String treeMap)
      (up up1 : GoMap (List String) (Option Path)),
      inflateCollectionLoop cs roots up = .ok (roots1, up1) →
      (∀ q c, collectionAt roots1 q = some c → collectionAt roots q = some c
          ∨ (c ∈ cs ∧ c.State ≠ .DeletedState ∧ ∃ F, c.FullPath = some F ∧ F.elements = q))
        ∧ (∀ q, findNode roots1 q ≠ none → findNode roots q ≠ none
            ∨ ∃ c ∈ cs, c.State ≠ .DeletedState ∧ ∃ F, c.FullPath = some F ∧ q <+: F.elements)
        ∧ (∀ k v, mapGet up1 k = some v → mapGet up k = some v
            ∨ ∃ c ∈ cs, ∃ prev, c.PreviousPath = some prev ∧ prev.elements = k
                ∧ ((c.State = .DeletedState ∧ v = none)
                  ∨ (c.State = .MovedState ∧ v = c.FullPath))) := by
  intro cs
  induction cs with
  | nil =>
    intro roots roots1 up up1 h
    simp only [inflateCollectionLoop, Except.ok.injEq, Prod.mk.injEq] at h
    obtain ⟨rfl, rfl⟩ := h
    exact ⟨fun _ _ h => Or.inl h, fun _ h => Or.inl h, fun _ _ h => Or.inl h⟩
  | cons s rest ih =>
    intro roots roots1 up up1 h
    rcases inflateCollectionLoop_cons s rest roots roots1 up up1 h with
      ⟨hst, prev, hprev, hrec⟩ | ⟨hst, up2, fullPath, roots2, hreg, hfull, _, hget, hrec⟩
    · obtain ⟨a, n, u⟩ := ih _ _ _ _ hrec
      refine ⟨?_, ?_, ?_⟩
      · intro q c hq
        rcases a q c hq with h1 | ⟨h1, h2⟩
        · exact Or.inl h1
        · exact Or.inr ⟨List.mem_cons_of_mem _ h1, h2⟩
      · intro q hq
        rcases n q hq with h1 | ⟨c, hc, h1⟩
        · exact Or.inl h1
        · exact Or.inr ⟨c, List.mem_cons_of_mem _ hc, h1⟩
      · intro k v hk
        rcases u k v hk with h1 | ⟨c, hc, h1⟩
        · rw [mapGet_mapSet] at h1
          split at h1
          · rename_i hke
            simp only [Option.some.injEq] at h1
            exact Or.inr ⟨s, List.mem_cons_self _ _, prev, hprev, hke, Or.inl ⟨hst, h1.symm⟩⟩
          · exact Or.inl h1
        · exact Or.inr ⟨c, List.mem_cons_of_mem _ hc, h1⟩
    · obtain ⟨a, n, u⟩ := ih _ _ _ _ hrec
      have hreg2 := registerMove_cases s up up2 hreg
      refine ⟨?_, ?_, ?_⟩
      · intro q c hq
        rcases a q c hq with h1 | ⟨h1, h2⟩
        · rw [collectionAt_getTreeNode roots roots2 s fullPath.elements q hget] at h1
          split at h1
          · rename_i hqe
            simp only [Option.some.injEq] at h1
            subst h1
            exact Or.inr ⟨List.mem_cons_self _ _, hst, fullPath, hfull, hqe.symm⟩
          · exact Or.inl h1
        · exact Or.inr ⟨List.mem_cons_of_mem _ h1, h2⟩
      · intro q hq
        rcases n q hq with h1 | ⟨c, hc, h1⟩
        · rcases findNode_getTreeNode_isSome _ (setCollection_childDirs s) _ _ _ q hget h1
            with h2 | h2
          · exact Or.inl h2
          · exact Or.inr ⟨s, List.mem_cons_self _ _, hst, fullPath, hfull, h2⟩
        · exact Or.inr ⟨c, List.mem_cons_of_mem _ hc, h1⟩
      · intro k v hk
        rcases u k v hk with h1 | ⟨c, hc, h1⟩
        · rcases hreg2 with ⟨hm, prev, hprev, rfl⟩ | ⟨_, rfl⟩
          · rw [mapGet_mapSet] at h1
            split at h1
            · rename_i hke
              simp only [Option.some.injEq] at h1
              exact Or.inr ⟨s, List.mem_cons_self _ _, prev, hprev, hke, Or.inr ⟨hm, h1.symm⟩⟩
            · exact Or.inl h1
          · exact Or.inl h1
        · exact Or.inr ⟨c, List.mem_cons_of_mem _ hc, h1⟩

/-- After a successful loop of `inflateCollectionTree` the node at `Q` holds
the only collection of the list that is not deleted and has the full path
`Q`; when there is none, it holds what it held before. -/
theorem inflateCollectionLoop_holds (c : Collection) (Q : List String) :
    ∀ (cs : List Collection) (roots roots1 : GoMap String treeMap)
      (up up1 : GoMap (List String) (Option Path)),
      inflateCollectionLoop cs roots up = .ok (roots1, up1) →
      (∀ c1 ∈ cs, c1.State ≠ .DeletedState → ∀ F, c1.FullPath = some F → F.elements = Q →
        c1 = c) →
      collectionAt roots1 Q = some c
        ∨ (collectionAt roots1 Q = collectionAt roots Q
          ∧ ∀ c1 ∈ cs, c1.State ≠ .DeletedState → ∀ F, c1.FullPath = some F →
              F.elements ≠ Q) := by
  intro cs
  induction cs with
  | nil =>
    intro roots roots1 up up1 h _
    simp only [inflateCollectionLoop, Except.ok.injEq, Prod.mk.injEq] at h
    obtain ⟨rfl, rfl⟩ := h
    exact Or.inr ⟨rfl, fun c1 hc1 => absurd hc1 (List.not_mem_nil c1)⟩
  | cons s rest ih =>
    intro roots roots1 up up1 h huniq
    have huniq1 : ∀ c1 ∈ rest, c1.State ≠ .DeletedState → ∀ F, c1.FullPath = some F →
        F.elements = Q → c1 = c := fun c1 hc1 => huniq c1 (List.mem_cons_of_mem _ hc1)
    rcases inflateCollectionLoop_cons s rest roots roots1 up up1 h with
      ⟨hst, prev, hprev, hrec⟩ | ⟨hst, up2, fullPath, roots2, hreg, hfull, _, hget, hrec⟩
    · rcases ih _ _ _ _ hrec huniq1 with h1 | ⟨h1, h2⟩
      · exact Or.inl h1
      · refine Or.inr ⟨h1, ?_⟩
        intro c1 hc1 hs1 F hF
        rcases List.mem_cons.mp hc1 with rfl | hc1
        · exact absurd hst hs1
        · exact h2 c1 hc1 hs1 F hF
    · rcases ih _ _ _ _ hrec huniq1 with h1 | ⟨h1, h2⟩
      · exact Or.inl h1
      · rw [collectionAt_getTreeNode roots roots2 s fullPath.elements Q hget] at h1
        by_cases hQ : Q = fullPath.elements
        · left
          rw [h1, if_pos hQ]
          rw [huniq s (List.mem_cons_self _ _) hst fullPath hfull hQ.symm]
        · right
          rw [if_neg hQ] at h1
          refine ⟨h1, ?_⟩
          intro c1 hc1 hs1 F hF
          rcases List.mem_cons.mp hc1 with rfl | hc1
          · rw [hfull] at hF
            cases hF
            exact fun h => hQ h.symm
          · exact h2 c1 hc1 hs1 F hF


/-- A successful loop of `inflateCollectionTree` met no deleted collection
without a previous path. -/
theorem inflateCollectionLoop_deleted_prev :
    ∀ (cs : List Collection) (roots roots1 : GoMap String treeMap)
      (up up1 : GoMap (List String) (Option Path)),
      inflateCollectionLoop cs roots up = .ok (roots1, up1) →
      ∀ c ∈ cs, c.State = .DeletedState → ∃ P, c.PreviousPath = some P := by
  intro cs
  induction cs with
  | nil => intro _ _ _ _ _ c hc; exact absurd hc (List.not_mem_nil c)
  | cons s rest ih =>
    intro roots roots1 up up1 h c hc hst
    rcases inflateCollectionLoop_cons s rest roots roots1 up up1 h with
      ⟨_, prev, hprev, hrec⟩ | ⟨hns, _, _, _, _, _, _, _, hrec⟩
    · rcases List.mem_cons.mp hc with rfl | hc
      · exact ⟨prev, hprev⟩
      · exact ih _ _ _ _ hrec c hc hst
    · rcases List.mem_cons.mp hc with rfl | hc
      · exact absurd hst hns
      · exact ih _ _ _ _ hrec c hc hst

/-- C18. After `inflateCollectionTree` succeeds: a node that holds a
collection `c` is the node at the element sequence of `c.FullPath()`, and `c`
is a collection of the list that is not deleted; every collection of the list
that is not deleted and shares its full path with no other such collection is
held by the node at its full path; every node of the tree lies on the full
path of a collection that is not deleted, so deleted collections create no
node; and a deleted collection registers its previous path in `updatedPaths`,
with the value nil unless a moved collection has the same previous path. -/
theorem inflateCollectionTree_holds_collections (cs : List Collection)
    (roots : GoMap String treeMap) (up : GoMap (List String) (Option Path))
    (h : inflateCollectionTree cs = .ok (roots, up)) :
    (∀ q c, collectionAt roots q = some c →
        c ∈ cs ∧ c.State ≠ .DeletedState ∧ ∃ F, c.FullPath = some F ∧ F.elements = q)
      ∧ (∀ c ∈ cs, c.State ≠ .DeletedState → ∀ F, c.FullPath = some F →
          (∀ c1 ∈ cs, c1.State ≠ .DeletedState → ∀ F1, c1.FullPath = some F1 →
            F1.elements = F.elements → c1 = c) →
          collectionAt roots F.elements = some c)
      ∧ (∀ q, findNode roots q ≠ none →
          ∃ c ∈ cs, c.State ≠ .DeletedState ∧ ∃ F, c.FullPath = some F ∧ q <+: F.elements)
      ∧ (∀ c ∈ cs, c.State = .DeletedState →
          ∃ P, c.PreviousPath = some P ∧ mapGet up P.elements ≠ none
            ∧ ((∀ c1 ∈ cs, c1.State = .MovedState → ∀ P1, c1.PreviousPath = some P1 →
                  P1.elements ≠ P.elements) →
                mapGet up P.elements = some none)) := by
  have hloop : inflateCollectionLoop cs [] [] = .ok (roots, up) := h
  obtain ⟨a, n, u⟩ := inflateCollectionLoop_tree cs [] roots [] up hloop
  obtain ⟨_, k2, _, _⟩ := inflateCollectionLoop_facts cs [] roots [] up hloop
  refine ⟨?_, ?_, ?_, ?_⟩
  · intro q c hq
    rcases a q c hq with h1 | h1
    · cases q <;> simp [collectionAt, findNode, mapGet] at h1
    · exact h1
  · intro c hc hst F hF huniq
    rcases inflateCollectionLoop_holds c F.elements cs [] roots [] up hloop huniq with h1 | h1
    · exact h1
    · exact absurd rfl (h1.2 c hc hst F hF)
  · intro q hq
    rcases n q hq with h1 | h1
    · cases q <;> simp [findNode, mapGet] at h1
    · exact h1
  · intro c hc hst
    obtain ⟨P, hP⟩ := inflateCollectionLoop_deleted_prev cs [] roots [] up hloop c hc hst
    have hreg := k2 c hc (Or.inl hst) P hP
    refine ⟨P, hP, hreg, ?_⟩
    intro hmoved
    cases hv : mapGet up P.elements with
    | none => exact absurd hv hreg
    | some v =>
      rcases u _ v hv with h1 | ⟨c1, hc1, prev, hprev, hel, h2 | h2⟩
      · simp [mapGet] at h1
      · rw [h2.2]
      · exact absurd hel (hmoved c1 hc1 h2.1 prev hprev)

/-- Instance of C18: the deleted folder `Drafts` and the unchanged folder
`Inbox`. -/
theorem inflateCollectionTree_holds_collections_witness :
    ∃ roots up, inflateCollectionTree [deletedDrafts, unchangedInbox] = .ok (roots, up)
      ∧ collectionAt roots (samplePrefix ++ ["Inbox"]) = some unchangedInbox
      ∧ (∀ q, findNode roots q ≠ none →
          ∃ c ∈ [deletedDrafts, unchangedInbox], c.State ≠ .DeletedState
            ∧ ∃ F, c.FullPath = some F ∧ q <+: F.elements)
      ∧ mapGet up (samplePrefix ++ ["Drafts"]) = some none := by
  obtain ⟨_, h2, h3, h4⟩ := inflateCollectionTree_holds_collections
    [deletedDrafts, unchangedInbox] _ _ rfl
  refine ⟨_, _, rfl, ?_, h3, ?_⟩
  · exact h2 unchangedInbox (by decide) (by decide) _ rfl (by
      intro c1 hc1 hs1 F1 hF1 _
      simp only [List.mem_cons, List.mem_singleton, List.not_mem_nil, or_false] at hc1
      rcases hc1 with rfl | rfl
      · exact absurd rfl hs1
      · rfl)
  · obtain ⟨P, hP, _, hnil⟩ := h4 deletedDrafts (by decide) rfl
    simp only [deletedDrafts, Option.some.injEq] at hP
    subst hP
    exact hnil (by
      intro c1 hc1 hm
      simp only [List.mem_cons, List.mem_singleton, List.not_mem_nil, or_false] at hc1
      rcases hc1 with rfl | rfl
      · simp [deletedDrafts] at hm
      · simp [unchangedInbox] at hm)

/-! ## Depth bound of the base traversal -/

theorem currentPathOf_ne_nil (up : GoMap (List String) (Option Path))
    (hup : ∀ k F, mapGet up k = some (some F) → F.elements ≠ [])
    (old : List String) (new : Option (List String)) (dirName : String) (p : List String)
    (h : currentPathOf up old new dirName = some p) : p ≠ [] := by
  unfold currentPathOf at h
  simp only at h
  split at h
  · cases h
  · rename_i upb hget
    cases h
    exact hup _ _ hget
  · cases new with
    | none => cases h
    | some n =>
      simp only [Option.map_some', Option.some.injEq, builderAppend] at h
      rw [← h]
      simp

mutual
/-- Barring other errors, `traverseBaseDir` called with `depth` on a directory
succeeds when the deepest directory below it stays under the bound, and fails
with the error of the tree too tall otherwise. -/
theorem traverseBaseDir_depth (env : Env) (up : GoMap (List String) (Option Path))
    (hup : ∀ k F, mapGet up k = some (some F) → F.elements ≠ []) :
    ∀ (dir : Entry) (depth : Nat) (old : List String) (new : Option (List String))
      (roots : GoMap String treeMap), dir.namesDecode env = true →
      (depth + dir.deepestDir < maxInflateTraversalDepth →
          ∃ roots1, traverseBaseDir env up depth old new dir roots = .ok roots1)
        ∧ (dir.isDir = true → maxInflateTraversalDepth ≤ depth + dir.deepestDir →
            ∃ e, traverseBaseDir env up depth old new dir roots = .error e
              ∧ e.Cause = treeTooTall)
  | .file _, depth, old, new, roots => by
    intro _
    exact ⟨fun _ => ⟨roots, by simp [traverseBaseDir]⟩, fun h => by simp [Entry.isDir] at h⟩
  | .dir name entries, depth, old, new, roots => by
    intro hdec
    by_cases hd : depth ≥ maxInflateTraversalDepth
    · have hres : traverseBaseDir env up depth old new (.dir name entries) roots
          = .error treeTooTall := by
        simp [traverseBaseDir, hd, treeTooTall]
      refine ⟨fun hlt => ?_, fun _ _ => ⟨_, hres, rfl⟩⟩
      omega
    · simp only [Entry.namesDecode, Bool.and_eq_true] at hdec
      obtain ⟨hname, hbelow⟩ := hdec
      cases hdn : env.decodeElement name with
      | error err => simp [hdn] at hname
      | ok dirName =>
        have ih := traverseEntries_depth env up hup entries depth (builderAppend old dirName)
          (currentPathOf up old new dirName) false roots (by omega) hbelow
        simp only [Entry.deepestDir]
        constructor
        · intro hlt
          obtain ⟨⟨hasItems, roots2⟩, hr⟩ := ih.1 hlt
          simp only [traverseBaseDir, hd, if_false, hdn, hr]
          cases hcur : currentPathOf up old new dirName with
          | none => exact ⟨_, rfl⟩
          | some p =>
            simp only
            cases hasItems with
            | false => exact ⟨roots2, by simp⟩
            | true =>
              have hp := currentPathOf_ne_nil up hup old new dirName p hcur
              cases p with
              | nil => exact absurd rfl hp
              | cons p0 ps => simp [getTreeNode]
        · intro _ hge
          obtain ⟨e, hr, he⟩ := ih.2 hge
          refine ⟨Err.wrap e "traversing base directory", ?_, by simpa [Err.Cause] using he⟩
          simp only [traverseBaseDir, hd, if_false, hdn, hr]
/-- The same for the iteration over the entries of a directory visited with
a `depth` under the bound. -/
theorem traverseEntries_depth (env : Env) (up : GoMap (List String) (Option Path))
    (hup : ∀ k F, mapGet up k = some (some F) → F.elements ≠ []) :
    ∀ (entries : List Entry) (depth : Nat) (old : List String) (cur : Option (List String))
      (hasItems : Bool) (roots : GoMap String treeMap), depth < maxInflateTraversalDepth →
      namesDecodeBelow env entries = true →
      (depth + deepestDirBelow entries < maxInflateTraversalDepth →
          ∃ r, traverseEntries env up depth old cur entries hasItems roots = .ok r)
        ∧ (maxInflateTraversalDepth ≤ depth + deepestDirBelow entries →
            ∃ e, traverseEntries env up depth old cur entries hasItems roots = .error e
              ∧ e.Cause = treeTooTall)
  | [], depth, old, cur, hasItems, roots => by
    intro hdepth _
    refine ⟨fun _ => ⟨(hasItems, roots), by simp [traverseEntries]⟩, fun h => ?_⟩
    simp only [deepestDirBelow] at h
    omega
  | .file n :: rest, depth, old, cur, hasItems, roots => by
    intro hdepth hdec
    simp only [namesDecodeBelow] at hdec
    have ih := traverseEntries_depth env up hup rest depth old cur true roots hdepth hdec
    simpa only [traverseEntries, deepestDirBelow] using ih
  | .dir n es :: rest, depth, old, cur, hasItems, roots => by
    intro hdepth hdec
    simp only [namesDecodeBelow, Bool.and_eq_true] at hdec
    obtain ⟨hd1, hd2⟩ := hdec
    have ih1 := traverseBaseDir_depth env up hup (.dir n es) (depth + 1) old cur roots hd1
    simp only [deepestDirBelow]
    by_cases hchild : depth + 1 + Entry.deepestDir (.dir n es) < maxInflateTraversalDepth
    · obtain ⟨roots2, hr⟩ := ih1.1 hchild
      have ih2 := traverseEntries_depth env up hup rest depth old cur hasItems roots2 hdepth
        hd2
      simp only [traverseEntries, hr]
      constructor
      · intro hlt
        exact ih2.1 (by omega)
      · intro hge
        exact ih2.2 (by omega)
    · obtain ⟨e, hr, he⟩ := ih1.2 rfl (by omega)
      simp only [traverseEntries, hr]
      exact ⟨fun hlt => by omega, fun _ => ⟨e, rfl, he⟩⟩
end

mutual
/-- When decoding never fails with the error of the tree too tall,
`traverseBaseDir` fails with that error only if a directory lies at the bound
or deeper. -/
theorem traverseBaseDir_too_tall (env : Env) (up : GoMap (List String) (Option Path))
    (hdecErr : ∀ s e, env.decodeElement s = .error e → e.Cause ≠ treeTooTall) :
    ∀ (dir : Entry) (depth : Nat) (old : List String) (new : Option (List String))
      (roots : GoMap String treeMap) (e : Err),
      traverseBaseDir env up depth old new dir roots = .error e → e.Cause = treeTooTall →
      maxInflateTraversalDepth ≤ depth + dir.deepestDir
  | .file _, depth, old, new, roots, e => by
    intro h _
    simp [traverseBaseDir] at h
  | .dir name entries, depth, old, new, roots, e => by
    intro h he
    unfold traverseBaseDir at h
    split at h
    · rename_i hd
      omega
    · split at h
      · rename_i err hdn
        cases h
        exact absurd (by simpa [Err.Cause] using he) (hdecErr name err hdn)
      · rename_i dirName hdn
        simp only at h
        split at h
        · rename_i err htr
          cases h
          simp only [Entry.deepestDir]
          exact traverseEntries_too_tall env up hdecErr entries depth _ _ false roots err htr
            (by simpa [Err.Cause] using he)
        · split at h
          · split at h
            · split at h
              · cases h
                simp [Err.Cause, treeTooTall] at he
              · cases h
            · cases h
          · cases h
/-- The same for the iteration over the entries of a directory. -/
theorem traverseEntries_too_tall (env : Env) (up : GoMap (List String) (Option Path))
    (hdecErr : ∀ s e, env.decodeElement s = .error e → e.Cause ≠ treeTooTall) :
    ∀ (entries : List Entry) (depth : Nat) (old : List String) (cur : Option (List String))
      (hasItems : Bool) (roots : GoMap String treeMap) (e : Err),
      traverseEntries env up depth old cur entries hasItems roots = .error e →
      e.Cause = treeTooTall → maxInflateTraversalDepth ≤ depth + deepestDirBelow entries
  | [], depth, old, cur, hasItems, roots, e => by
    intro h _
    simp [traverseEntries] at h
  | .file n :: rest, depth, old, cur, hasItems, roots, e => by
    intro h he
    simp only [traverseEntries] at h
    simpa only [deepestDirBelow] using
      traverseEntries_too_tall env up hdecErr rest depth old cur true roots e h he
  | .dir n es :: rest, depth, old, cur, hasItems, roots, e => by
    intro h he
    simp only [traverseEntries] at h
    simp only [deepestDirBelow]
    split at h
    · rename_i err htr
      cases h
      have := traverseBaseDir_too_tall env up hdecErr (.dir n es) (depth + 1) old cur roots e
        htr he
      omega
    · rename_i roots2 htr
      have := traverseEntries_too_tall env up hdecErr rest depth old cur hasItems roots2 e h he
      omega
end

theorem deepestDir_nestedDirs : ∀ n, (nestedDirs n).deepestDir = n
  | 0 => by simp [nestedDirs, Entry.deepestDir, deepestDirBelow]
  | n + 1 => by
    have ih := deepestDir_nestedDirs n
    cases hn : nestedDirs n with
    | file f => cases n <;> simp [nestedDirs] at hn
    | dir d es =>
      rw [hn] at ih
      simp [nestedDirs, hn, Entry.deepestDir, deepestDirBelow, ih] at ih ⊢
      exact ih

theorem namesDecode_nestedDirs : ∀ n, (nestedDirs n).namesDecode plainEnv = true
  | 0 => by simp [nestedDirs, Entry.namesDecode, namesDecodeBelow, plainEnv]
  | n + 1 => by
    have ih := namesDecode_nestedDirs n
    cases hn : nestedDirs n with
    | file f => cases n <;> simp [nestedDirs] at hn
    | dir d es =>
      rw [hn] at ih
      simp [nestedDirs, hn, Entry.namesDecode, namesDecodeBelow, plainEnv] at ih ⊢
      exact ih

/-- C19. Depth bound of `traverseBaseDir` started at depth 0 on a base
directory, which is a total function of the finite tree. A directory whose
deepest directory lies at most 499 levels below it is never refused with the
error of the tree too tall (decoding taken not to fail with that very error).
Barring other errors, that is when the names of all directories decode and no
moved path is empty, the traversal fails with the error of the tree too tall
exactly when the tree holds a directory 500 or more levels below the start,
and succeeds when the deepest directory lies at most 499 levels below. -/
theorem traverseBaseDir_depth_bound (env : Env) (up : GoMap (List String) (Option Path))
    (old : List String) (new : Option (List String)) (name : String) (entries : List Entry)
    (roots : GoMap String treeMap) :
    ((∀ s e, env.decodeElement s = .error e → e.Cause ≠ treeTooTall) →
        (Entry.dir name entries).deepestDir ≤ 499 →
        ∀ e, traverseBaseDir env up 0 old new (.dir name entries) roots = .error e →
          e.Cause ≠ treeTooTall)
      ∧ ((Entry.dir name entries).namesDecode env = true →
          (∀ k F, mapGet up k = some (some F) → F.elements ≠ []) →
          ((∃ e, traverseBaseDir env up 0 old new (.dir name entries) roots = .error e
                ∧ e.Cause = treeTooTall)
              ↔ 500 ≤ (Entry.dir name entries).deepestDir)
            ∧ ((Entry.dir name entries).deepestDir ≤ 499 →
                ∃ roots1, traverseBaseDir env up 0 old new (.dir name entries) roots
                  = .ok roots1)) := by
  constructor
  · intro hdecErr hle e h he
    have := traverseBaseDir_too_tall env up hdecErr (.dir name entries) 0 old new roots e h he
    simp only [maxInflateTraversalDepth] at this
    omega
  · intro hdec hup
    have h := traverseBaseDir_depth env up hup (.dir name entries) 0 old new roots hdec
    simp only [maxInflateTraversalDepth, Nat.zero_add] at h
    refine ⟨⟨?_, fun hge => h.2 rfl hge⟩, fun hle => h.1 (by omega)⟩
    rintro ⟨e, he, _⟩
    by_contra hlt
    obtain ⟨roots1, hok⟩ := h.1 (by omega)
    rw [hok] at he
    cases he

/-- Instance of C19: a chain of 501 directories is refused, a chain of 500
directories is traversed. -/
theorem traverseBaseDir_depth_bound_witness :
    (∃ e, traverseBaseDir plainEnv [] 0 [] (some []) (.dir "d" [nestedDirs 499]) [] = .error e
        ∧ e.Cause = treeTooTall)
      ∧ ∃ roots1, traverseBaseDir plainEnv [] 0 [] (some []) (.dir "d" [nestedDirs 498]) []
          = .ok roots1 :=
  ⟨((traverseBaseDir_depth_bound plainEnv [] [] (some []) "d" [nestedDirs 499] []).2
      (namesDecode_nestedDirs 500) (fun _ _ h => by simp [mapGet] at h)).1.mpr
      (Nat.le_of_eq (deepestDir_nestedDirs 500).symm),
    ((traverseBaseDir_depth_bound plainEnv [] [] (some []) "d" [nestedDirs 498] []).2
      (namesDecode_nestedDirs 499) (fun _ _ h => by simp [mapGet] at h)).2
      (Nat.le_of_eq (deepestDir_nestedDirs 499))⟩

/-! ## Finished files -/

theorem mapGet_mapDelete {κ ν : Type} [DecidableEq κ] (m : GoMap κ ν) (k k1 : κ) :
    mapGet (mapDelete m k) k1 = if k1 = k then none else mapGet m k1 := by
  induction m with
  | nil => simp [mapDelete, mapGet]
  | cons kv m ih =>
    obtain ⟨k2, v2⟩ := kv
    simp only [mapDelete] at ih
    by_cases h2 : k2 = k
    · subst h2
      by_cases h1 : k1 = k2
      · subst h1
        simpa [mapDelete, mapGet] using ih
      · have h3 : ¬ k2 = k1 := fun h => h1 h.symm
        simpa [mapDelete, mapGet, h1, h3] using ih
    · by_cases h1 : k1 = k
      · subst h1
        simpa [mapDelete, mapGet, h2] using ih
      · by_cases h3 : k2 = k1
        · simp [mapDelete, mapGet, h2, h3, h1]
        · simpa [mapDelete, mapGet, h2, h3, h1] using ih

theorem mapDelete_mapDelete {κ ν : Type} [DecidableEq κ] (m : GoMap κ ν) (k : κ) :
    mapDelete (mapDelete m k) k = mapDelete m k := by
  simp [mapDelete, List.filter_filter]

/-- The pending set after `FinishedFile`: the path is removed, whatever the
error. -/
theorem FinishedFile_pending (refs : PathRefs) (cp : corsoProgress) (relativePath : String)
    (err : Option Err) :
    (cp.FinishedFile refs relativePath err).pending = mapDelete cp.pending relativePath := by
  unfold corsoProgress.FinishedFile
  cases err with
  | some e => rfl
  | none =>
    simp only
    cases cp.get relativePath <;> rfl

/-- C20. `FinishedFile` is idempotent on double-finish: for every progress
state and relative path, after a first call of `FinishedFile` for the path,
with an error or without, the pending set holds no entry for the path, and a
second call for the same path leaves the progress state, the details catalog
and the pending set with it, exactly as the first call left it. -/
theorem FinishedFile_idempotent (refs : PathRefs) (cp : corsoProgress) (relativePath : String)
    (err err2 : Option Err) :
    mapGet (cp.FinishedFile refs relativePath err).pending relativePath = none
      ∧ (cp.FinishedFile refs relativePath err).FinishedFile refs relativePath err2
        = cp.FinishedFile refs relativePath err := by
  have hp := FinishedFile_pending refs cp relativePath err
  have hget : mapGet (cp.FinishedFile refs relativePath err).pending relativePath = none := by
    rw [hp, mapGet_mapDelete]
    simp
  refine ⟨hget, ?_⟩
  generalize cp.FinishedFile refs relativePath err = cp1 at hp hget
  have hdel : mapDelete cp1.pending relativePath = cp1.pending := by
    rw [hp, mapDelete_mapDelete]
  unfold corsoProgress.FinishedFile
  cases err2 with
  | some e =>
    simp only [hdel]
  | none =>
    simp only [corsoProgress.get, hget, hdel]

/-! ## Details of the files of an enumeration -/

theorem itemRefs_Add (d : Details) (repoRef shortRef parentRef : String) (info : ItemInfo) :
    (d.Add repoRef shortRef parentRef true info).itemRefs = d.itemRefs ++ [repoRef] := by
  simp [Details.Add, Details.itemRefs]

theorem itemRefs_AddFolders : ∀ (folders : List FolderEntry) (d : Details),
    (d.AddFolders folders).itemRefs = d.itemRefs := by
  intro folders
  induction folders with
  | nil => intro d; rfl
  | cons f rest ih =>
    intro d
    unfold Details.AddFolders
    split
    · exact ih d
    · rw [ih]
      simp [Details.itemRefs]

/-- The item records after `FinishedFile` with a nil error: one record more,
with the path of the pending entry, when the path was pending. -/
theorem FinishedFile_itemRefs (refs : PathRefs) (cp : corsoProgress) (relativePath : String) :
    (cp.FinishedFile refs relativePath none).deets.itemRefs
      = cp.deets.itemRefs ++ (match mapGet cp.pending relativePath with
          | some d => [refs.pathString d.repoPath.elements]
          | none => []) := by
  unfold corsoProgress.FinishedFile
  simp only [corsoProgress.get]
  cases mapGet cp.pending relativePath with
  | none => simp
  | some d => simp [itemRefs_AddFolders, itemRefs_Add]

/-- The item records after finishing a list of paths: those there before and
one for every path of the list that was pending. -/
theorem finishAll_itemRefs (refs : PathRefs) (r : String) :
    ∀ (paths : List String) (cp : corsoProgress),
      r ∈ (finishAll refs cp paths).deets.itemRefs
        ↔ r ∈ cp.deets.itemRefs
          ∨ ∃ p ∈ paths, ∃ d, mapGet cp.pending p = some d
              ∧ r = refs.pathString d.repoPath.elements := by
  intro paths
  induction paths with
  | nil => intro cp; simp [finishAll]
  | cons p rest ih =>
    intro cp
    have h := ih (cp.FinishedFile refs p none)
    simp only [finishAll, List.foldl_cons] at h ⊢
    rw [h, FinishedFile_itemRefs, FinishedFile_pending]
    constructor
    · rintro (h1 | ⟨p1, hp1, d, hd, hr⟩)
      · rcases List.mem_append.mp h1 with h2 | h2
        · exact Or.inl h2
        · cases hg : mapGet cp.pending p with
          | none => simp [hg] at h2
          | some d =>
            simp only [hg, List.mem_singleton] at h2
            exact Or.inr ⟨p, List.mem_cons_self _ _, d, hg, h2⟩
      · rw [mapGet_mapDelete] at hd
        split at hd
        · cases hd
        · exact Or.inr ⟨p1, List.mem_cons_of_mem _ hp1, d, hd, hr⟩
    · rintro (h1 | ⟨p1, hp1, d, hd, hr⟩)
      · exact Or.inl (List.mem_append_left _ h1)
      · by_cases hpp : p1 = p
        · subst hpp
          exact Or.inl (List.mem_append_right _ (by simp [hd, hr]))
        · rcases List.mem_cons.mp hp1 with h2 | h2
          · exact absurd h2 hpp
          · exact Or.inr ⟨p1, h2, d, by simp [mapGet_mapDelete, hpp, hd], hr⟩

/-- What is pending after the items of a collection were registered: an entry
pending before, or the entry of an item that is not deleted and carries
info. -/
theorem registerItem_pending (env : Env) (fp : Path) (k : String) (d : itemDetails) :
    ∀ (items : List Stream) (cp : corsoProgress),
      mapGet (items.foldl (registerItem env fp) cp).pending k = some d →
      mapGet cp.pending k = some d
        ∨ ∃ e ∈ items, e.Deleted = false ∧ e.Info = some d.info ∧ k = itemKey env fp e
            ∧ d.repoPath = ⟨builderAppend fp.elements e.UUID, true⟩ := by
  intro items
  induction items with
  | nil => intro cp h; exact Or.inl h
  | cons e rest ih =>
    intro cp h
    simp only [List.foldl_cons] at h
    rcases ih _ h with h1 | ⟨e1, he1, h1⟩
    · unfold registerItem at h1
      by_cases hdel : e.Deleted = true
      · simp only [hdel, if_true] at h1
        exact Or.inl h1
      · simp only [hdel, Bool.false_eq_true, if_false] at h1
        cases hi : e.Info with
        | none =>
          simp only [hi] at h1
          exact Or.inl h1
        | some info =>
          simp only [hi, corsoProgress.put, mapGet_mapSet] at h1
          split at h1
          · rename_i hk
            simp only [Option.some.injEq] at h1
            subst h1
            exact Or.inr ⟨e, List.mem_cons_self _ _, by simpa using hdel, hi, hk.symm, rfl⟩
          · exact Or.inl h1
    · exact Or.inr ⟨e1, List.mem_cons_of_mem _ he1, h1⟩

/-- Registering further items keeps every key pending. -/
theorem registerItem_keeps (env : Env) (fp : Path) (k : String) :
    ∀ (items : List Stream) (cp : corsoProgress), (mapGet cp.pending k).isSome = true →
      (mapGet (items.foldl (registerItem env fp) cp).pending k).isSome = true := by
  intro items
  induction items with
  | nil => intro cp h; exact h
  | cons e rest ih =>
    intro cp h
    simp only [List.foldl_cons]
    apply ih
    unfold registerItem
    split
    · exact h
    · split
      · simp only [corsoProgress.put, mapGet_mapSet]
        split
        · rfl
        · exact h
      · exact h

/-- An item that is not deleted and carries info is pending under its key once
the items were registered. -/
theorem registerItem_registered (env : Env) (fp : Path) :
    ∀ (items : List Stream) (cp : corsoProgress), ∀ e ∈ items, e.Deleted = false →
      e.Info ≠ none →
      (mapGet (items.foldl (registerItem env fp) cp).pending (itemKey env fp e)).isSome
        = true := by
  intro items
  induction items with
  | nil => intro _ e he; exact absurd he (List.not_mem_nil e)
  | cons e1 rest ih =>
    intro cp e he hdel hinfo
    simp only [List.foldl_cons]
    rcases List.mem_cons.mp he with rfl | he
    · apply registerItem_keeps
      unfold registerItem
      cases hi : e.Info with
      | none => exact absurd hi hinfo
      | some info => simp [hdel, corsoProgress.put, mapGet_mapSet]
    · exact ih _ e he hdel hinfo

/-- The item loop with a callback that accepts every entry, under a context
that is never cancelled, for a collection whose full path is no item path: all
items are received, registered and passed. -/
theorem collectionItems_accept (env : Env) (cb : Callback) (hcb : ∀ hist e, cb hist e = none)
    (fp : Path) (hitem : fp.hasItem = false) :
    ∀ (items : List Stream) (seen : GoMap String Unit) (errs : List Err) (st : EnumState),
      st.ctx = none →
      collectionItems env cb (some fp) items seen errs st
        = ((seenAfter env seen items, errs),
            ⟨st.calls ++ filesOf env (some fp) items,
              items.foldl (registerItem env fp) st.progress, none⟩) := by
  intro items
  induction items with
  | nil =>
    intro seen errs st hctx
    obtain ⟨calls, progress, ctx⟩ := st
    simp only at hctx
    subst hctx
    simp [collectionItems, ctxPoll, seenAfter, filesOf]
  | cons e rest ih =>
    intro seen errs st hctx
    obtain ⟨calls, progress, ctx⟩ := st
    simp only at hctx
    subst hctx
    unfold collectionItems
    simp only [ctxPoll, Path.Append, hitem, Bool.false_eq_true, if_false, invoke, hcb]
    by_cases hdel : e.Deleted = true
    · simp only [hdel, if_true]
      rw [ih _ _ _ rfl]
      simp [seenAfter, filesOf_cons, itemYielded, hdel, registerItem]
    · have hd : e.Deleted = false := by simpa using hdel
      simp only [hd, Bool.false_eq_true, if_false]
      cases hi : e.Info with
      | none =>
        simp only
        rw [ih _ _ _ rfl]
        simp [seenAfter, filesOf_cons, itemYielded, hd, hitem, registerItem, hi,
          streamingFileOf]
      | some info =>
        simp only
        rw [ih _ _ _ rfl]
        simp [seenAfter, filesOf_cons, itemYielded, hd, hitem, registerItem, hi,
          streamingFileOf, itemKey]

/-- The enumeration of a directory with a collection, with a callback that
accepts every entry and a context that is never cancelled: it returns a nil
error after passing the static children, the streaming files of the items and
the surviving base entries, and leaves the items registered. -/
theorem getStreamItemFunc_accept_all (env : Env) (statics : List KopiaDir) (c : Collection)
    (fp : Path) (hfp : c.FullPath = some fp) (hitem : fp.hasItem = false)
    (baseDir : Option Entry) (cb : Callback) (hcb : ∀ hist e, cb hist e = none)
    (st : EnumState) (hctx : st.ctx = none) :
    getStreamItemFunc env statics (some c) baseDir cb st
      = ([], ⟨st.calls ++ statics.map CbEntry.static ++ filesOf env (some fp) c.Items
                ++ survivingEntries (seenAfter env [] c.Items)
                    ((baseDir.map Entry.entries).getD []),
              c.Items.foldl (registerItem env fp) st.progress, none⟩) := by
  obtain ⟨calls, progress, ctx⟩ := st
  simp only at hctx
  subst hctx
  simp only [getStreamItemFunc, staticEntries_accept cb hcb, collectionEntries, hfp]
  rw [collectionItems_accept env cb hcb fp hitem _ _ _ _ rfl]
  cases baseDir with
  | none => simp [streamBaseEntries, survivingEntries]
  | some D =>
    simp only [streamBaseEntries]
    rw [streamBaseLoop_accept env cb hcb _ D.entries _ rfl]
    simp

theorem registerItem_deets (env : Env) (fp : Path) :
    ∀ (items : List Stream) (cp : corsoProgress),
      (items.foldl (registerItem env fp) cp).deets = cp.deets := by
  intro items
  induction items with
  | nil => intro cp; rfl
  | cons e rest ih =>
    intro cp
    simp only [List.foldl_cons]
    rw [ih]
    unfold registerItem
    split
    · rfl
    · split <;> rfl

/-- C14, refuted as stated: folder `Inbox` has the new item `c`, which carries
info, and its base directory holds the file `a`. The enumeration hands the
streaming file `c` and the base file `a` to the callback; after `FinishedFile`
was called with a nil error for both, the details catalog holds an item record
for `c` only, none for the file `a` carried over from the base. -/
theorem base_file_gets_no_details_record :
    (getStreamItemFunc plainEnv [] (some inboxNewC) (some (.dir "Inbox" [.file "a"]))
        (fun _ _ => none)
        { calls := [], progress := { pending := [], totalBytes := 0 }, ctx := none }).2.calls
      = [streamingFileOf plainEnv (infoItem "c"), .base (.file "a")]
      ∧ (finishAll plainRefs
          (getStreamItemFunc plainEnv [] (some inboxNewC) (some (.dir "Inbox" [.file "a"]))
            (fun _ _ => none)
            { calls := [], progress := { pending := [], totalBytes := 0 },
              ctx := none }).2.progress
          ["exchange/alice/mail/Inbox/c", "exchange/alice/mail/Inbox/a"]).deets.itemRefs
        = ["tenant/exchange/alice/mail/Inbox/c"] :=
  ⟨rfl, by decide⟩

/-- C14, amended: a directory with a collection whose full path is no item
path is enumerated from a progress sidecar without pending entries, with a
callback that accepts every entry and a context that is never cancelled, and
then `FinishedFile` is called with a nil error for a list of relative paths
that holds the key of every item that is not deleted and carries info (the
keys of items with different identifiers being different). Then the item
records of the details catalog are those it had before and one `repoRef` for
the item path of every such item: streams without info and files carried over
from the base get no record. -/
theorem details_hold_streamed_items_with_info (env : Env) (refs : PathRefs)
    (statics : List KopiaDir) (c : Collection) (fp : Path) (baseDir : Option Entry)
    (cb : Callback) (st : EnumState) (paths : List String)
    (hcb : ∀ hist e, cb hist e = none) (hctx : st.ctx = none)
    (hfp : c.FullPath = some fp) (hitem : fp.hasItem = false)
    (hpend : st.progress.pending = [])
    (hkey : ∀ e ∈ c.Items, ∀ e1 ∈ c.Items, itemKey env fp e = itemKey env fp e1 →
      e.UUID = e1.UUID)
    (hpaths : ∀ e ∈ c.Items, e.Deleted = false → e.Info ≠ none → itemKey env fp e ∈ paths)
    (r : String) :
    r ∈ (finishAll refs (getStreamItemFunc env statics (some c) baseDir cb st).2.progress
          paths).deets.itemRefs
      ↔ r ∈ st.progress.deets.itemRefs
        ∨ ∃ e ∈ c.Items, e.Deleted = false ∧ e.Info ≠ none
            ∧ r = refs.pathString (fp.elements ++ [e.UUID]) := by
  rw [getStreamItemFunc_accept_all env statics c fp hfp hitem baseDir cb hcb st hctx,
    finishAll_itemRefs]
  simp only [registerItem_deets]
  constructor
  · rintro (h1 | ⟨p, _, d, hd, hr⟩)
    · exact Or.inl h1
    · rcases registerItem_pending env fp p d _ _ hd with h2 | ⟨e, he, hdel, hinfo, _, hpath⟩
      · simp [hpend, mapGet] at h2
      · refine Or.inr ⟨e, he, hdel, by simp [hinfo], ?_⟩
        rw [hr, hpath]
  · rintro (h1 | ⟨e, he, hdel, hinfo, hr⟩)
    · exact Or.inl h1
    · right
      have hsome := registerItem_registered env fp c.Items st.progress e he hdel hinfo
      cases hg : mapGet (c.Items.foldl (registerItem env fp) st.progress).pending
          (itemKey env fp e) with
      | none => simp [hg] at hsome
      | some d =>
        refine ⟨itemKey env fp e, hpaths e he hdel hinfo, d, hg, ?_⟩
        rcases registerItem_pending env fp _ d _ _ hg with h2 | ⟨e1, he1, _, _, hk, hpath⟩
        · simp [hpend, mapGet] at h2
        · rw [hr, hpath, hkey e he e1 he1 hk]

/-- Instance of the amended C14: folder `Inbox` with the new item `c` and the
base file `a`; `FinishedFile` is called for both files, and the item path of
`c` is looked for among the item records. -/
theorem details_hold_streamed_items_with_info_witness :
    "tenant/exchange/alice/mail/Inbox/c" ∈ (finishAll plainRefs
          (getStreamItemFunc plainEnv [] (some inboxNewC) (some (.dir "Inbox" [.file "a"]))
            (fun _ _ => none)
            { calls := [], progress := { pending := [], totalBytes := 0 },
              ctx := none }).2.progress
          ["exchange/alice/mail/Inbox/c", "exchange/alice/mail/Inbox/a"]).deets.itemRefs
      ↔ "tenant/exchange/alice/mail/Inbox/c" ∈ ([] : List String)
        ∨ ∃ e ∈ inboxNewC.Items, e.Deleted = false ∧ e.Info ≠ none
            ∧ "tenant/exchange/alice/mail/Inbox/c"
              = plainRefs.pathString (samplePrefix ++ ["Inbox"] ++ [e.UUID]) :=
  details_hold_streamed_items_with_info plainEnv plainRefs [] inboxNewC
    ⟨samplePrefix ++ ["Inbox"], false⟩ (some (.dir "Inbox" [.file "a"])) (fun _ _ => none)
    { calls := [], progress := { pending := [], totalBytes := 0 }, ctx := none }
    ["exchange/alice/mail/Inbox/c", "exchange/alice/mail/Inbox/a"]
    (fun _ _ => rfl) rfl rfl rfl rfl
    (by
      intro e he e1 he1 _
      simp only [inboxNewC, List.mem_singleton] at he he1
      rw [he, he1])
    (by
      intro e he _ _
      simp only [inboxNewC, List.mem_singleton] at he
      subst he
      decide)
    "tenant/exchange/alice/mail/Inbox/c"


/-! ## Ancestor walk of `FinishedFile` -/

/-- The loop over the ancestors with enough fuel: it appends one entry for
every non-empty prefix of `parent`, longest first. -/
theorem folderLoop_eq (refs : PathRefs) :
    ∀ (fuel : Nat) (parent : List String) (folders : List FolderEntry),
      parent.length ≤ fuel →
      folderLoop refs fuel parent folders
        = folders ++ (List.range parent.length).reverse.map (fun j =>
            ⟨refs.pathString (parent.take (j + 1)), refs.ShortRef (parent.take (j + 1)),
              refs.ShortRef (parent.take j), ⟨some ⟨parent.getD j ""⟩, 0⟩⟩) := by
  intro fuel
  induction fuel with
  | zero =>
    intro parent folders h
    have hp : parent = [] := List.length_eq_zero.mp (Nat.le_zero.mp h)
    subst hp
    simp [folderLoop]
  | succ fuel ih =>
    intro parent folders h
    by_cases hlen : parent.length > 0
    · obtain ⟨m, hm⟩ : ∃ m, parent.length = m + 1 := ⟨parent.length - 1, by omega⟩
      have hdl : (builderDir parent).length = m := by simp [builderDir, hm]
      simp only [folderLoop, hlen, if_true]
      rw [ih (builderDir parent) _ (by omega), hdl, hm, List.range_succ, List.reverse_append,
        List.reverse_singleton, List.singleton_append, List.map_cons, List.append_assoc,
        List.singleton_append]
      congr 1
      have htake : parent.take (m + 1) = parent := by rw [← hm]; exact List.take_length parent
      have hdrop : parent.take m = builderDir parent := by
        simp [builderDir, List.dropLast_eq_take, hm]
      have hlast : parent.getD m "" = parent.getLastD "" := by
        rw [List.getLastD_eq_getLast?, List.getLast?_eq_getElem?, hm]
        simp [List.getD_eq_getElem?_getD]
      congr 1
      · rw [htake, hdrop, hlast]
      · apply List.map_congr_left
        intro j hj
        simp only [List.mem_reverse, List.mem_range] at hj
        have h1 : (builderDir parent).take (j + 1) = parent.take (j + 1) := by
          rw [← hdrop, List.take_take]
          congr 1
          omega
        have h2 : (builderDir parent).take j = parent.take j := by
          rw [← hdrop, List.take_take]
          congr 1
          omega
        have h3 : (builderDir parent).getD j "" = parent.getD j "" := by
          rw [← hdrop]
          simp [List.getD_eq_getElem?_getD, List.getElem?_take, hj]
        rw [h1, h2, h3]
    · have hp : parent = [] := List.length_eq_zero.mp (by omega)
      subst hp
      simp [folderLoop]

/-- The ancestor loop of `FinishedFile`, started on the parent of the element
sequence `es` with enough fuel, yields the folder entries of the proper
prefixes of `es`. -/
theorem folderLoop_ancestorFolders (refs : PathRefs) (es : List String) (fuel : Nat)
    (h : (builderDir es).length ≤ fuel) :
    folderLoop refs fuel (builderDir es) [] = ancestorFolders refs es := by
  rw [folderLoop_eq refs fuel (builderDir es) [] h]
  have hlen : (builderDir es).length = es.length - 1 := by simp [builderDir]
  simp only [List.nil_append, ancestorFolders, hlen]
  apply List.map_congr_left
  intro j hj
  simp only [List.mem_reverse, List.mem_range] at hj
  have hdl : builderDir es = es.take (es.length - 1) := by
    simp [builderDir, List.dropLast_eq_take]
  have h1 : (builderDir es).take (j + 1) = es.take (j + 1) := by
    rw [hdl, List.take_take]
    congr 1
    omega
  have h2 : (builderDir es).take j = es.take j := by
    rw [hdl, List.take_take]
    congr 1
    omega
  have h3 : (builderDir es).getD j "" = es.getD j "" := by
    rw [hdl]
    have hj2 : j < es.length := by omega
    simp [List.getD_eq_getElem?_getD, List.getElem?_take, hj, List.getElem?_eq_getElem hj2]
  rw [h1, h2, h3]

/-- C21. For a pending item whose `repoPath` has the elements `es`,
`FinishedFile` with a nil error adds one item entry, with the full path as
`repoRef` and the short reference of `es` without its last element as
`parentRef`, and passes to `AddFolders` the entries of `ancestorFolders`: one
for every non-empty proper prefix of `es`, `len(es) - 1` in all, each with the
prefix as `RepoRef`, the short reference of the prefix one shorter as
`ParentRef` and its last element as display name. The ancestor walk ends:
every amount of fuel from the length of the parent on gives this list. -/
theorem FinishedFile_adds_item_and_ancestors (refs : PathRefs) (cp : corsoProgress)
    (relativePath : String) (d : itemDetails) (hd : cp.get relativePath = some d) :
    (cp.FinishedFile refs relativePath none).deets
        = (cp.deets.Add (refs.pathString d.repoPath.elements)
            (refs.ShortRef d.repoPath.elements)
            (refs.ShortRef (builderDir d.repoPath.elements)) true d.info).AddFolders
          (ancestorFolders refs d.repoPath.elements)
      ∧ (ancestorFolders refs d.repoPath.elements).length = d.repoPath.elements.length - 1
      ∧ (∀ j, j < d.repoPath.elements.length - 1 →
          (ancestorFolders refs d.repoPath.elements)[d.repoPath.elements.length - 2 - j]?
            = some ⟨refs.pathString (d.repoPath.elements.take (j + 1)),
                refs.ShortRef (d.repoPath.elements.take (j + 1)),
                refs.ShortRef (d.repoPath.elements.take j),
                ⟨some ⟨d.repoPath.elements.getD j ""⟩, 0⟩⟩)
      ∧ ∀ fuel, (builderDir d.repoPath.elements).length ≤ fuel →
          folderLoop refs fuel (builderDir d.repoPath.elements) []
            = ancestorFolders refs d.repoPath.elements := by
  refine ⟨?_, by simp [ancestorFolders], ?_, fun fuel h => folderLoop_ancestorFolders refs _ fuel h⟩
  · unfold corsoProgress.FinishedFile
    simp only [hd]
    rw [folderLoop_ancestorFolders refs _ _ (Nat.le_refl _)]
  · intro j hj
    simp only [ancestorFolders, List.getElem?_map, List.getElem?_reverse, List.length_range]
    have hidx : d.repoPath.elements.length - 1 - 1
        - (d.repoPath.elements.length - 2 - j) = j := by omega
    rw [List.getElem?_reverse (by simp; omega)]
    simp only [List.length_range, hidx]
    rw [List.getElem?_range hj]
    rfl

/-- Instance of C21: the pending item `tenant/exchange/alice/mail/Inbox/c` is
finished; the folders passed on are `Inbox`, `mail`, `alice`, `exchange` and
`tenant`, each with its path. -/
theorem FinishedFile_adds_item_and_ancestors_witness :
    (pendingC.FinishedFile plainRefs "exchange/alice/mail/Inbox/c" none).deets
        = (pendingC.deets.Add "tenant/exchange/alice/mail/Inbox/c"
            "#tenant/exchange/alice/mail/Inbox/c" "#tenant/exchange/alice/mail/Inbox" true
            ⟨none, 1⟩).AddFolders
          (ancestorFolders plainRefs (samplePrefix ++ ["Inbox", "c"]))
      ∧ (ancestorFolders plainRefs (samplePrefix ++ ["Inbox", "c"])).map FolderEntry.RepoRef
        = ["tenant/exchange/alice/mail/Inbox", "tenant/exchange/alice/mail",
            "tenant/exchange/alice", "tenant/exchange", "tenant"] :=
  ⟨(FinishedFile_adds_item_and_ancestors plainRefs pendingC "exchange/alice/mail/Inbox/c"
      ⟨⟨none, 1⟩, ⟨samplePrefix ++ ["Inbox", "c"], true⟩⟩ (by decide)).1, by decide⟩

/-! ## Closing the frame writer -/

/-- Closing a closed `backupStreamReader` changes nothing. -/
theorem backupStreamReader_close_closed {ρ : Type} [ioReadCloser ρ]
    (rw : backupStreamReader ρ) (h : rw.combined = none) : rw.Close = (none, rw) := by
  simp [backupStreamReader.Close, h]

theorem closeTimes_closed {ρ : Type} [ioReadCloser ρ] :
    ∀ (k : Nat) (rw : backupStreamReader ρ), rw.combined = none →
      backupStreamReader.closeTimes k rw = rw := by
  intro k
  induction k with
  | zero => intro rw _; rfl
  | succ k ih =>
    intro rw h
    simp only [backupStreamReader.closeTimes, backupStreamReader_close_closed rw h]
    exact ih rw h

/-- C22. Let a `backupStreamReader` be open (`combined` is not nil). After one
or more calls of `Close`, however many, each of its two underlying readers
received exactly one `Close`: the state is the one after a single `Close` of
the wrapped reader and of the version buffer. Every `Close` returns nil, and
every `Read` issued afterwards returns 0 bytes with `os.ErrClosed` and leaves
the readers untouched. -/
theorem backupStreamReader_close_once {ρ : Type} [ioReadCloser ρ]
    (rw : backupStreamReader ρ) (dropped : Nat) (hopen : rw.combined = some dropped)
    (k n : Nat) :
    backupStreamReader.closeTimes (k + 1) rw
        = ⟨rw.bufReader, (ioReadCloser.Close rw.reader).2, none, rw.bufCloses + 1⟩
      ∧ (backupStreamReader.closeTimes (k + 1) rw).Close
        = (none, backupStreamReader.closeTimes (k + 1) rw)
      ∧ (backupStreamReader.closeTimes (k + 1) rw).Read n
        = (⟨[], some Err.ErrClosed⟩, backupStreamReader.closeTimes (k + 1) rw) := by
  have h1 : rw.Close.2
      = ⟨rw.bufReader, (ioReadCloser.Close rw.reader).2, none, rw.bufCloses + 1⟩ := by
    simp [backupStreamReader.Close, hopen]
  have h2 : backupStreamReader.closeTimes (k + 1) rw = rw.Close.2 := by
    simp only [backupStreamReader.closeTimes]
    exact closeTimes_closed k _ (by rw [h1])
  have h3 : (backupStreamReader.closeTimes (k + 1) rw).combined = none := by
    rw [h2, h1]
  refine ⟨by rw [h2, h1], backupStreamReader_close_closed _ h3, ?_⟩
  simp [backupStreamReader.Read, h3]

/-- Instance of C22: a writer over a reader that counts its `Close` calls is
closed three times; the counter and the counter of the version buffer stand
at one, and a `Read` fails with `os.ErrClosed`. -/
theorem backupStreamReader_close_once_witness :
    (backupStreamReader.closeTimes 3
        (newBackupStreamReader 1 (⟨bytesReader.NewReader [byte 7], 0⟩ : countingReader))).reader.closes
        = 1
      ∧ (backupStreamReader.closeTimes 3
          (newBackupStreamReader 1
            (⟨bytesReader.NewReader [byte 7], 0⟩ : countingReader))).bufCloses = 1
      ∧ ((backupStreamReader.closeTimes 3
          (newBackupStreamReader 1
            (⟨bytesReader.NewReader [byte 7], 0⟩ : countingReader))).Read 8).1
        = ⟨[], some Err.ErrClosed⟩ := by
  obtain ⟨h1, _, h3⟩ := backupStreamReader_close_once
    (newBackupStreamReader 1 (⟨bytesReader.NewReader [byte 7], 0⟩ : countingReader)) 0 rfl 2 8
  refine ⟨by rw [h1]; rfl, by rw [h1]; rfl, by rw [h3]⟩

/-! ## Concurrent callbacks -/

/-- A run of steps, seen at one key, is the run of the steps on that key: the
value pending under the key at the end and the values read under the key are
the same, from any two sidecars that agree at the key. -/
theorem runPending_project (k : String) :
    ∀ (l : List PendingStep) (cp1 cp2 : corsoProgress),
      mapGet cp1.pending k = mapGet cp2.pending k →
      mapGet (runPending cp1 l).1.pending k
          = mapGet (runPending cp2 (l.filter (fun s => s.key = k))).1.pending k
        ∧ (runPending cp1 l).2.filter (fun r => r.1 = k)
          = (runPending cp2 (l.filter (fun s => s.key = k))).2.filter (fun r => r.1 = k) := by
  intro l
  induction l with
  | nil => intro cp1 cp2 h; exact ⟨h, rfl⟩
  | cons s rest ih =>
    intro cp1 cp2 h
    by_cases hk : s.key = k
    · simp only [List.filter_cons, hk, decide_True, if_true, runPending]
      have hstep : mapGet (stepPending cp1 s).1.pending k = mapGet (stepPending cp2 s).1.pending k
          ∧ (stepPending cp1 s).2 = (stepPending cp2 s).2 := by
        cases s with
        | put k1 v =>
          simp only [PendingStep.key] at hk
          subst hk
          simp [stepPending, corsoProgress.put, mapGet_mapSet]
        | get k1 =>
          simp only [PendingStep.key] at hk
          subst hk
          simp [stepPending, corsoProgress.get, h]
        | delete k1 =>
          simp only [PendingStep.key] at hk
          subst hk
          simp [stepPending, mapGet_mapDelete]
      obtain ⟨h1, h2⟩ := ih _ _ hstep.1
      refine ⟨h1, ?_⟩
      rw [List.filter_append, List.filter_append, h2, hstep.2]
    · simp only [List.filter_cons, hk, decide_False, Bool.false_eq_true, if_false, runPending]
      have hstep : mapGet (stepPending cp1 s).1.pending k = mapGet cp2.pending k
          ∧ (stepPending cp1 s).2.filter (fun r => r.1 = k) = [] := by
        cases s with
        | put k1 v =>
          simp only [PendingStep.key] at hk
          simp [stepPending, corsoProgress.put, mapGet_mapSet, hk, h]
        | get k1 =>
          simp only [PendingStep.key] at hk
          simp [stepPending, h, hk]
        | delete k1 =>
          simp only [PendingStep.key] at hk
          have hk2 : ¬ k = k1 := fun h => hk h.symm
          simp [stepPending, mapGet_mapDelete, hk2, h]
      obtain ⟨h1, h2⟩ := ih _ _ hstep.1
      refine ⟨h1, ?_⟩
      rw [List.filter_append, hstep.2, List.nil_append, h2]

/-- The steps on a key within an interleaving: when `l` keeps the order of the
steps `t` of one caller, consists of `t` and of steps `r` of other callers,
and no step of `r` works on the key, the steps of `l` on the key are those of
`t`. -/
theorem interleaving_project (k : String) (t r l : List PendingStep) (hsub : t.Sublist l)
    (hperm : l.Perm (t ++ r)) (hr : ∀ s ∈ r, s.key ≠ k) :
    l.filter (fun s => s.key = k) = t.filter (fun s => s.key = k) := by
  have hrf : r.filter (fun s => s.key = k) = [] := by
    rw [List.filter_eq_nil_iff]
    intro s hs
    simpa using hr s hs
  have hlen : (l.filter (fun s => s.key = k)).length
      = (t.filter (fun s => s.key = k)).length := by
    have := (hperm.filter (fun s => decide (s.key = k))).length_eq
    rw [List.filter_append, hrf, List.append_nil] at this
    exact this
  exact ((hsub.filter _).eq_of_length hlen.symm).symm

theorem wrapInt64_add (x b : Int) : wrapInt64 (wrapInt64 x + b) = wrapInt64 (x + b) := by
  simp only [wrapInt64]
  omega

theorem wrapInt64_of_range (x : Int) (h1 : -(2 ^ 63) ≤ x) (h2 : x < 2 ^ 63) :
    wrapInt64 x = x := by
  simp only [wrapInt64]
  omega

/-- The byte counter after the additions of a list of counts: the wrapped sum
of the counter before and all counts. -/
theorem hashAll_totalBytes : ∀ (counts : List Int) (cp : corsoProgress),
    wrapInt64 cp.totalBytes = cp.totalBytes →
    (hashAll cp counts).totalBytes = wrapInt64 (cp.totalBytes + counts.sum) := by
  intro counts
  induction counts with
  | nil => intro cp h; simpa [hashAll] using h.symm
  | cons b rest ih =>
    intro cp h
    have hstep : (cp.FinishedHashingFile "" b).totalBytes = wrapInt64 (cp.totalBytes + b) := by
      simp [corsoProgress.FinishedHashingFile, wrapInt64]
    have hrange : wrapInt64 (cp.FinishedHashingFile "" b).totalBytes
        = (cp.FinishedHashingFile "" b).totalBytes := by
      rw [hstep]
      simp only [wrapInt64]
      omega
    have := ih (cp.FinishedHashingFile "" b) hrange
    simp only [hashAll, List.foldl_cons, List.sum_cons] at this ⊢
    rw [this, hstep, wrapInt64_add, Int.add_assoc]

/-- C29. The progress sidecar tolerates concurrent callbacks. The mutex makes
every `put`, every `get` and the deferred `delete` of `FinishedFile` one step
on the pending map; let `l` be any interleaving of the steps `t` of a caller
with the steps `r` of other callers (`l` keeps the order of `t` and consists
of `t` and `r`) that work on other keys than `k`. Then the entry pending
under `k` at the end, and every value a `get` of `k` read, are those of `t`
run alone: no update is lost. And for byte counts added atomically in any
order to an `int64` counter, the counter ends as the wrapped sum of its start
and all counts, the same for every order, and as their plain sum when that
fits an `int64`. -/
theorem progress_tolerates_concurrent_callbacks :
    (∀ (cp : corsoProgress) (k : String) (t r l : List PendingStep),
        t.Sublist l → l.Perm (t ++ r) → (∀ s ∈ r, s.key ≠ k) →
        mapGet (runPending cp l).1.pending k = mapGet (runPending cp t).1.pending k
          ∧ (runPending cp l).2.filter (fun x => x.1 = k)
            = (runPending cp t).2.filter (fun x => x.1 = k))
      ∧ (∀ (cp : corsoProgress) (counts counts1 : List Int),
          wrapInt64 cp.totalBytes = cp.totalBytes → counts1.Perm counts →
          (hashAll cp counts1).totalBytes = wrapInt64 (cp.totalBytes + counts.sum)
            ∧ (-(2 ^ 63) ≤ cp.totalBytes + counts.sum → cp.totalBytes + counts.sum < 2 ^ 63 →
                (hashAll cp counts1).totalBytes = cp.totalBytes + counts.sum)) := by
  constructor
  · intro cp k t r l hsub hperm hr
    have h1 := runPending_project k l cp cp rfl
    have h2 := runPending_project k t cp cp rfl
    rw [interleaving_project k t r l hsub hperm hr] at h1
    exact ⟨h1.1.trans h2.1.symm, h1.2.trans h2.2.symm⟩
  · intro cp counts counts1 hcp hperm
    have h := hashAll_totalBytes counts1 cp hcp
    rw [hperm.sum_eq] at h
    exact ⟨h, fun h1 h2 => by rw [h, wrapInt64_of_range _ h1 h2]⟩

/-- Instance of C29: the caller of key `a` puts an entry and finishes the
file, while another caller puts and finishes key `b` in between; and the
counts 5, 7 and 11 are added in another order. -/
theorem progress_tolerates_concurrent_callbacks_witness :
    (mapGet (runPending { pending := [], totalBytes := 0 }
          [.put "a" ⟨⟨none, 1⟩, ⟨["t", "a"], true⟩⟩, .put "b" ⟨⟨none, 2⟩, ⟨["t", "b"], true⟩⟩,
            .get "a", .get "b", .delete "b", .delete "a"]).1.pending "a"
        = mapGet (runPending { pending := [], totalBytes := 0 }
          ([.put "a" ⟨⟨none, 1⟩, ⟨["t", "a"], true⟩⟩] ++ finishedFileSteps "a" none)).1.pending
            "a"
      ∧ (runPending { pending := [], totalBytes := 0 }
          [.put "a" ⟨⟨none, 1⟩, ⟨["t", "a"], true⟩⟩, .put "b" ⟨⟨none, 2⟩, ⟨["t", "b"], true⟩⟩,
            .get "a", .get "b", .delete "b", .delete "a"]).2.filter (fun x => x.1 = "a")
        = (runPending { pending := [], totalBytes := 0 }
          ([.put "a" ⟨⟨none, 1⟩, ⟨["t", "a"], true⟩⟩] ++ finishedFileSteps "a" none)).2.filter
            (fun x => x.1 = "a"))
      ∧ (hashAll { pending := [], totalBytes := 0 } [11, 5, 7]).totalBytes = 0 + 23 :=
  ⟨progress_tolerates_concurrent_callbacks.1 { pending := [], totalBytes := 0 } "a"
      ([.put "a" ⟨⟨none, 1⟩, ⟨["t", "a"], true⟩⟩] ++ finishedFileSteps "a" none)
      ([.put "b" ⟨⟨none, 2⟩, ⟨["t", "b"], true⟩⟩] ++ finishedFileSteps "b" none)
      [.put "a" ⟨⟨none, 1⟩, ⟨["t", "a"], true⟩⟩, .put "b" ⟨⟨none, 2⟩, ⟨["t", "b"], true⟩⟩,
        .get "a", .get "b", .delete "b", .delete "a"]
      (by decide) (by decide) (by decide),
    ((progress_tolerates_concurrent_callbacks.2 { pending := [], totalBytes := 0 } [5, 7, 11]
      [11, 5, 7] (by decide) (by decide)).2 (by decide) (by decide))⟩

/-! ## Exchange selectors -/

/-- For an Exchange item path with exactly one folder element `pathValues`
gives the resource owner, the folder and the item identifier. -/
theorem pathValues_single_folder (ec : exchangeCategory)
    (hleaf : ec = .ExchangeContact ∨ ec = .ExchangeEvent ∨ ec = .ExchangeMail)
    (tenant owner category folder item : String) :
    ec.pathValues (exchangeItemPath tenant owner category [folder] item)
      = [(.ExchangeUser, owner), (ec.folderCat, folderOf [folder]), (ec, item)] := by
  rcases hleaf with rfl | rfl | rfl <;> rfl

/-- C23, the failing input: the mail path of item `mailitem` in folder
`mfolder/sub` of `user`, which has two folder elements. `pathValues` maps the
mail folder to `mfolder`, the first folder element, where the folder of the
path is `mfolder/sub`, and the mail to `sub`, the second folder element,
where the item of the path is `mailitem`. -/
theorem pathValues_of_nested_folder :
    exchangeCategory.ExchangeMail.pathValues
        (exchangeItemPath "tenant" "user" "email" ["mfolder", "sub"] "mailitem")
      = [(.ExchangeUser, "user"), (.ExchangeMailFolder, "mfolder"), (.ExchangeMail, "sub")]
      ∧ folderOf ["mfolder", "sub"] = "mfolder/sub"
      ∧ (exchangeItemPath "tenant" "user" "email" ["mfolder", "sub"] "mailitem").getLast?
        = some "mailitem" := by
  decide

/-- C24, the failing input: the scope of `EventStartsAfter` for the start of
June 2022 has the data category `ExchangeMail` and the filter category
`ExchangeFilterMailReceivedAfter`, those of `MailReceivedAfter`. It does not
match the event that starts in 2023, and it matches the event that starts in
2021, because it compares with `Received`; the scope of `EventStartsBefore`
errs the other way round. -/
theorem EventStartsAfter_compares_received :
    EventStartsAfter "2022-06-01T00:00:00Z"
        = [⟨.ExchangeMail, .ExchangeFilterMailReceivedAfter, ["2022-06-01T00:00:00Z"], .Less⟩]
      ∧ EventStartsAfter "2022-06-01T00:00:00Z" = MailReceivedAfter "2022-06-01T00:00:00Z"
      ∧ (EventStartsAfter "2022-06-01T00:00:00Z").map (fun s => s.matchesInfo (some lateEvent))
        = [false]
      ∧ (EventStartsAfter "2022-06-01T00:00:00Z").map (fun s => s.matchesInfo (some earlyEvent))
        = [true]
      ∧ (EventStartsBefore "2022-06-01T00:00:00Z").map (fun s => s.matchesInfo (some lateEvent))
        = [true]
      ∧ (EventStartsBefore "2022-06-01T00:00:00Z").map
          (fun s => (s.Category, s.FilterCategory))
        = [(.ExchangeMail, .ExchangeFilterMailReceivedBefore)] := by
  decide

/-- The scope of `EventStartsAfter` matches an entry exactly when the time
string is smaller than the entry's `Received`, whatever its `EventStart`. -/
theorem EventStartsAfter_matches_received (t : String) (info : ExchangeInfo) :
    (EventStartsAfter t).map (fun s => s.matchesInfo (some info))
      = [stringLess t info.Received] := by
  simp [EventStartsAfter, makeFilterScope, ExchangeScope.matchesInfo, ExchangeScope.Matches,
    Comparator.Compare]

/-! ## Restore operation -/

/-- C25. Terminal status of a restore: for every `restoreStats` in which `gc`
is set once the operation has started, `persistResults` returns; it sets
`Status = Failed` and returns a non-nil error exactly when the operation never
reached the started state; it sets `Status = NoData` exactly when it started,
`readErr` and `writeErr` are nil and no item was restored successfully; and in
every other case it sets `Status = Completed`; whenever the operation started
the error returned is nil. -/
theorem persistResults_status (op : RestoreOperation) (now started : Nat)
    (opStats : restoreStats) (gc : ConnectorOperationStatus)
    (hgc : opStats.started = true → opStats.gc = some gc) :
    ∃ errs op1, op.persistResults now started opStats = .ok (errs, op1)
      ∧ (op1.Status = .Failed ↔ opStats.started = false)
      ∧ (errs ≠ [] ↔ opStats.started = false)
      ∧ (op1.Status = .NoData ↔ opStats.started = true ∧ opStats.readErr = none
          ∧ opStats.writeErr = none ∧ gc.Successful = 0)
      ∧ (op1.Status = .Completed ↔ opStats.started = true
          ∧ ¬ (opStats.readErr = none ∧ opStats.writeErr = none ∧ gc.Successful = 0)) := by
  unfold RestoreOperation.persistResults
  cases hs : opStats.started with
  | false => exact ⟨_, _, rfl, by simp, by simp, by simp, by simp⟩
  | true =>
    simp only [hgc hs, Bool.not_true, Bool.false_eq_true, if_false]
    refine ⟨_, _, rfl, ?_, by simp, ?_, ?_⟩
    · by_cases hc : opStats.readErr = none ∧ opStats.writeErr = none ∧ gc.Successful = 0
      · simp [hc]
      · simp [hc]
    · by_cases hc : opStats.readErr = none ∧ opStats.writeErr = none ∧ gc.Successful = 0
      · simp [hc]
      · simp [hc]
    · by_cases hc : opStats.readErr = none ∧ opStats.writeErr = none ∧ gc.Successful = 0
      · simp [hc]
      · simp [hc]

/-- Instance of C25: a started restore without errors that wrote no item ends
with `NoData`. -/
theorem persistResults_status_witness :
    ∃ errs op1, freshRestore.persistResults 130 100
        ⟨[], some ⟨0⟩, 0, 0, true, none, none, "r1"⟩ = .ok (errs, op1)
      ∧ errs = [] ∧ op1.Status = .NoData := by
  obtain ⟨errs, op1, h1, _, h3, h4, _⟩ := persistResults_status freshRestore 130 100
    ⟨[], some ⟨0⟩, 0, 0, true, none, none, "r1"⟩ ⟨0⟩ (fun _ => rfl)
  refine ⟨errs, op1, h1, ?_, h4.mpr ⟨rfl, rfl, rfl, rfl⟩⟩
  by_contra hne
  exact absurd (h3.mp hne) (by decide)

theorem formatDetailsLoop_slots (FromDataLayerPath : String → Except Err Path) :
    ∀ (rest : List String) (i : Nat) (pre : List (Option Path)) (errs : List Err),
      pre.length = i →
      (formatDetailsLoop FromDataLayerPath rest i
          (pre ++ List.replicate rest.length none) errs).1
        = pre ++ rest.map (fun p => (FromDataLayerPath p).toOption) := by
  intro rest
  induction rest with
  | nil => intro i pre errs _; simp [formatDetailsLoop]
  | cons p rest ih =>
    intro i pre errs hpre
    have hsplit : ∀ a : Option Path, pre ++ a :: List.replicate rest.length none
        = (pre ++ [a]) ++ List.replicate rest.length none := by simp
    simp only [formatDetailsLoop, List.length_cons, List.replicate_succ, List.map_cons]
    cases hp : FromDataLayerPath p with
    | error err =>
      simp only
      rw [hsplit, ih (i + 1) (pre ++ [none]) _ (by simp [hpre])]
      simp [Except.toOption]
    | ok q =>
      simp only
      have hset : (pre ++ none :: List.replicate rest.length none).set i (some q)
          = (pre ++ [some q]) ++ List.replicate rest.length none := by
        subst hpre
        simp
      rw [hset, ih (i + 1) (pre ++ [some q]) _ (by simp [hpre])]
      simp [Except.toOption]

/-- C30. `formatDetailsForRestoration` returns an error only when the
selector's `Reduce` fails, and then that error. Otherwise it returns a nil
error and a slice with exactly one slot per reduced entry, slot `i` holding
the parsed path of entry `i` when parsing succeeds and nil when it fails; the
parse errors gathered are not returned. -/
theorem formatDetailsForRestoration_slots (reduced : Except Err (List String))
    (FromDataLayerPath : String → Except Err Path) :
    formatDetailsForRestoration reduced FromDataLayerPath
      = (match reduced with
        | .error err => .error err
        | .ok fdsPaths => .ok (fdsPaths.map (fun p => (FromDataLayerPath p).toOption))) := by
  cases reduced with
  | error err => rfl
  | ok fdsPaths =>
    simp only [formatDetailsForRestoration]
    have h := formatDetailsLoop_slots FromDataLayerPath fdsPaths 0 [] [] rfl
    simp only [List.nil_append] at h
    rw [h]

/-- The result of `persistResults` for an operation that never started. -/
theorem persistResults_not_started (op : RestoreOperation) (now started : Nat)
    (opStats : restoreStats) (h : opStats.started = false) :
    op.persistResults now started opStats
      = .ok ([Err.new "errors prevented the operation from processing"]
            ++ opStats.readErr.toList ++ opStats.writeErr.toList,
          { op with Results := { op.Results with StartedAt := started, CompletedAt := now },
                    Status := .Failed }) := by
  simp [RestoreOperation.persistResults, h]

/-- C26, refuted as stated: the details of the backup are read and the
`RestoreStart` event is sent, then reading the items from the repository
fails. `Run` returns an error with the status `Failed`, and the only event
sent is `RestoreStart`: no `RestoreEnd` follows it. -/
theorem Run_fails_after_start_without_end_event :
    ∃ r, freshRestore.Run failingRestoreEnv = .ok r
      ∧ r.1.2 ≠ [] ∧ r.2.Status = .Failed
      ∧ r.2.bus = [Event.RestoreStart 100 "b1" 5 "r1"] :=
  ⟨_, rfl, by decide, rfl, rfl⟩

/-- C26, amended: every `Run` that returns sent either no event, or only
`RestoreStart`, or `RestoreStart` followed by exactly one `RestoreEnd`. The
`RestoreEnd` event is sent exactly by the runs that return a nil error, which
end with the status `Completed` or `NoData`; it carries the aggregated counts
of the results, the duration and that final status. A run that fails, before
or after the start event, returns an error and the status `Failed` and sends
no `RestoreEnd`. -/
theorem Run_events (op : RestoreOperation) (env : RestoreEnv)
    (r : (Option Details × List Err) × RestoreOperation) (h : op.Run env = .ok r) :
    (r.1.2 ≠ [] ∧ r.2.Status = .Failed ∧ r.1.1 = none
        ∧ (r.2.bus = op.bus
          ∨ ∃ created, r.2.bus
              = op.bus ++ [Event.RestoreStart env.startTime op.BackupID created env.restoreID]))
      ∨ (r.1.2 = [] ∧ (r.2.Status = .Completed ∨ r.2.Status = .NoData)
        ∧ ∃ created, r.2.bus
            = op.bus ++ [Event.RestoreStart env.startTime op.BackupID created env.restoreID,
                Event.RestoreEnd op.BackupID r.2.Results.BytesRead
                  ((env.endTime : Int) - (env.startTime : Int)) env.endTime
                  r.2.Results.ItemsRead r.2.Results.ItemsWritten r.2.Results.ResourceOwners
                  env.restoreID op.service env.startTime r.2.Status]) := by
  unfold RestoreOperation.Run RestoreOperation.runBody at h
  cases h1 : env.GetDetailsIDFromBackupID with
  | error err =>
    simp only [h1, persistResults_not_started, Except.ok.injEq] at h
    subst h
    exact Or.inl ⟨by simp, rfl, rfl, Or.inl rfl⟩
  | ok v =>
    obtain ⟨dID, creationTime, snapshotID⟩ := v
    simp only [h1] at h
    cases h2 : env.ReadBackupDetails dID with
    | error err =>
      simp only [h2, persistResults_not_started, Except.ok.injEq] at h
      subst h
      exact Or.inl ⟨by simp, rfl, rfl, Or.inl rfl⟩
    | ok deets =>
      simp only [h2] at h
      cases h3 : formatDetailsForRestoration (env.Reduce deets) env.FromDataLayerPath with
      | error err =>
        simp only [h3, persistResults_not_started, Except.ok.injEq] at h
        subst h
        exact Or.inl ⟨by simp, rfl, rfl, Or.inr ⟨creationTime, rfl⟩⟩
      | ok paths =>
        simp only [h3] at h
        cases h4 : env.RestoreMultipleItems snapshotID paths with
        | error err =>
          simp only [h4, persistResults_not_started, Except.ok.injEq] at h
          subst h
          exact Or.inl ⟨by simp, rfl, rfl, Or.inr ⟨creationTime, rfl⟩⟩
        | ok v4 =>
          obtain ⟨dcs, numBytes⟩ := v4
          simp only [h4] at h
          cases h5 : env.connectToM365 with
          | error err =>
            simp only [h5, persistResults_not_started, Except.ok.injEq] at h
            subst h
            exact Or.inl ⟨by simp, rfl, rfl, Or.inr ⟨creationTime, rfl⟩⟩
          | ok u =>
            simp only [h5] at h
            cases h6 : env.RestoreDataCollections dcs with
            | error err =>
              simp only [h6, persistResults_not_started, Except.ok.injEq] at h
              subst h
              exact Or.inl ⟨by simp, rfl, rfl, Or.inr ⟨creationTime, rfl⟩⟩
            | ok v6 =>
              obtain ⟨restoreDetails, status⟩ := v6
              simp only [h6] at h
              cases status with
              | none => simp [RestoreOperation.persistResults] at h
              | some gc =>
                simp only [RestoreOperation.persistResults, Bool.not_true, Bool.false_eq_true,
                  if_false, Except.ok.injEq] at h
                subst h
                refine Or.inr ⟨rfl, ?_, creationTime, by simp⟩
                by_cases hc : gc.Successful = 0 <;> simp [hc]

/-- Instance of the amended C26: a run in which every call succeeds sends
`RestoreStart` and one `RestoreEnd` with two items written in 30 units of
time and the status `Completed`. -/
theorem Run_events_witness :
    ∃ r, freshRestore.Run goodRestoreEnv = .ok r ∧ r.1.2 = []
      ∧ r.2.bus = [Event.RestoreStart 100 "b1" 5 "r1",
          Event.RestoreEnd "b1" 40 30 130 1 2 1 "r1" "exchange" 100 .Completed] := by
  refine ⟨_, rfl, ?_, rfl⟩
  rcases Run_events freshRestore goodRestoreEnv _ rfl with h | h
  · exact absurd h.2.1 (by decide)
  · exact h.1

/-! ## Backups of a repository -/

theorem backupsLoop_eq (GetBackup : String → Option Backup × Option Err) :
    ∀ (ids : List String) (bups : List (Option Backup)) (errs : List Err),
      backupsLoop GetBackup ids bups errs
        = (bups ++ ids.map (fun id => (GetBackup id).1),
            errs ++ ids.filterMap (fun id => (GetBackup id).2)) := by
  intro ids
  induction ids with
  | nil => intro bups errs; simp [backupsLoop]
  | cons id rest ih =>
    intro bups errs
    unfold backupsLoop
    rcases hg : GetBackup id with ⟨b, _ | err⟩
    · simp [ih, hg]
    · simp [ih, hg]

/-- C28, refuted as stated: of the ids `a`, `x` and `b` the store holds `a`
and `b`. `Backups` returns three slots, the second one the nil backup of the
lookup of `x` that failed, where the backups that could be retrieved are
two. -/
theorem Backups_keeps_slot_of_failed_lookup :
    Backups sampleStore ["a", "x", "b"]
      = ([some ⟨"a"⟩, none, some ⟨"b"⟩], [Err.new "not found"]) := by
  decide

/-- C28, amended: for every list of ids, `Backups` returns one slot per id, in
the order of the ids, holding what the lookup of that id returned, the backup
when it succeeded and the (nil) value returned along with the error when it
failed, together with the errors of the failed lookups in order: an error
that is not nil if and only if at least one lookup failed. -/
theorem Backups_slots (GetBackup : String → Option Backup × Option Err) (ids : List String) :
    Backups GetBackup ids
        = (ids.map (fun id => (GetBackup id).1), ids.filterMap (fun id => (GetBackup id).2))
      ∧ ((Backups GetBackup ids).2 ≠ [] ↔ ∃ id ∈ ids, (GetBackup id).2 ≠ none) := by
  have h : Backups GetBackup ids
      = (ids.map (fun id => (GetBackup id).1), ids.filterMap (fun id => (GetBackup id).2)) := by
    simp [Backups, backupsLoop_eq]
  refine ⟨h, ?_⟩
  rw [h]
  simp only [ne_eq, List.filterMap_eq_nil_iff, not_forall]
  constructor
  · rintro ⟨id, hid, hne⟩
    exact ⟨id, hid, hne⟩
  · rintro ⟨id, hid, hne⟩
    exact ⟨id, hid, hne⟩

/-! ## SharePoint data collections -/

theorem sitesLoop_return (env : SharePointEnv) (scope : SharePointScope) (errs : Option Err) :
    ∀ (sites : List String) (collections : List Collection)
      (ret : Option (List Collection) × Option Err),
      sitesLoop env scope errs sites collections = .error ret →
      ret.1 = none ∧ ret.2 ≠ none := by
  intro sites
  induction sites with
  | nil => intro collections ret h; simp [sitesLoop] at h
  | cons site rest ih =>
    intro collections ret h
    unfold sitesLoop at h
    split at h
    · cases h
      simp
    · split at h
      · cases h
        simp
      · exact ih _ _ h
    · exact ih _ _ h

theorem scopesLoop_return (env : SharePointEnv) (errs : Option Err) :
    ∀ (scopes : List SharePointScope) (collections : List Collection)
      (ret : Option (List Collection) × Option Err),
      scopesLoop env errs scopes collections = .error ret →
      ret.1 = none ∧ ret.2 ≠ none := by
  intro scopes
  induction scopes with
  | nil => intro collections ret h; simp [scopesLoop] at h
  | cons scope rest ih =>
    intro collections ret h
    unfold scopesLoop at h
    split at h
    · rename_i ret1 hs
      cases h
      exact sitesLoop_return env scope errs _ _ _ hs
    · exact ih _ _ h

theorem sitesLoop_append (env : SharePointEnv) (scope : SharePointScope) (errs : Option Err) :
    ∀ (s1 s2 : List String) (collections acc : List Collection),
      sitesLoop env scope errs s1 collections = .ok acc →
      sitesLoop env scope errs (s1 ++ s2) collections = sitesLoop env scope errs s2 acc := by
  intro s1
  induction s1 with
  | nil =>
    intro s2 collections acc h
    simp only [sitesLoop, Except.ok.injEq] at h
    simp [h]
  | cons site rest ih =>
    intro s2 collections acc h
    simp only [List.cons_append]
    rw [sitesLoop] at h ⊢
    cases hpt : scope.PathType with
    | ListsCategory => simp [hpt] at h
    | LibrariesCategory =>
      simp only [hpt] at h ⊢
      rcases hc : collectLibraries env site scope with ⟨spcs, _ | e⟩
      · simp only [hc] at h ⊢
        exact ih _ _ _ h
      · simp [hc] at h
    | other =>
      simp only [hpt] at h ⊢
      exact ih _ _ _ h

theorem scopesLoop_append (env : SharePointEnv) (errs : Option Err) :
    ∀ (pre post : List SharePointScope) (collections acc : List Collection),
      scopesLoop env errs pre collections = .ok acc →
      scopesLoop env errs (pre ++ post) collections = scopesLoop env errs post acc := by
  intro pre
  induction pre with
  | nil =>
    intro post collections acc h
    simp only [scopesLoop, Except.ok.injEq] at h
    simp [h]
  | cons scope rest ih =>
    intro post collections acc h
    simp only [List.cons_append]
    rw [scopesLoop] at h ⊢
    cases hs : sitesLoop env scope errs scope.sites collections with
    | error ret => simp [hs] at h
    | ok c1 =>
      simp only [hs] at h ⊢
      exact ih _ _ _ h

/-- C27. `DataCollections` treats a failure of `collectLibraries` as fatal.
Let the scopes before `scope` and the sites of `scope` before `site` have been
gone through without a return, and let `collectLibraries` fail for `site`:
then `DataCollections` returns a nil collection list and an error that is not
nil, the failure wrapped with the site, whatever was gathered before and
whatever sites and scopes come later. In general it returns either a nil list
with an error that is not nil, or a list with a nil error. -/
theorem DataCollections_fatal (env : SharePointEnv) :
    (∀ (pre post : List SharePointScope) (scope : SharePointScope) (s1 s2 : List String)
        (site : String) (acc1 acc2 : List Collection) (err : Err),
        scopesLoop env none pre [] = .ok acc1 → scope.sites = s1 ++ site :: s2 →
        sitesLoop env scope none s1 acc1 = .ok acc2 →
        scope.PathType = .LibrariesCategory →
        (collectLibraries env site scope).2 = some err →
        DataCollections env (.ok (pre ++ scope :: post))
          = (none, some (env.WrapAndAppend site err none)))
      ∧ ∀ scopes, ((DataCollections env scopes).1 = none ∧ (DataCollections env scopes).2 ≠ none)
          ∨ ((DataCollections env scopes).1 ≠ none ∧ (DataCollections env scopes).2 = none) := by
  constructor
  · intro pre post scope s1 s2 site acc1 acc2 err hpre hsites hs1 hlib herr
    have hsite : sitesLoop env scope none (s1 ++ site :: s2) acc1
        = .error (none, some (env.WrapAndAppend site err none)) := by
      rw [sitesLoop_append env scope none s1 (site :: s2) acc1 acc2 hs1]
      unfold sitesLoop
      rcases hc : collectLibraries env site scope with ⟨spcs, e⟩
      rw [hc] at herr
      simp only at herr
      subst herr
      simp [hlib]
    simp only [DataCollections]
    rw [scopesLoop_append env none pre (scope :: post) [] acc1 hpre]
    simp [scopesLoop, hsites, hsite]
  · intro scopes
    cases scopes with
    | error err => exact Or.inl ⟨rfl, by simp [DataCollections]⟩
    | ok scopes =>
      simp only [DataCollections]
      cases hl : scopesLoop env none scopes [] with
      | error ret => exact Or.inl (scopesLoop_return env none scopes [] ret hl)
      | ok collections => exact Or.inr ⟨by simp, rfl⟩

/-- Instance of C27: of the sites `s1`, `bad` and `s2` of one libraries scope
the second cannot be read; the collection gathered for `s1` is dropped and
`s2` is not looked at. -/
theorem DataCollections_fatal_witness :
    DataCollections sampleSharePoint (.ok [⟨.LibrariesCategory, ["s1", "bad", "s2"]⟩])
      = (none, some (sampleSharePoint.WrapAndAppend "bad"
          (Err.wrap (Err.other 4) "bad") none)) :=
  (DataCollections_fatal sampleSharePoint).1 [] [] ⟨.LibrariesCategory, ["s1", "bad", "s2"]⟩
    ["s1"] ["s2"] "bad" [] [unchangedInbox] (Err.wrap (Err.other 4) "bad") rfl rfl rfl rfl rfl

end Corso
